import Mathlib

/-!
Verification development for the blog backend's link-signing, link-rewriting,
view-counter reconciliation, article read path and resource-list cache
subsystems (app/utils/qiniu.py, app/routers/upload.py, app/routers/articles.py,
app/routers/resources.py, app/tasks/jobs.py).

Python strings are modelled as Lean `String`/`List Char`; machine integers as
`Nat`/`Int`; fallible library calls as `Except`/`Option`.  Library helpers used
by the source (`urllib.parse`, `hashlib.md5`, `str.split`, ...) are modelled
byte- and character-faithfully below.
-/

/-! ### Basic character and numeral utilities -/

/-- Lowercase hex digit for a value below 16 (mirrors Python `format(-, 'x')`
digit alphabet). -/
def hexDigitLower (n : Nat) : Char :=
  if n < 10 then Char.ofNat (48 + n) else Char.ofNat (87 + n)

/-- Uppercase hex digit (as produced by `urllib.parse.quote` percent-escapes). -/
def hexDigitUpper (n : Nat) : Char :=
  if n < 10 then Char.ofNat (48 + n) else Char.ofNat (55 + n)

/-- Fuelled big-endian hex digit expansion; fuel is internal plumbing only
(`natToHexLower` supplies enough fuel for any input). -/
def natToHexAux : Nat → Nat → List Char
  | 0, _ => []
  | fuel+1, n =>
    if n < 16 then [hexDigitLower n]
    else natToHexAux fuel (n / 16) ++ [hexDigitLower (n % 16)]

/-- Python `format(n, 'x')` for nonnegative `n`: lowercase hex, no padding. -/
def natToHexLower (n : Nat) : String :=
  String.mk (natToHexAux (n + 1) n)

/-- Fuelled decimal digit expansion (fuel is internal plumbing). -/
def natToDecAux : Nat → Nat → List Char
  | 0, _ => []
  | fuel+1, n =>
    if n < 10 then [Char.ofNat (48 + n)]
    else natToDecAux fuel (n / 10) ++ [Char.ofNat (48 + n % 10)]

/-- Python `str(n)` for a nonnegative integer. -/
def natToDec (n : Nat) : List Char :=
  natToDecAux (n + 1) n

/-- Value of a decimal digit list, most significant first. -/
def decValue (l : List Char) : Nat :=
  l.foldl (fun a c => a * 10 + (c.toNat - 48)) 0

def isAsciiDigit (c : Char) : Bool :=
  decide (48 ≤ c.toNat ∧ c.toNat ≤ 57)

/-- Python `str.isdigit()` restricted to ASCII digits (the decimal digits that
actually occur in the cache keys this code parses): nonempty and all digits. -/
def pyIsDigit (l : List Char) : Bool :=
  decide (l ≠ []) && l.all isAsciiDigit

/-- Python `int(s)` on a decimal string: optional surrounding ASCII whitespace,
optional sign, then at least one digit (digit-grouping underscores are not
modelled; the strings parsed here are plain digit runs). -/
def parsePyInt (l : List Char) : Option Int :=
  let core := (l.dropWhile (fun c => c.toNat ≤ 32)).reverse.dropWhile
      (fun c => c.toNat ≤ 32) |>.reverse
  let signed : Bool × List Char :=
    match core with
    | c :: rest => if c = '-' then (true, rest) else if c = '+' then (false, rest) else (false, core)
    | [] => (false, [])
  match signed with
  | (neg, digits) =>
    if pyIsDigit digits then
      let v : Int := Int.ofNat (decValue digits)
      some (if neg then -v else v)
    else none

/-! ### UTF-8 encoding and decoding

Python percent-codecs work on the UTF-8 bytes of a string; `unquote` decodes
with `errors='replace'`.  Bytes are modelled as `Nat` below 256. -/

/-- UTF-8 encoding of a Unicode code point (valid scalar values only, which is
all a Lean `Char` can hold). -/
def utf8EncodeNat (n : Nat) : List Nat :=
  if n < 128 then [n]
  else if n < 2048 then [192 + n / 64, 128 + n % 64]
  else if n < 65536 then [224 + n / 4096, 128 + n / 64 % 64, 128 + n % 64]
  else [240 + n / 262144, 128 + n / 4096 % 64, 128 + n / 64 % 64, 128 + n % 64]

def utf8Encode (l : List Char) : List Nat :=
  l.flatMap fun c => utf8EncodeNat c.toNat

/-- U+FFFD REPLACEMENT CHARACTER, emitted by `errors='replace'` decoding. -/
def replacementChar : Char := Char.ofNat 65533

def isUtf8Cont (b : Nat) : Bool :=
  decide (128 ≤ b ∧ b ≤ 191)

/-- Allowed second byte after a three-byte lead (excludes overlong encodings
and surrogates, as CPython's UTF-8 decoder does). -/
def utf8Cont2OK (b1 b2 : Nat) : Bool :=
  if b1 = 224 then decide (160 ≤ b2 ∧ b2 ≤ 191)
  else if b1 = 237 then decide (128 ≤ b2 ∧ b2 ≤ 159)
  else isUtf8Cont b2

/-- Allowed second byte after a four-byte lead (excludes overlong encodings and
code points above U+10FFFF). -/
def utf8Cont2OK4 (b1 b2 : Nat) : Bool :=
  if b1 = 240 then decide (144 ≤ b2 ∧ b2 ≤ 191)
  else if b1 = 244 then decide (128 ≤ b2 ∧ b2 ≤ 143)
  else isUtf8Cont b2

/-- UTF-8 decoding with `errors='replace'`: each maximal ill-formed subsequence
becomes one U+FFFD, mirroring CPython's decoder (a truncated or interrupted
sequence is consumed up to its longest valid prefix). -/
def utf8Decode : List Nat → List Char
  | [] => []
  | b :: rest =>
    if b < 128 then Char.ofNat b :: utf8Decode rest
    else if 194 ≤ b ∧ b ≤ 223 then
      match rest with
      | [] => [replacementChar]
      | b2 :: rest2 =>
        if isUtf8Cont b2 then Char.ofNat ((b - 192) * 64 + (b2 - 128)) :: utf8Decode rest2
        else replacementChar :: utf8Decode (b2 :: rest2)
    else if 224 ≤ b ∧ b ≤ 239 then
      match rest with
      | [] => [replacementChar]
      | b2 :: rest2 =>
        if utf8Cont2OK b b2 then
          match rest2 with
          | [] => [replacementChar]
          | b3 :: rest3 =>
            if isUtf8Cont b3 then
              Char.ofNat ((b - 224) * 4096 + (b2 - 128) * 64 + (b3 - 128)) :: utf8Decode rest3
            else replacementChar :: utf8Decode (b3 :: rest3)
        else replacementChar :: utf8Decode (b2 :: rest2)
    else if 240 ≤ b ∧ b ≤ 244 then
      match rest with
      | [] => [replacementChar]
      | b2 :: rest2 =>
        if utf8Cont2OK4 b b2 then
          match rest2 with
          | [] => [replacementChar]
          | b3 :: rest3 =>
            if isUtf8Cont b3 then
              match rest3 with
              | [] => [replacementChar]
              | b4 :: rest4 =>
                if isUtf8Cont b4 then
                  Char.ofNat ((b - 240) * 262144 + (b2 - 128) * 4096 + (b3 - 128) * 64 + (b4 - 128))
                    :: utf8Decode rest4
                else replacementChar :: utf8Decode (b4 :: rest4)
            else replacementChar :: utf8Decode (b3 :: rest3)
        else replacementChar :: utf8Decode (b2 :: rest2)
    else replacementChar :: utf8Decode rest

/-! ### Percent-encoding (`urllib.parse.quote` / `unquote` / `quote_plus` /
`unquote_plus`) -/

/-- The characters `urllib.parse` never escapes: ASCII letters, digits and
`_.-~`. -/
def isAlwaysSafeByte (b : Nat) : Bool :=
  decide ((65 ≤ b ∧ b ≤ 90) ∨ (97 ≤ b ∧ b ≤ 122) ∨ (48 ≤ b ∧ b ≤ 57) ∨
    b = 95 ∨ b = 46 ∨ b = 45 ∨ b = 126)

/-- Percent-escape of one byte, uppercase hex as CPython produces. -/
def pctByte (b : Nat) : List Char :=
  [Char.ofNat 37, hexDigitUpper (b / 16), hexDigitUpper (b % 16)]

/-- `urllib.parse.quote(s, safe=<safeExtra>)`: encode to UTF-8, keep the
always-safe bytes and the extra safe bytes, percent-escape everything else. -/
def pyQuote (safeExtra : List Nat) (s : List Char) : List Char :=
  (utf8Encode s).flatMap fun b =>
    if isAlwaysSafeByte b || safeExtra.contains b then [Char.ofNat b] else pctByte b

/-- `urllib.parse.quote_plus(s, safe='')`: like `quote` with space kept safe,
then spaces turned into `+`. -/
def pyQuotePlus (s : List Char) : List Char :=
  (pyQuote [32] s).map fun c => if c = ' ' then '+' else c

def isHexChar (c : Char) : Bool :=
  decide ((48 ≤ c.toNat ∧ c.toNat ≤ 57) ∨ (97 ≤ c.toNat ∧ c.toNat ≤ 102) ∨
    (65 ≤ c.toNat ∧ c.toNat ≤ 70))

def hexCharVal (c : Char) : Nat :=
  if c.toNat ≤ 57 then c.toNat - 48
  else if c.toNat ≤ 70 then c.toNat - 55
  else c.toNat - 87

/-- Percent-decoding of an ASCII run to bytes (`urllib.parse.unquote_to_bytes`
on text whose characters are all ASCII): `%XX` with hex digits becomes a byte,
everything else passes through as its own byte. -/
def pctDecodeBytes : List Char → List Nat
  | [] => []
  | [c] => if c = Char.ofNat 37 then [37] else [c.toNat]
  | [c, a] => if c = Char.ofNat 37 then 37 :: pctDecodeBytes [a] else c.toNat :: pctDecodeBytes [a]
  | c :: a :: b :: rest =>
    if c = Char.ofNat 37 then
      if isHexChar a && isHexChar b then
        (hexCharVal a * 16 + hexCharVal b) :: pctDecodeBytes rest
      else 37 :: pctDecodeBytes (a :: b :: rest)
    else c.toNat :: pctDecodeBytes (a :: b :: rest)

def isAsciiCh (c : Char) : Bool :=
  decide (c.toNat ≤ 127)

/-- Fuelled worker for `unquote`; each step consumes at least one character,
so `pyUnquote` below supplies enough fuel for the fuel never to run out. -/
def pyUnquoteAux : Nat → List Char → List Char
  | 0, _ => []
  | _+1, [] => []
  | fuel+1, c :: rest =>
    if isAsciiCh c then
      utf8Decode (pctDecodeBytes (List.takeWhile isAsciiCh (c :: rest))) ++
        pyUnquoteAux fuel (List.dropWhile isAsciiCh (c :: rest))
    else
      List.takeWhile (fun x => !isAsciiCh x) (c :: rest) ++
        pyUnquoteAux fuel (List.dropWhile (fun x => !isAsciiCh x) (c :: rest))

/-- `urllib.parse.unquote(s, errors='replace')`: maximal ASCII runs are
percent-decoded to bytes and UTF-8-decoded with replacement; non-ASCII runs
pass through unchanged. -/
def pyUnquote (l : List Char) : List Char :=
  pyUnquoteAux l.length l

/-- `urllib.parse.unquote_plus`: `+` becomes a space, then `unquote`. -/
def pyUnquotePlus (l : List Char) : List Char :=
  pyUnquote (l.map fun c => if c = '+' then ' ' else c)

/-! ### MD5 (`hashlib.md5`), over byte lists -/

def md5K : List Nat :=
  [3614090360, 3905402710, 606105819, 3250441966,
   4118548399, 1200080426, 2821735955, 4249261313,
   1770035416, 2336552879, 4294925233, 2304563134,
   1804603682, 4254626195, 2792965006, 1236535329,
   4129170786, 3225465664, 643717713, 3921069994,
   3593408605, 38016083, 3634488961, 3889429448,
   568446438, 3275163606, 4107603335, 1163531501,
   2850285829, 4243563512, 1735328473, 2368359562,
   4294588738, 2272392833, 1839030562, 4259657740,
   2763975236, 1272893353, 4139469664, 3200236656,
   681279174, 3936430074, 3572445317, 76029189,
   3654602809, 3873151461, 530742520, 3299628645,
   4096336452, 1126891415, 2878612391, 4237533241,
   1700485571, 2399980690, 4293915773, 2240044497,
   1873313359, 4264355552, 2734768916, 1309151649,
   4149444226, 3174756917, 718787259, 3951481745]

def md5S : List Nat :=
  [7, 12, 17, 22, 7, 12, 17, 22, 7, 12, 17, 22, 7, 12, 17, 22,
   5, 9, 14, 20, 5, 9, 14, 20, 5, 9, 14, 20, 5, 9, 14, 20,
   4, 11, 16, 23, 4, 11, 16, 23, 4, 11, 16, 23, 4, 11, 16, 23,
   6, 10, 15, 21, 6, 10, 15, 21, 6, 10, 15, 21, 6, 10, 15, 21]

def w32 : Nat := 4294967296

def not32 (x : Nat) : Nat := 4294967295 - x

def rotl32 (x n : Nat) : Nat :=
  ((x <<< n) + (x >>> (32 - n))) % w32

/-- Little-endian 32-bit words of a 64-byte chunk. -/
def chunkWords : List Nat → List Nat
  | b0 :: b1 :: b2 :: b3 :: rest => (b0 + b1 * 256 + b2 * 65536 + b3 * 16777216) :: chunkWords rest
  | _ => []

/-- One MD5 step; `i` is the round index, state is `(a, b, c, d)`. -/
def md5Step (m : List Nat) (st : Nat × Nat × Nat × Nat) (i : Nat) : Nat × Nat × Nat × Nat :=
  match st with
  | (a, b, c, d) =>
    let f :=
      if i < 16 then (b &&& c) ||| (not32 b &&& d)
      else if i < 32 then (d &&& b) ||| (not32 d &&& c)
      else if i < 48 then b ^^^ c ^^^ d
      else c ^^^ (b ||| not32 d)
    let g :=
      if i < 16 then i
      else if i < 32 then (5 * i + 1) % 16
      else if i < 48 then (3 * i + 5) % 16
      else (7 * i) % 16
    let f2 := (f + a + md5K.getD i 0 + m.getD g 0) % w32
    (d, (b + rotl32 f2 (md5S.getD i 0)) % w32, b, c)

def md5Chunk (st : Nat × Nat × Nat × Nat) (chunk : List Nat) : Nat × Nat × Nat × Nat :=
  let m := chunkWords chunk
  let r := (List.range 64).foldl (md5Step m) st
  match st, r with
  | (a0, b0, c0, d0), (a, b, c, d) =>
    ((a0 + a) % w32, (b0 + b) % w32, (c0 + c) % w32, (d0 + d) % w32)

/-- Fuelled split into 64-byte chunks (fuel is internal plumbing). -/
def chunks64 : Nat → List Nat → List (List Nat)
  | 0, _ => []
  | _+1, [] => []
  | fuel+1, l => l.take 64 :: chunks64 fuel (l.drop 64)

def le8Bytes (n : Nat) : List Nat :=
  [n % 256, n / 256 % 256, n / 65536 % 256, n / 16777216 % 256,
   n / 4294967296 % 256, n / 1099511627776 % 256,
   n / 281474976710656 % 256, n / 72057594037927936 % 256]

def md5Pad (msg : List Nat) : List Nat :=
  msg ++ 128 :: List.replicate ((119 - msg.length % 64) % 64) 0 ++
    le8Bytes (msg.length * 8 % 18446744073709551616)

def md5Bytes (msg : List Nat) : List Nat :=
  let padded := md5Pad msg
  let st := (chunks64 (padded.length) padded).foldl md5Chunk
    (1732584193, 4023233417, 2562383102, 271733878)
  match st with
  | (a, b, c, d) =>
    (le8Bytes a).take 4 ++ (le8Bytes b).take 4 ++ (le8Bytes c).take 4 ++ (le8Bytes d).take 4

def byteToHexLower (b : Nat) : List Char :=
  [hexDigitLower (b / 16), hexDigitLower (b % 16)]

/-- `hashlib.md5(s.encode('utf-8')).hexdigest()`: lowercase hex digest. -/
def md5Hex (s : String) : String :=
  String.mk ((md5Bytes (utf8Encode s.data)).flatMap byteToHexLower)

/-! ### Application-level link signature (app/utils/qiniu.py lines 9-19 and its
duplicate in app/routers/upload.py lines 13-25) -/

def URL_SIGN_SECRET : String := "martin_blog_2024_secret_key"

/-- Python `generate_signed_key`: md5 hex digest of `f"{key}-{timestamp}-{URL_SIGN_SECRET}"`. -/
def generate_signed_key (key : String) (timestamp : Int) : String :=
  md5Hex (key ++ "-" ++ toString timestamp ++ "-" ++ URL_SIGN_SECRET)

/-- Python `verify_signed_key`: recompute the digest and compare. -/
def verify_signed_key (key : String) (timestamp : Int) (sign : String) : Bool :=
  sign == generate_signed_key key timestamp

/-- The guard of the `/upload/signed-url` endpoint (app/routers/upload.py lines
171-178): reject when the signature fails to verify, then reject when
`now - t > 3600`.  Returns `true` when the request is accepted. -/
def get_signed_url_auth (key : String) (t : Int) (sign : String) (now : Int) : Bool :=
  verify_signed_key key t sign && !(decide (now - t > 3600))

/-! ### Provider timestamp-signed URLs (app/utils/qiniu.py lines 21-47, the
same algorithm appears in app/routers/upload.py lines 28-70).  The wall clock
`int(time.time())` is passed explicitly as `now`. -/

/-- Python `str.split(sep)` for a one-character separator (empty input gives
one empty field, like Python). -/
def splitOnChar (sep : Char) : List Char → List (List Char)
  | [] => [[]]
  | c :: rest =>
    if c = sep then [] :: splitOnChar sep rest
    else
      match splitOnChar sep rest with
      | h :: t => (c :: h) :: t
      | [] => [[c]]

/-- The body of `generate_qiniu_timestamp_url` inside the `try:` block; all the
operations it performs are total, so it is written in `Except` to mirror the
source's exception handling. -/
def generate_qiniu_timestamp_urlE (base_url key timestamp_key : String)
    (expire_seconds now : Nat) : Except String String := do
  let expire_time := now + expire_seconds
  let t := natToHexLower expire_time
  let path := if key.startsWith ("/") then key else "/" ++ key
  let encoded_path := List.intercalate (['/']) ((splitOnChar '/' path.data).map (pyQuote []))
  let sign := md5Hex (timestamp_key ++ String.mk encoded_path ++ t)
  let separator := if base_url.data.contains '?' then "&" else "?"
  return base_url ++ separator ++ "sign=" ++ sign ++ "&t=" ++ t

/-- Python `generate_qiniu_timestamp_url` (app/utils/qiniu.py): the `try:` body
with the `except` branch returning `base_url` unchanged. -/
def generate_qiniu_timestamp_url (base_url key timestamp_key : String)
    (expire_seconds now : Nat) : String :=
  match generate_qiniu_timestamp_urlE base_url key timestamp_key expire_seconds now with
  | .ok u => u
  | .error _ => base_url

/-- Modelled from the spec (§4.2.2 and claim C5): `buildTimestampSignedUrl`
computes the expiry instant, hex-encodes it in lowercase, percent-encodes each
`/`-separated path segment independently preserving the separators, takes the
md5 digest of `timestampSecret + encodedPath + hexExpiry` in lowercase hex, and
appends `sign=<digest>&t=<hexExpiry>` using `&` when the base URL already has a
query string and `?` otherwise. -/
def buildTimestampSignedUrlSpec (baseUrl key timestampSecret : String)
    (expirySeconds now : Nat) : String :=
  let hexExpiry := natToHexLower (now + expirySeconds)
  let path := if key.startsWith ("/") then key else "/" ++ key
  let encodedPath :=
    List.intercalate (['/']) ((splitOnChar '/' path.data).map (pyQuote []))
  let digest := md5Hex (timestampSecret ++ String.mk encodedPath ++ hexExpiry)
  baseUrl ++ (if baseUrl.data.contains '?' then "&" else "?") ++
    "sign=" ++ digest ++ "&t=" ++ hexExpiry

/-! ### The `urllib.parse` model used by `strip_qiniu_params` and
`refresh_qiniu_params_in_content` -/

/-- Characters matched by the regex class `\s` (Python `re` on `str`). -/
def isPySpace (c : Char) : Bool :=
  List.contains [9, 10, 11, 12, 13, 28, 29, 30, 31, 32, 133, 160, 5760] c.toNat ||
  decide (8192 ≤ c.toNat ∧ c.toNat ≤ 8202) ||
  List.contains [8232, 8233, 8239, 8287, 12288] c.toNat

/-- A character that ends a URL match of the pattern
`https?://<domain>[^\s\"')\]]*`. -/
def isUrlTerm (c : Char) : Bool :=
  isPySpace c || c = Char.ofNat 34 || c = Char.ofNat 39 || c = ')' || c = ']'

def isAsciiAlpha (c : Char) : Bool :=
  decide ((65 ≤ c.toNat ∧ c.toNat ≤ 90) ∨ (97 ≤ c.toNat ∧ c.toNat ≤ 122))

def isSchemeChar (c : Char) : Bool :=
  isAsciiAlpha c || isAsciiDigit c || c = '+' || c = '-' || c = '.'

/-- Split at the first occurrence of `sep` (Python `split(sep, 1)` when it
finds one). -/
def splitFirstAt (sep : Char) : List Char → Option (List Char × List Char)
  | [] => none
  | c :: rest =>
    if c = sep then some ([], rest)
    else (splitFirstAt sep rest).map fun p => (c :: p.1, p.2)

structure SplitResultPy where
  scheme : List Char
  netloc : List Char
  path : List Char
  query : List Char
  fragment : List Char
deriving Repr, DecidableEq

structure UrlParts where
  scheme : List Char
  netloc : List Char
  path : List Char
  params : List Char
  query : List Char
  fragment : List Char
deriving Repr, DecidableEq

def lstripC0Space (l : List Char) : List Char :=
  l.dropWhile fun c => c.toNat ≤ 32

def removeUnsafeUrlBytes (l : List Char) : List Char :=
  l.filter fun c => !(c = Char.ofNat 9 || c = Char.ofNat 13 || c = Char.ofNat 10)

def bracketMismatch (netloc : List Char) : Bool :=
  (netloc.contains '[' && !netloc.contains ']') ||
  (netloc.contains ']' && !netloc.contains '[')

/-- Scheme extraction step of `urlsplit`: a leading `<scheme>:` is split off
when the part before the first colon is a nonempty run of scheme characters
starting with an ASCII letter; the scheme is lowercased. -/
def splitSchemePy (url : List Char) : List Char × List Char :=
  match splitFirstAt ':' url with
  | some (before, after) =>
    if decide (before ≠ []) && isAsciiAlpha (before.headD ' ') && before.all isSchemeChar then
      (before.map Char.toLower, after)
    else ([], url)
  | none => ([], url)

def isNetlocEnd (c : Char) : Bool :=
  c = '/' || c = '?' || c = Char.ofNat 35

/-- Python `_splitnetloc`: everything up to the first of `/?#`. -/
def splitNetlocPy (l : List Char) : List Char × List Char :=
  (l.takeWhile (fun c => !isNetlocEnd c), l.dropWhile (fun c => !isNetlocEnd c))

/-- `urllib.parse.urlsplit` (allow_fragments=True).  The modelled failure is
the mismatched-bracket `ValueError`.  Two further CPython checks are not
modelled: the validation of a bracketed IP literal (it needs a `]` inside the
netloc, and `]` terminates the URL regex of this module, so it can fire only
for domains that themselves contain brackets) and the NFKC netloc check (only
non-ASCII netlocs that normalize into `/?#@:` can trigger it).  None of the
theorems below quantify over such domains. -/
def urlsplitPy (url0 : List Char) : Except Unit SplitResultPy :=
  let url1 := removeUnsafeUrlBytes (lstripC0Space url0)
  let sp := splitSchemePy url1
  let np :=
    if sp.2.take 2 = ['/', '/'] then splitNetlocPy (sp.2.drop 2) else ([], sp.2)
  if bracketMismatch np.1 then .error () else
  let fp :=
    match splitFirstAt (Char.ofNat 35) np.2 with
    | some p => p
    | none => (np.2, [])
  let qp :=
    match splitFirstAt '?' fp.1 with
    | some p => p
    | none => (fp.1, [])
  .ok ⟨sp.1, np.1, qp.1, qp.2, fp.2⟩

/-- Python `_splitparams`: split the path at the first `;` that occurs in its
last `/`-separated segment. -/
def splitParamsPy (url : List Char) : List Char × List Char :=
  let seg := if url.contains '/' then (url.reverse.takeWhile (fun c => c ≠ '/')).reverse else url
  let ini := url.take (url.length - seg.length)
  match splitFirstAt ';' seg with
  | none => (url, [])
  | some p => (ini ++ p.1, p.2)

/-- `urllib.parse.urlparse`. -/
def urlparsePy (url : List Char) : Except Unit UrlParts :=
  match urlsplitPy url with
  | .error e => .error e
  | .ok r =>
    let pp := splitParamsPy r.path
    .ok ⟨r.scheme, r.netloc, pp.1, pp.2, r.query, r.fragment⟩

/-- The `uses_netloc` scheme registry of `urllib.parse` (CPython 3.11). -/
def usesNetlocSchemes : List (List Char) :=
  [[], ("ftp").data, ("http").data, ("gopher").data, ("nntp").data, ("telnet").data,
   ("imap").data, ("wais").data, ("file").data, ("mms").data, ("https").data,
   ("shttp").data, ("snews").data, ("prospero").data, ("rtsp").data, ("rtsps").data,
   ("rtspu").data, ("rsync").data, ("svn").data, ("svn+ssh").data, ("sftp").data,
   ("nfs").data, ("git").data, ("git+ssh").data, ("ws").data, ("wss").data]

/-- `urllib.parse.urlunsplit` (CPython 3.11: the `//` is restored whenever the
netloc is nonempty, or the scheme is a netloc-using scheme and the path does
not already begin with `//`). -/
def urlunsplitPy (scheme netloc url query fragment : List Char) : List Char :=
  let url2 :=
    if netloc ≠ [] ∨ (scheme ≠ [] ∧ scheme ∈ usesNetlocSchemes ∧ url.take 2 ≠ ['/', '/']) then
      ('/' :: '/' :: netloc) ++ (if url ≠ [] ∧ url.take 1 ≠ ['/'] then '/' :: url else url)
    else url
  let url3 := if scheme ≠ [] then scheme ++ ':' :: url2 else url2
  let url4 := if query ≠ [] then url3 ++ '?' :: query else url3
  if fragment ≠ [] then url4 ++ Char.ofNat 35 :: fragment else url4

/-- `urllib.parse.urlunparse`. -/
def urlunparsePy (p : UrlParts) : List Char :=
  let url := if p.params ≠ [] then p.path ++ ';' :: p.params else p.path
  urlunsplitPy p.scheme p.netloc url p.query p.fragment

def plusToSpace (l : List Char) : List Char :=
  l.map fun c => if c = '+' then ' ' else c

/-- `urllib.parse.parse_qsl(qs)` with the default `keep_blank_values=False`,
`separator='&'`: empty fields, fields without `=` and fields with an empty
value are dropped; names and values get `+`→space then `unquote`. -/
def parseQslPy (qs : List Char) : List (List Char × List Char) :=
  (splitOnChar '&' qs).filterMap fun nv =>
    if nv = [] then none
    else
      match splitFirstAt '=' nv with
      | none => none
      | some p =>
        if p.2 = [] then none
        else some (pyUnquote (plusToSpace p.1), pyUnquote (plusToSpace p.2))

/-- One `name=value` field of `parse_qsl` (the body of its per-field loop),
factored out of `parseQslPy` for reasoning. -/
def qslField (nv : List Char) : Option (List Char × List Char) :=
  if nv = [] then none
  else
    match splitFirstAt '=' nv with
    | none => none
    | some p =>
      if p.2 = [] then none
      else some (pyUnquote (plusToSpace p.1), pyUnquote (plusToSpace p.2))

/-- Insertion into the `parse_qs` result dict: append to an existing key's
list, else add the key at the end (Python dict insertion order). -/
def qsUpsert (m : List (List Char × List (List Char))) (k : List Char) (v : List Char) :
    List (List Char × List (List Char)) :=
  match m with
  | [] => [(k, [v])]
  | (k0, vs) :: rest => if k0 = k then (k0, vs ++ [v]) :: rest else (k0, vs) :: qsUpsert rest k v

/-- `urllib.parse.parse_qs(qs)`. -/
def parseQsPy (qs : List Char) : List (List Char × List (List Char)) :=
  (parseQslPy qs).foldl (fun m p => qsUpsert m p.1 p.2) []

/-- `urllib.parse.urlencode(m, doseq=True)` on a `parse_qs`-style dict. -/
def urlencodePy (m : List (List Char × List (List Char))) : List Char :=
  List.intercalate (['&']) (m.flatMap fun p => p.2.map fun v => pyQuotePlus p.1 ++ '=' :: pyQuotePlus v)

/-- The two `del query_params[...]` statements: drop the `sign` and `t` keys. -/
def removeSignT (m : List (List Char × List (List Char))) : List (List Char × List (List Char)) :=
  m.filter fun p => decide (p.1 ≠ ("sign").data ∧ p.1 ≠ ("t").data)

/-- The `replacer` closure of `strip_qiniu_params`: parse the matched URL,
remove `sign`/`t` from its query, re-encode and reassemble; on a parse error
the match is returned unchanged (the bare `except:`). -/
def stripReplacer (u : List Char) : List Char :=
  match urlparsePy u with
  | .error _ => u
  | .ok p => urlunparsePy { p with query := urlencodePy (removeSignT (parseQsPy p.query)) }

/-- The `replacer` closure of `refresh_qiniu_params_in_content`: clean the URL
like `stripReplacer`, extract the object key as the path without leading
slashes, and re-sign with `generate_qiniu_timestamp_url`; empty keys and parse
errors return the match unchanged. -/
def refreshReplacer (timestamp_key : String) (expire_seconds now : Nat) (u : List Char) : List Char :=
  match urlparsePy u with
  | .error _ => u
  | .ok p =>
    let clean_url := urlunparsePy { p with query := urlencodePy (removeSignT (parseQsPy p.query)) }
    let key := p.path.dropWhile (fun c => c = '/')
    if key = [] then u
    else (generate_qiniu_timestamp_url (String.mk clean_url) (String.mk key)
      timestamp_key expire_seconds now).data

def httpsPfx (dom : List Char) : List Char := ("https://").data ++ dom

def httpPfx (dom : List Char) : List Char := ("http://").data ++ dom

/-- Maximal run of non-terminator characters, the `[^\s\"')\]]*` tail of a
match. -/
def urlRunTake (l : List Char) : List Char :=
  l.takeWhile fun c => !isUrlTerm c

/-- Decomposition of a string by the regex scan of
`re.sub(rf"https?://{re.escape(domain)}[^\s\"')\]]*", repl, content)`:
a list of (gap, match) pieces whose concatenation is the input; the final
piece carries the trailing gap with an empty match. -/
def scanPiecesAux (dom : List Char) : Nat → List Char → List (List Char × List Char)
  | 0, _ => []
  | _+1, [] => []
  | fuel+1, c :: rest =>
    if (httpsPfx dom).isPrefixOf (c :: rest) then
      let run := urlRunTake ((c :: rest).drop (httpsPfx dom).length)
      ([], httpsPfx dom ++ run) ::
        scanPiecesAux dom fuel ((c :: rest).drop ((httpsPfx dom).length + run.length))
    else if (httpPfx dom).isPrefixOf (c :: rest) then
      let run := urlRunTake ((c :: rest).drop (httpPfx dom).length)
      ([], httpPfx dom ++ run) ::
        scanPiecesAux dom fuel ((c :: rest).drop ((httpPfx dom).length + run.length))
    else
      match scanPiecesAux dom fuel rest with
      | [] => [([c], [])]
      | (g, m) :: ps => ((c :: g), m) :: ps

def scanPieces (dom : List Char) (l : List Char) : List (List Char × List Char) :=
  scanPiecesAux dom l.length l

def joinPieces (ps : List (List Char × List Char)) : List Char :=
  ps.flatMap fun p => p.1 ++ p.2

/-- `re.sub` with the URL pattern: gaps are kept, every (nonempty) match is
replaced by `repl` applied to it. -/
def reSubUrls (dom : List Char) (repl : List Char → List Char) (s : List Char) : List Char :=
  joinPieces ((scanPieces dom s).map fun p => (p.1, if p.2.isEmpty then p.2 else repl p.2))

def removeAllSubAux (pat : List Char) : Nat → List Char → List Char
  | 0, l => l
  | _+1, [] => []
  | fuel+1, c :: rest =>
    if pat ≠ [] ∧ pat.isPrefixOf (c :: rest) then
      removeAllSubAux pat fuel ((c :: rest).drop pat.length)
    else c :: removeAllSubAux pat fuel rest

/-- Python `str.replace(pat, "")` for a nonempty pattern. -/
def removeAllSub (pat : List Char) (l : List Char) : List Char :=
  removeAllSubAux pat l.length l

/-- The domain with its protocol stripped:
`qiniu_domain.replace("http://", "").replace("https://", "")`. -/
def stripDomainScheme (qiniu_domain : String) : List Char :=
  removeAllSub (("https://").data) (removeAllSub (("http://").data) qiniu_domain.data)

/-- Python `strip_qiniu_params` (app/utils/qiniu.py lines 49-110). -/
def strip_qiniu_params (content qiniu_domain : String) : String :=
  if content = "" ∨ qiniu_domain = "" then content
  else String.mk (reSubUrls (stripDomainScheme qiniu_domain) stripReplacer content.data)

/-- Python `refresh_qiniu_params_in_content` (app/utils/qiniu.py lines
112-159); `now` is the wall clock read by the inner
`generate_qiniu_timestamp_url` call. -/
def refresh_qiniu_params_in_content (content qiniu_domain timestamp_key : String)
    (expire_seconds now : Nat) : String :=
  if content = "" ∨ qiniu_domain = "" ∨ timestamp_key = "" then content
  else String.mk (reSubUrls (stripDomainScheme qiniu_domain)
    (refreshReplacer timestamp_key expire_seconds now) content.data)

/-! ### View-counter reconciler (app/tasks/jobs.py, `sync_views_to_db`)

The Redis keyspace is an association list of string keys to string values
(`decode_responses=True`); the durable store is a list of article rows.  The
SQLAlchemy session is modelled explicitly: updates mutate a pending state and
only `db.commit()` publishes it; any exception triggers `db.rollback()`,
leaving the committed state untouched.  `failAt = some k` injects an exception
right before the k-th buffered update executes (`k = updates.length` makes the
final `commit` itself fail). -/

structure ArticleRec where
  id : Nat
  title : String
  summary : String
  content : String
  cover : Option String
  is_published : Bool
  is_protected : Bool
  protection_question : Option String
  protection_answer : Option String
  view_count : Int
  comment_count : Int
  like_count : Int
deriving Repr, DecidableEq

def redisLookup (redis : List (String × String)) (k : String) : Option String :=
  (redis.find? fun p => p.1 == k).map fun p => p.2

/-- Glob match for `scan_iter(match="article:*:views")`. -/
def viewKeyGlob (k : String) : Bool :=
  (("article:").data).isPrefixOf k.data && ((":views").data).isSuffixOf (k.data.drop 8)

/-- The key-parsing and value-reading loop of `sync_views_to_db`: split the key
on `:`, require exactly three parts with a decimal article id, read the
counter, skip falsy values, parse the integer; any per-key failure is caught
and the key skipped.  Duplicate ids overwrite (`updates[article_id] = ...`). -/
def dictAssign (m : List (Nat × Int)) (k : Nat) (v : Int) : List (Nat × Int) :=
  match m with
  | [] => [(k, v)]
  | (k0, v0) :: rest => if k0 = k then (k0, v) :: rest else (k0, v0) :: dictAssign rest k v

def viewSyncUpdates (redis : List (String × String)) : List (Nat × Int) :=
  ((redis.map fun p => p.1).filter viewKeyGlob).foldl
    (fun acc k =>
      match splitOnChar ':' k.data with
      | [_, p1, _] =>
        if pyIsDigit p1 then
          match redisLookup redis k with
          | some v =>
            if v = "" then acc
            else
              match parsePyInt v.data with
              | some n => dictAssign acc (decValue p1) n
              | none => acc
          | none => acc
        else acc
      | _ => acc)
    []

/-- `db.query(Article).filter(Article.id == aid).update({"view_count": c})`. -/
def dbSetViewCount (db : List ArticleRec) (aid : Nat) (c : Int) : List ArticleRec :=
  db.map fun a => if a.id = aid then { a with view_count := c } else a

/-- Run the buffered updates of one pass against the session's pending state;
`failAt = some 0` raises at the current step. -/
def applySteps : List ArticleRec → List (Nat × Int) → Option Nat → Except Unit (List ArticleRec)
  | _, _, some 0 => .error ()
  | pending, [], _ => .ok pending
  | pending, (aid, c) :: rest, fa =>
    applySteps (dbSetViewCount pending aid c) rest (fa.map fun n => n - 1)

/-- One pass of the scheduled job `sync_views_to_db`: collect `(id, count)`
pairs from the fast counters, no-op when empty, otherwise run every update and
commit; on an exception the whole pass rolls back. -/
def sync_views_to_db (redis : List (String × String)) (db : List ArticleRec)
    (failAt : Option Nat) : List ArticleRec :=
  let updates := viewSyncUpdates redis
  if updates = [] then db
  else
    match applySteps db updates failAt with
    | .ok pending => pending
    | .error _ => db

/-! ### Article read path and write path (app/routers/articles.py) -/

/-- The slice of `Settings` this subsystem reads.  `QINIU_TIMESTAMP_KEY` is a
nullable string column; `None` and `""` are both falsy in
`is_qiniu_timestamp_enabled`, so they are collapsed to `""`. -/
structure SettingsRec where
  QINIU_DOMAIN : String
  QINIU_TIMESTAMP_ENABLED : Bool
  QINIU_TIMESTAMP_KEY : String
  QINIU_TIMESTAMP_EXPIRE : Nat
deriving Repr, DecidableEq

def is_qiniu_timestamp_enabled (s : SettingsRec) : Bool :=
  s.QINIU_TIMESTAMP_ENABLED && s.QINIU_TIMESTAMP_KEY != ""

/-- The requesting user as the read path sees it: absent, or carrying an
`is_admin` flag. -/
def isAdminUser (current_user : Option Bool) : Bool :=
  current_user.getD false

/-- Fields of the article detail response that the spec's claims mention
(category and tag expansions are not modelled). -/
structure ArticleDetailResp where
  code : Nat
  msg : String
  title : String
  summary : String
  content : String
  cover : Option String
  is_protected : Bool
  protection_question : Option String
  viewCount : Int
deriving Repr, DecidableEq

inductive GetArticleResult where
  | notFound : GetArticleResult
  | detail (resp : ArticleDetailResp) : GetArticleResult
deriving Repr, DecidableEq

def protectedPlaceholder : String := "文章受保护，请输入验证答案后查看。"

/-- `GET /articles/{article_id}` (app/routers/articles.py lines 299-403).
Returns the response together with the database and cache states after the
request (the handler never touches the Redis cache on this path, but has it in
scope; it is threaded through to state that).  `now` is the wall clock used by
link refreshing. -/
def get_article (db : List ArticleRec) (redis : List (String × String))
    (article_id : Nat) (answer : Option String) (current_user : Option Bool)
    (settings : SettingsRec) (now : Nat) :
    GetArticleResult × List ArticleRec × List (String × String) :=
  match db.find? fun a => a.id == article_id with
  | none => (.notFound, db, redis)
  | some article =>
    if ¬ article.is_published ∧ ¬ isAdminUser current_user then (.notFound, db, redis)
    else
      let article2 := { article with view_count := article.view_count + 1 }
      let db2 := db.map fun a => if a.id = article_id then article2 else a
      let show_content :=
        if article2.is_protected then
          if isAdminUser current_user then true
          else
            match answer with
            | some a => decide (a ≠ "") && (article2.protection_answer == some a)
            | none => false
        else true
      let content0 := if show_content then article2.content else protectedPlaceholder
      let content :=
        if is_qiniu_timestamp_enabled settings && show_content then
          refresh_qiniu_params_in_content content0 settings.QINIU_DOMAIN
            settings.QINIU_TIMESTAMP_KEY settings.QINIU_TIMESTAMP_EXPIRE now
        else content0
      let cover :=
        match article2.cover with
        | some c =>
          if is_qiniu_timestamp_enabled settings && c != "" then
            some (refresh_qiniu_params_in_content c settings.QINIU_DOMAIN
              settings.QINIU_TIMESTAMP_KEY settings.QINIU_TIMESTAMP_EXPIRE now)
          else some c
        | none => none
      (.detail
        { code := if show_content then 200 else 403
          msg := if show_content then "success" else "protected"
          title := article2.title
          summary := article2.summary
          content := content
          cover := cover
          is_protected := article2.is_protected
          protection_question := if article2.is_protected then article2.protection_question else none
          viewCount := article2.view_count },
        db2, redis)

/-- The request body of `POST /articles` (fields relevant to link stripping). -/
structure ArticleCreateIn where
  title : String
  summary : String
  content : String
  cover : Option String
  is_published : Bool
  is_protected : Bool
  protection_question : Option String
  protection_answer : Option String
deriving Repr, DecidableEq

/-- `POST /articles` (app/routers/articles.py lines 86-132), restricted to the
persistence of `content` and `cover` (category/tag bookkeeping is not
modelled): when timestamp signing is enabled the content is stripped, and a
truthy cover is stripped. -/
def create_article (db : List ArticleRec) (inp : ArticleCreateIn)
    (settings : SettingsRec) (newId : Nat) : List ArticleRec :=
  let content :=
    if is_qiniu_timestamp_enabled settings then
      strip_qiniu_params inp.content settings.QINIU_DOMAIN
    else inp.content
  let cover :=
    match inp.cover with
    | some c =>
      if is_qiniu_timestamp_enabled settings && c != "" then
        some (strip_qiniu_params c settings.QINIU_DOMAIN)
      else some c
    | none => none
  db ++ [{ id := newId, title := inp.title, summary := inp.summary,
           content := content, cover := cover,
           is_published := inp.is_published, is_protected := inp.is_protected,
           protection_question := inp.protection_question,
           protection_answer := inp.protection_answer,
           view_count := 0, comment_count := 0, like_count := 0 }]

/-- The request body of `PUT /articles/{id}`; `none` fields are absent. -/
structure ArticleUpdateIn where
  title : Option String
  summary : Option String
  content : Option String
  cover : Option String
  is_published : Option Bool
  is_protected : Option Bool
  protection_question : Option String
  protection_answer : Option String
deriving Repr, DecidableEq

/-- `PUT /articles/{article_id}` (app/routers/articles.py lines 135-190),
restricted to the persisted fields: a provided `content` is stripped when
timestamp signing is enabled, a provided truthy `cover` likewise. -/
def update_article (db : List ArticleRec) (article_id : Nat)
    (inp : ArticleUpdateIn) (settings : SettingsRec) : List ArticleRec :=
  db.map fun a =>
    if a.id = article_id then
      { a with
        title := inp.title.getD a.title
        summary := inp.summary.getD a.summary
        content :=
          match inp.content with
          | some c =>
            if is_qiniu_timestamp_enabled settings then
              strip_qiniu_params c settings.QINIU_DOMAIN
            else c
          | none => a.content
        cover :=
          match inp.cover with
          | some c =>
            if is_qiniu_timestamp_enabled settings && c != "" then
              some (strip_qiniu_params c settings.QINIU_DOMAIN)
            else some c
          | none => a.cover
        is_published := inp.is_published.getD a.is_published
        is_protected := inp.is_protected.getD a.is_protected
        protection_question :=
          match inp.protection_question with
          | some q => some q
          | none => a.protection_question
        protection_answer :=
          match inp.protection_answer with
          | some q => some q
          | none => a.protection_answer }
    else a

/-- A URL carries no `sign`/`t` query parameters in the parser's sense (a URL
that fails to parse has no parsed parameters at all). -/
def urlSignTFree (u : List Char) : Bool :=
  match urlparsePy u with
  | .error _ => true
  | .ok p =>
    decide ((("sign").data ∉ (parseQsPy p.query).map fun q => q.1) ∧
      (("t").data ∉ (parseQsPy p.query).map fun q => q.1))

/-- Every URL of `s` matched by the scan for `dom` is free of `sign`/`t`
parameters. -/
def contentSignTFree (dom : List Char) (s : List Char) : Bool :=
  (scanPieces dom s).all fun p => urlSignTFree p.2

/-! ### Resource list cache with generation-counter invalidation
(app/routers/resources.py) -/

structure ResourceRec where
  id : Nat
  filename : String
  key : String
  url : String
  media_type : String
deriving Repr, DecidableEq

/-- A cached value: the version counter holds an integer string, the list
entries hold a serialized page (records, total, current, size).  The JSON
encoding round-trips these payloads; the model stores them structurally. -/
inductive CacheVal where
  | str (s : String)
  | page (records : List ResourceRec) (total current size : Nat)
deriving Repr, DecidableEq

def cacheLookup (st : List (String × CacheVal)) (k : String) : Option CacheVal :=
  (st.find? fun p => p.1 == k).map fun p => p.2

def cacheStore (st : List (String × CacheVal)) (k : String) (v : CacheVal) :
    List (String × CacheVal) :=
  if (st.find? fun p => p.1 == k).isSome then
    st.map fun p => if p.1 = k then (p.1, v) else p
  else st ++ [(k, v)]

/-- Redis `INCR`: a missing key is created at 1; an integer-string value is
incremented and stored back; anything else raises. -/
def cacheIncr (st : List (String × CacheVal)) (k : String) :
    Except Unit (List (String × CacheVal) × Int) :=
  match cacheLookup st k with
  | none => .ok (cacheStore st k (.str (String.mk (natToDec 1))), 1)
  | some (.str s) =>
    match parsePyInt s.data with
    | some n =>
      if n < 0 then .error () else
      .ok (cacheStore st k (.str (String.mk (natToDec (n + 1).toNat))), n + 1)
    | none => .error ()
  | some _ => .error ()

def resourcesVersionKey : String := "resources:list:version"

/-- `POST /resources` (app/routers/resources.py lines 16-41): an existing key
short-circuits; otherwise the record is inserted and the shared list version
counter is incremented. -/
def create_resource (db : List ResourceRec) (st : List (String × CacheVal))
    (r : ResourceRec) : Except Unit (List ResourceRec × List (String × CacheVal)) :=
  if (db.find? fun x => x.key == r.key).isSome then .ok (db, st)
  else do
    let db2 := db ++ [r]
    let (st2, _) ← cacheIncr st resourcesVersionKey
    return (db2, st2)

/-- `DELETE /resources/{id}` (app/routers/resources.py lines 98-134): remove
the row (assuming it exists) and bump the shared version counter; the remote
object-store deletion is external and not modelled. -/
def delete_resource (db : List ResourceRec) (st : List (String × CacheVal))
    (id : Nat) : Except Unit (List ResourceRec × List (String × CacheVal)) :=
  if (db.find? fun x => x.id == id).isSome then do
    let db2 := db.filter fun x => x.id ≠ id
    let (st2, _) ← cacheIncr st resourcesVersionKey
    return (db2, st2)
  else .error ()

/-- The version string a list read uses: the raw cached string, with falsy
values (missing key, empty string) replaced by `"1"` (Python `get(...) or "1"`). -/
def resourcesListVersion (st : List (String × CacheVal)) : String :=
  match cacheLookup st resourcesVersionKey with
  | some (.str s) => if s = "" then "1" else s
  | _ => "1"

def resourcesListCacheKey (version : String) (current size : Nat) (ty : Option String) : String :=
  "resources:list:v" ++ version ++ ":" ++ String.mk (natToDec current) ++ ":" ++
    String.mk (natToDec size) ++ ":" ++
    (match ty with
     | some t => if t = "" then "all" else t
     | none => "all")

/-- The page of the resource listing computed from the database (the row list
stands in the query's `created_at desc` result order). -/
def resourcesPageOf (db : List ResourceRec) (current size : Nat) (ty : Option String) :
    List ResourceRec × Nat :=
  let rows :=
    match ty with
    | some t => if t = "" then db else db.filter fun r => r.media_type == t
    | none => db
  ((rows.drop ((current - 1) * size)).take size, rows.length)

/-- `GET /resources` (app/routers/resources.py lines 43-96): read the current
version, build the versioned cache key, serve a hit directly, otherwise
compute the page from the database and cache it. -/
def get_resources (db : List ResourceRec) (st : List (String × CacheVal))
    (current size : Nat) (ty : Option String) :
    (List ResourceRec × Nat) × List (String × CacheVal) :=
  let version := resourcesListVersion st
  let cache_key := resourcesListCacheKey version current size ty
  match cacheLookup st cache_key with
  | some (.page records total _ _) => ((records, total), st)
  | _ =>
    let pg := resourcesPageOf db current size ty
    ((pg.1, pg.2), cacheStore st cache_key (.page pg.1 pg.2 current size))

/-- The `sign` component computed by the provider URL builder for given
`(key, timestamp_key, expire_seconds, now)`. -/
def qiniuSignOf (key timestamp_key : String) (expire_seconds now : Nat) : String :=
  md5Hex (timestamp_key ++
    String.mk (List.intercalate (['/'])
      ((splitOnChar '/' (if key.startsWith ("/") then key else "/" ++ key).data).map (pyQuote []))) ++
    natToHexLower (now + expire_seconds))

/-- A domain whose protocol-stripped form is a literal host (possibly with
port): nonempty, and free of `/`, `?`, `#` and of the characters that
terminate a URL match of the scan pattern. -/
def hostShapedDomain (dom : List Char) : Bool :=
  decide (dom ≠ []) &&
    dom.all fun c => !(c = '/' || c = '?' || c = Char.ofNat 35 || isUrlTerm c)

/-! ### Specification scaffolding for the regex scan

These predicates describe the shape of the (gap, match) piece lists produced
by `scanPieces`; they are used to prove that re-scanning the output of a
substitution recovers the substituted pieces. -/

/-- Neither scheme head of the URL pattern matches at any of the first `n`
positions of `l`. -/
def noStart (dom l : List Char) (n : Nat) : Prop :=
  ∀ i < n, (httpsPfx dom).isPrefixOf (l.drop i) = false ∧
    (httpPfx dom).isPrefixOf (l.drop i) = false

/-- The shape of a regex match: a scheme head followed by a terminator-free
run. -/
def matchShape (dom m : List Char) : Prop :=
  (∃ run, m = httpsPfx dom ++ run ∧ ∀ c ∈ run, isUrlTerm c = false) ∨
  (∃ run, m = httpPfx dom ++ run ∧ ∀ c ∈ run, isUrlTerm c = false)

/-- The first character, if any, terminates a URL run. -/
def headTermOK : List Char → Prop
  | [] => True
  | c :: _ => isUrlTerm c = true

/-- Prefix a further gap onto the head piece of a scan result. -/
def prependGap (g : List Char) : List (List Char × List Char) → List (List Char × List Char)
  | [] => if g = [] then [] else [(g, [])]
  | (g2, m) :: ps => (g ++ g2, m) :: ps

/-- Piece lists that the scan produces and reproduces: matches have the match
shape, no match starts inside a gap, and whatever follows a match starts with
a terminator (matches are maximal). -/
def piecesOK (dom : List Char) : List (List Char × List Char) → Prop
  | [] => True
  | (g, m) :: ps =>
      (if m = [] then ps = [] ∧ g ≠ [] ∧ noStart dom g g.length
       else matchShape dom m ∧ noStart dom (g ++ m) g.length ∧
         headTermOK (joinPieces ps)) ∧
      piecesOK dom ps

/-- The path/params reassembly performed by `urlunparse`. -/
def pathRebuild (u : List Char) : List Char :=
  let pp := splitParamsPy u
  if pp.2 ≠ [] then pp.1 ++ ';' :: pp.2 else pp.1

/-- The query rewrite shared by both replacers: parse, drop `sign` and `t`,
re-encode. -/
def stripQ (q : List Char) : List Char :=
  urlencodePy (removeSignT (parseQsPy q))

/-- The fragment split of `urlsplit` on the part after the netloc. -/
def splitHash (l : List Char) : List Char × List Char :=
  match splitFirstAt (Char.ofNat 35) l with
  | some p => p
  | none => (l, [])

/-- The query split of `urlsplit` on the part before the fragment. -/
def splitQm (l : List Char) : List Char × List Char :=
  match splitFirstAt '?' l with
  | some p => p
  | none => (l, [])

/-- The value of `stripReplacer` on a well-formed match `P ++ run` (scheme
head `P`, terminator-free `run`) whose netloc passes the bracket check:
parse positions recombined with the rewritten query. -/
def stripRecomb (dom run P : List Char) : List Char :=
  let r1 := run.takeWhile fun c => !isNetlocEnd c
  let r2 := run.dropWhile fun c => !isNetlocEnd c
  let fp := splitHash r2
  let qp := splitQm fp.1
  P ++ r1 ++ pathRebuild qp.1 ++
    (if stripQ qp.2 ≠ [] then '?' :: stripQ qp.2 else []) ++
    (if fp.2 ≠ [] then Char.ofNat 35 :: fp.2 else [])

/-! ### Concrete fixtures used by witnesses and counterexamples -/

def testArticle (i : Nat) (vc : Int) : ArticleRec :=
  { id := i, title := "T", summary := "S", content := "C", cover := none,
    is_published := true, is_protected := false, protection_question := none,
    protection_answer := none, view_count := vc, comment_count := 0, like_count := 0 }

def c2TestRedis : List (String × String) :=
  [("article:1:views", "5"), ("article:2:views", "0"), ("article:7:views", "42")]

def c2TestDb : List ArticleRec :=
  [testArticle 1 10, testArticle 2 20, testArticle 7 30, testArticle 9 40]

def noQiniuSettings : SettingsRec :=
  { QINIU_DOMAIN := "", QINIU_TIMESTAMP_ENABLED := false,
    QINIU_TIMESTAMP_KEY := "", QINIU_TIMESTAMP_EXPIRE := 3600 }

/-- A protected article whose stored protection answer is the empty string
(the schema puts no constraint on `protection_answer`). -/
def emptyAnswerArticle : ArticleRec :=
  { testArticle 5 7 with
    is_protected := true
    protection_question := some "Q?"
    protection_answer := some ""
    content := "SECRET" }

/-- A protected article with a nonempty stored answer, for the C3 witness. -/
def answeredArticle : ArticleRec :=
  { testArticle 5 7 with
    is_protected := true
    protection_question := some "Q?"
    protection_answer := some "ans"
    content := "SECRET" }

def c8Res1 : ResourceRec :=
  { id := 1, filename := "a.png", key := "k1", url := "u1", media_type := "image" }

def c8Res2 : ResourceRec :=
  { id := 2, filename := "b.png", key := "k2", url := "u2", media_type := "image" }

/-- The detail payload of a read result, when one was returned. -/
def garDetail? : GetArticleResult → Option ArticleDetailResp
  | .notFound => none
  | .detail r => some r

/-! ### Theorems -/

/-- Claim C1: for every key and integer timestamp, the application-level
signature check of the `/upload/signed-url` endpoint accepts exactly the
requests whose digest equals `generate_signed_key key t` (recompute and
compare) and whose timestamp satisfies `now - t ≤ 3600`; in particular the
digest produced by signing passes while the window holds and is rejected once
`now - t` exceeds 3600 seconds. -/
theorem c1_app_signature_window (key : String) (t now : Int) (digest : String) :
    get_signed_url_auth key t digest now = true ↔
      (digest = generate_signed_key key t ∧ now - t ≤ 3600) := by
  simp only [get_signed_url_auth, verify_signed_key, Bool.and_eq_true, beq_iff_eq,
    Bool.not_eq_true', decide_eq_false_iff_not, not_lt]

/-- Claim C10: the `generate_qiniu_timestamp_url` of app/utils/qiniu.py is
total: its `try:` body always produces a value (never raises), and by
construction of the `except` branch any internal error would return `base_url`
unchanged. -/
theorem c10_generate_url_total (base_url key timestamp_key : String) (expire_seconds now : Nat) :
    ∃ u, generate_qiniu_timestamp_urlE base_url key timestamp_key expire_seconds now = .ok u ∧
      generate_qiniu_timestamp_url base_url key timestamp_key expire_seconds now = u :=
  ⟨_, rfl, rfl⟩

/-- Claim C5: for fixed inputs and a fixed current time the provider
timestamp-signed URL builder deterministically produces exactly the
spec-described URL: the base URL extended (with `&` when it already has a
query string, else `?`) by `sign=` the lowercase md5 hex digest of
`timestampSecret ++ encodedPath ++ hexExpiry` — where the path is
percent-encoded per `/`-separated segment — and `t=` the lowercase hex of
`now + expirySeconds`; the sign component is exactly `qiniuSignOf`, and at a
concrete input the sign differs once the computed expiry second changes. -/
theorem c5_provider_url_build (baseUrl key tsKey : String) (exp now : Nat) :
    (generate_qiniu_timestamp_url baseUrl key tsKey exp now =
      buildTimestampSignedUrlSpec baseUrl key tsKey exp now) ∧
    (generate_qiniu_timestamp_url baseUrl key tsKey exp now =
      baseUrl ++ (if baseUrl.data.contains '?' then "&" else "?") ++
        "sign=" ++ qiniuSignOf key tsKey exp now ++ "&t=" ++ natToHexLower (now + exp)) ∧
    qiniuSignOf ("k") ("K") 3600 0 ≠ qiniuSignOf ("k") ("K") 3600 1 := by
  refine ⟨rfl, rfl, of_decide_eq_false (by with_unfolding_all rfl)⟩

/-- An injected exception at any step of a pass (including at commit time,
`k = updates.length`) makes the session raise before `commit`. -/
theorem applySteps_fail (ups : List (Nat × Int)) : ∀ pending k, k ≤ ups.length →
    applySteps pending ups (some k) = .error () := by
  induction ups with
  | nil =>
    intro pending k h
    have hk : k = 0 := by simpa using h
    subst hk
    simp [applySteps]
  | cons p rest ih =>
    intro pending k h
    cases k with
    | zero => simp [applySteps]
    | succ n =>
      obtain ⟨aid, c⟩ := p
      have hstep : applySteps pending ((aid, c) :: rest) (some (n + 1)) =
          applySteps (dbSetViewCount pending aid c) rest (some n) := by
        simp [applySteps]
      rw [hstep]
      exact ih _ n (by simpa using h)

/-- Claim C2: all durable view-count updates of one reconciliation pass commit
as a single transaction: an exception at any point of the pass rolls the whole
pass back, leaving every durable view-count unchanged; and a completed pass
over the fast counters {1 ↦ 5, 2 ↦ 0, 7 ↦ 42} sets the durable view-counts of
articles 1 and 7 to 5 and 42 (and of article 2 to 0), leaving others alone. -/
theorem c2_reconciler_single_transaction :
    (∀ redis db k, k ≤ (viewSyncUpdates redis).length →
        sync_views_to_db redis db (some k) = db) ∧
    (sync_views_to_db c2TestRedis c2TestDb none).map (fun a => (a.id, a.view_count)) =
      [(1, 5), (2, 0), (7, 42), (9, 40)] := by
  constructor
  · intro redis db k h
    unfold sync_views_to_db
    by_cases hu : viewSyncUpdates redis = []
    · simp [hu]
    · simp [hu, applySteps_fail _ _ _ h]
  · with_unfolding_all rfl

/-- Witness for C2: a pass over the test counters with an exception injected
mid-pass leaves the durable store unchanged. -/
theorem c2_reconciler_single_transaction_witness :
    sync_views_to_db c2TestRedis c2TestDb (some 2) = c2TestDb :=
  c2_reconciler_single_transaction.1 c2TestRedis c2TestDb 2 (by decide)

/-- Claim C8, failing evaluation: from a fresh cache the version key is
absent, so a list read defaults the version to "1" and caches the page under
`v1`; the first resource creation INCRs the missing key, which also yields 1,
so a subsequent read of the same page hits the stale `v1` entry and returns
the page without the new resource (a fresh computation would include it). -/
theorem c8_fresh_cache_stale_page :
    ∃ st2, create_resource [c8Res1] ((get_resources [c8Res1] [] 1 20 none).2) c8Res2 =
        .ok ([c8Res1, c8Res2], st2) ∧
      (get_resources [c8Res1, c8Res2] st2 1 20 none).1 = ([c8Res1], 1) ∧
      resourcesPageOf [c8Res1, c8Res2] 1 20 none = ([c8Res1, c8Res2], 2) :=
  ⟨_, rfl, by with_unfolding_all rfl, by with_unfolding_all rfl⟩

/-- Claim C3, counterexample to the claim as stated: for an article whose
stored protection answer is the empty string, a request supplying the exact
same (empty) answer is plain-string-equal to the stored answer, yet the code
returns the 403/"protected" response with the placeholder body, because the
handler's `answer and answer == article.protection_answer` treats an empty
answer as falsy. -/
theorem c3_empty_answer_counterexample :
    emptyAnswerArticle.protection_answer = some "" ∧
    (get_article [emptyAnswerArticle] [] 5 (some "") none noQiniuSettings 0).1 =
      .detail { code := 403, msg := "protected", title := "T", summary := "S",
                content := protectedPlaceholder, cover := none, is_protected := true,
                protection_question := some "Q?", viewCount := 8 } :=
  ⟨rfl, by with_unfolding_all rfl⟩

/-- Claim C3 (amended): for every article-detail read that finds an article
visible to the requester, the body is served exactly when the article is not
protection-gated, or the requester is an admin, or the supplied answer is
non-empty and plain-string-equal to the stored protection answer; when not
served, the response carries code 403 and message "protected", the fixed
placeholder string instead of the body, and still the title, summary and
protection question; when served, the code is 200 and the body is the stored
content (link-refreshed when timestamp signing is enabled). -/
theorem c3_protection_gating (db : List ArticleRec) (redis : List (String × String))
    (aid : Nat) (ans : Option String) (user : Option Bool) (st : SettingsRec) (now : Nat)
    (a : ArticleRec) (hfind : db.find? (fun x => x.id == aid) = some a)
    (hvis : a.is_published = true ∨ isAdminUser user = true) :
    ∃ resp, garDetail? (get_article db redis aid ans user st now).1 = some resp ∧
      ((resp.code = 200 ↔ (a.is_protected = false ∨ isAdminUser user = true ∨
          (∃ s, ans = some s ∧ s ≠ "" ∧ a.protection_answer = some s))) ∧
       (resp.code = 200 → resp.msg = "success" ∧
          resp.content = (if is_qiniu_timestamp_enabled st then
              refresh_qiniu_params_in_content a.content st.QINIU_DOMAIN
                st.QINIU_TIMESTAMP_KEY st.QINIU_TIMESTAMP_EXPIRE now
            else a.content)) ∧
       (resp.code ≠ 200 → resp.code = 403 ∧ resp.msg = "protected" ∧
          resp.content = protectedPlaceholder ∧ resp.title = a.title ∧
          resp.summary = a.summary ∧ resp.is_protected = true ∧
          resp.protection_question = a.protection_question)) := by
  by_cases hadm : isAdminUser user = true
  · by_cases hpro : a.is_protected
    · refine ⟨_, by simp [get_article, hfind, hadm, hpro, garDetail?] <;> rfl, ?_⟩
      simp [hadm, hpro]
    · refine ⟨_, by simp [get_article, hfind, hadm, hpro, garDetail?] <;> rfl, ?_⟩
      simp [hpro]
  · have hpubT : a.is_published = true := hvis.resolve_right hadm
    by_cases hpro : a.is_protected
    · cases ans with
      | none =>
        refine ⟨_, by simp [get_article, hfind, hpubT, hadm, hpro, garDetail?] <;> rfl, ?_⟩
        simp [hadm, hpro]
      | some s =>
        by_cases hs : s ≠ "" ∧ a.protection_answer = some s
        · refine ⟨_, by simp [get_article, hfind, hpubT, hadm, hpro, hs.1, hs.2, garDetail?] <;> rfl, ?_⟩
          simp [hadm, hpro, hs.1, hs.2]
        · refine ⟨_, by simp [get_article, hfind, hpubT, hadm, hpro, hs, garDetail?] <;> rfl, ?_⟩
          refine ⟨?_, ?_, ?_⟩
          · constructor
            · intro h
              simp at h
            · rintro (h | h | ⟨s2, hs2, hne, hpa⟩)
              · rw [h] at hpro
                exact absurd hpro (by simp)
              · exact absurd h hadm
              · cases hs2
                exact absurd ⟨hne, hpa⟩ hs
          · intro h
            simp at h
          · intro _
            exact ⟨rfl, rfl, rfl, rfl, rfl, rfl, rfl⟩
    · refine ⟨_, by simp [get_article, hfind, hpubT, hadm, hpro, garDetail?] <;> rfl, ?_⟩
      simp [hpro]

/-- Witness for C3 (amended): a protected article read with the correct
non-empty answer returns code 200. -/
theorem c3_protection_gating_witness :
    ∃ resp, garDetail? (get_article [answeredArticle] [] 5 (some "ans") none
      noQiniuSettings 0).1 = some resp ∧ resp.code = 200 := by
  obtain ⟨resp, h1, h2, _, _⟩ := c3_protection_gating [answeredArticle] [] 5 (some "ans")
    none noQiniuSettings 0 answeredArticle (by with_unfolding_all rfl) (Or.inl rfl)
  exact ⟨resp, h1, h2.mpr (Or.inr (Or.inr ⟨"ans", rfl, by decide, rfl⟩))⟩

/-- Claim C4: every successful read through the article-detail endpoint
increments the durable view counter of the requested article by exactly one
(and of no other article), leaves the fast cache counters untouched, and the
served `viewCount` reflects the single increment; a not-found read changes
nothing.  The fast-counter path is not used by this handler, so the durable
increment is the one and only counter update of the read. -/
theorem c4_view_increment_exactly_once :
    (∀ db redis aid ans user st now resp db2 r2,
        get_article db redis aid ans user st now = (.detail resp, db2, r2) →
        r2 = redis ∧
        ∃ a, db.find? (fun x => x.id == aid) = some a ∧
          db2 = db.map (fun x => if x.id = aid then
            { a with view_count := a.view_count + 1 } else x) ∧
          resp.viewCount = a.view_count + 1) ∧
    (∀ db redis aid ans user st now db2 r2,
        get_article db redis aid ans user st now = (.notFound, db2, r2) →
        db2 = db ∧ r2 = redis) := by
  constructor
  · intro db redis aid ans user st now resp db2 r2 h
    unfold get_article at h
    cases hf : db.find? fun x => x.id == aid with
    | none =>
      simp only [hf] at h
      simp at h
    | some a =>
      simp only [hf] at h
      by_cases hp : ¬ a.is_published = true ∧ ¬ isAdminUser user = true
      · rw [if_pos hp] at h
        simp at h
      · rw [if_neg hp] at h
        simp only [Prod.mk.injEq, GetArticleResult.detail.injEq] at h
        obtain ⟨hresp, hdb, hr⟩ := h
        subst hdb hr
        refine ⟨rfl, a, rfl, rfl, ?_⟩
        rw [← hresp]
  · intro db redis aid ans user st now db2 r2 h
    unfold get_article at h
    cases hf : db.find? fun x => x.id == aid with
    | none =>
      simp only [hf] at h
      simp only [Prod.mk.injEq] at h
      exact ⟨h.2.1.symm, h.2.2.symm⟩
    | some a =>
      simp only [hf] at h
      by_cases hp : ¬ a.is_published = true ∧ ¬ isAdminUser user = true
      · rw [if_pos hp] at h
        simp only [Prod.mk.injEq] at h
        exact ⟨h.2.1.symm, h.2.2.symm⟩
      · rw [if_neg hp] at h
        simp at h

/-- Witness for C4: a concrete successful read bumps the stored view count
from 7 to 8, leaves the cache key space unchanged, and reports 8. -/
theorem c4_view_increment_exactly_once_witness :
    ∃ resp db2 r2,
      get_article [answeredArticle] [("k", "v")] 5 none (some true) noQiniuSettings 0 =
        (.detail resp, db2, r2) ∧
      r2 = [("k", "v")] ∧ resp.viewCount = 8 ∧
      db2 = [{ answeredArticle with view_count := 8 }] := by
  refine ⟨_, _, _, rfl, ?_⟩
  obtain ⟨h1, a, hf, hdb, hvc⟩ :=
    c4_view_increment_exactly_once.1 [answeredArticle] [("k", "v")] 5 none (some true)
      noQiniuSettings 0 _ _ _ rfl
  have ha : a = answeredArticle := by
    have := hf
    rw [show List.find? (fun x => x.id == 5) [answeredArticle] = some answeredArticle
      from by with_unfolding_all rfl] at this
    exact ((Option.some.injEq _ _).mp this).symm
  subst ha
  refine ⟨h1, ?_, ?_⟩
  · rw [hvc]
    with_unfolding_all rfl
  · rw [hdb]
    with_unfolding_all rfl

/-! ### List helper lemmas -/

theorem splitFirstAt_eq_none {sep : Char} {l : List Char} (h : sep ∉ l) :
    splitFirstAt sep l = none := by
  induction l with
  | nil => rfl
  | cons c rest ih =>
    simp only [List.mem_cons, not_or] at h
    have hne : ¬ c = sep := fun hh => h.1 hh.symm
    simp [splitFirstAt, hne, ih h.2]

theorem splitFirstAt_append {sep : Char} {A : List Char} (B : List Char) (h : sep ∉ A) :
    splitFirstAt sep (A ++ B) =
      (splitFirstAt sep B).map fun p => (A ++ p.1, p.2) := by
  induction A with
  | nil =>
    cases hB : splitFirstAt sep B with
    | none => simp [hB]
    | some p => simp [hB]
  | cons c rest ih =>
    simp only [List.mem_cons, not_or] at h
    have hne : ¬ c = sep := fun hh => h.1 hh.symm
    have step : splitFirstAt sep ((c :: rest) ++ B)
        = (splitFirstAt sep (rest ++ B)).map fun p => (c :: p.1, p.2) := by
      rw [List.cons_append]
      simp only [splitFirstAt, if_neg hne]
    rw [step, ih h.2]
    cases splitFirstAt sep B with
    | none => rfl
    | some p => rfl

theorem splitFirstAt_sep {sep : Char} {A : List Char} (B : List Char) (h : sep ∉ A) :
    splitFirstAt sep (A ++ sep :: B) = some (A, B) := by
  rw [splitFirstAt_append (sep :: B) h]
  simp [splitFirstAt]

theorem splitFirstAt_some_struct {sep : Char} {l A B : List Char}
    (h : splitFirstAt sep l = some (A, B)) : sep ∉ A ∧ l = A ++ sep :: B := by
  induction l generalizing A B with
  | nil => simp [splitFirstAt] at h
  | cons c rest ih =>
    by_cases hc : c = sep
    · subst hc
      have hu : splitFirstAt c (c :: rest) = some ([], rest) := by
        simp [splitFirstAt]
      rw [hu] at h
      have hs : (([], rest) : List Char × List Char) = (A, B) := Option.some.inj h
      injection hs with h1 h2
      subst h1
      subst h2
      simp
    · simp only [splitFirstAt, if_neg hc] at h
      cases hr : splitFirstAt sep rest with
      | none => rw [hr] at h; simp at h
      | some p =>
        obtain ⟨p1, p2⟩ := p
        rw [hr] at h
        have hs : ((c :: p1, p2) : List Char × List Char) = (A, B) := Option.some.inj h
        injection hs with h1 h2
        obtain ⟨hA, hl⟩ := ih hr
        subst h2
        constructor
        · rw [← h1]
          simp only [List.mem_cons, not_or]
          exact ⟨fun hh => hc hh.symm, hA⟩
        · rw [← h1, List.cons_append, ← hl]

theorem splitOnChar_no_sep {sep : Char} {x : List Char} (h : sep ∉ x) :
    splitOnChar sep x = [x] := by
  induction x with
  | nil => rfl
  | cons c cs ih =>
    simp only [List.mem_cons, not_or] at h
    have hne : ¬ c = sep := fun hh => h.1 hh.symm
    simp [splitOnChar, hne, ih h.2]

theorem splitOnChar_append_sep {sep : Char} {x : List Char} (y : List Char) (h : sep ∉ x) :
    splitOnChar sep (x ++ sep :: y) = x :: splitOnChar sep y := by
  induction x with
  | nil => simp [splitOnChar]
  | cons c cs ih =>
    simp only [List.mem_cons, not_or] at h
    have hne : ¬ c = sep := fun hh => h.1 hh.symm
    have step : splitOnChar sep ((c :: cs) ++ sep :: y)
        = match splitOnChar sep (cs ++ sep :: y) with
          | hh :: t => (c :: hh) :: t
          | [] => [[c]] := by
      rw [List.cons_append]
      simp only [splitOnChar, if_neg hne]
    rw [step, ih h.2]

theorem intercalate_cons_cons {sep : Char} (x y : List Char) (rest : List (List Char)) :
    List.intercalate [sep] (x :: y :: rest) =
      x ++ sep :: List.intercalate [sep] (y :: rest) := by
  simp [List.intercalate, List.intersperse]

theorem splitOnChar_intercalate {sep : Char} {L : List (List Char)}
    (hne : L ≠ []) (h : ∀ x ∈ L, sep ∉ x) :
    splitOnChar sep (List.intercalate [sep] L) = L := by
  induction L with
  | nil => exact absurd rfl hne
  | cons x rest ih =>
    cases rest with
    | nil =>
      rw [show List.intercalate [sep] [x] = x from by simp [List.intercalate]]
      exact splitOnChar_no_sep (h x (by simp))
    | cons y rest2 =>
      rw [intercalate_cons_cons, splitOnChar_append_sep _ (h x (by simp)),
        ih (by simp) (fun z hz => h z (by simp [hz]))]

/-! ### UTF-8 round trip -/

theorem utf8Decode_cons (b : Nat) (rest : List Nat) :
    utf8Decode (b :: rest) = (if b < 128 then Char.ofNat b :: utf8Decode rest
    else if 194 <= b ∧ b <= 223 then
      match rest with
      | [] => [replacementChar]
      | b2 :: rest2 =>
        if isUtf8Cont b2 then Char.ofNat ((b - 192) * 64 + (b2 - 128)) :: utf8Decode rest2
        else replacementChar :: utf8Decode (b2 :: rest2)
    else if 224 <= b ∧ b <= 239 then
      match rest with
      | [] => [replacementChar]
      | b2 :: rest2 =>
        if utf8Cont2OK b b2 then
          match rest2 with
          | [] => [replacementChar]
          | b3 :: rest3 =>
            if isUtf8Cont b3 then
              Char.ofNat ((b - 224) * 4096 + (b2 - 128) * 64 + (b3 - 128)) :: utf8Decode rest3
            else replacementChar :: utf8Decode (b3 :: rest3)
        else replacementChar :: utf8Decode (b2 :: rest2)
    else if 240 <= b ∧ b <= 244 then
      match rest with
      | [] => [replacementChar]
      | b2 :: rest2 =>
        if utf8Cont2OK4 b b2 then
          match rest2 with
          | [] => [replacementChar]
          | b3 :: rest3 =>
            if isUtf8Cont b3 then
              match rest3 with
              | [] => [replacementChar]
              | b4 :: rest4 =>
                if isUtf8Cont b4 then
                  Char.ofNat ((b - 240) * 262144 + (b2 - 128) * 4096 + (b3 - 128) * 64 + (b4 - 128))
                    :: utf8Decode rest4
                else replacementChar :: utf8Decode (b4 :: rest4)
            else replacementChar :: utf8Decode (b3 :: rest3)
        else replacementChar :: utf8Decode (b2 :: rest2)
    else replacementChar :: utf8Decode rest) := by
  conv_lhs => rw [utf8Decode.eq_def]

theorem utf8Decode_encodeChar (c : Char) (rest : List Nat) :
    utf8Decode (utf8EncodeNat c.toNat ++ rest) = c :: utf8Decode rest := by
  have hv : c.toNat < 55296 ∨ (57343 < c.toNat ∧ c.toNat < 1114112) := c.valid
  have hofn : Char.ofNat c.toNat = c := Char.ofNat_toNat c
  set n := c.toNat with hn
  by_cases h1 : n < 128
  · simp [utf8EncodeNat, h1, utf8Decode_cons, hofn]
  · by_cases h2 : n < 2048
    · have e1 : (192 + n / 64 - 192) * 64 + (128 + n % 64 - 128) = n := by omega
      have c1 : ¬ (192 + n / 64 < 128) := by omega
      have c2 : 194 ≤ 192 + n / 64 := by omega
      have c3 : 192 + n / 64 ≤ 223 := by omega
      have hcont : isUtf8Cont (128 + n % 64) = true := by
        simp only [isUtf8Cont, decide_eq_true_eq]
        omega
      simp [utf8EncodeNat, h1, h2, utf8Decode_cons, c1, c2, c3, hcont]
      rw [show n / 64 * 64 + n % 64 = n from by omega, hofn]
    · by_cases h3 : n < 65536
      · have e1 : (224 + n / 4096 - 224) * 4096 + (128 + n / 64 % 64 - 128) * 64 +
            (128 + n % 64 - 128) = n := by omega
        have c1 : ¬ (224 + n / 4096 < 128) := by omega
        have c2 : ¬ (194 ≤ 224 + n / 4096 ∧ 224 + n / 4096 ≤ 223) := by omega
        have c3 : 224 ≤ 224 + n / 4096 := by omega
        have c4 : 224 + n / 4096 ≤ 239 := by omega
        have hcont2 : utf8Cont2OK (224 + n / 4096) (128 + n / 64 % 64) = true := by
          unfold utf8Cont2OK isUtf8Cont
          split
          · simp only [decide_eq_true_eq]
            omega
          · split
            · simp only [decide_eq_true_eq]
              omega
            · simp only [decide_eq_true_eq]
              omega
        have hcont3 : isUtf8Cont (128 + n % 64) = true := by
          simp only [isUtf8Cont, decide_eq_true_eq]
          omega
        simp [utf8EncodeNat, h1, h2, h3, utf8Decode_cons, c1, c2, c3, c4, hcont2, hcont3]
        rw [show n / 4096 * 4096 + n / 64 % 64 * 64 + n % 64 = n from by omega, hofn]
      · have e1 : (240 + n / 262144 - 240) * 262144 + (128 + n / 4096 % 64 - 128) * 4096 +
            (128 + n / 64 % 64 - 128) * 64 + (128 + n % 64 - 128) = n := by omega
        have c1 : ¬ (240 + n / 262144 < 128) := by omega
        have c2 : ¬ (194 ≤ 240 + n / 262144 ∧ 240 + n / 262144 ≤ 223) := by omega
        have c3 : ¬ (224 ≤ 240 + n / 262144 ∧ 240 + n / 262144 ≤ 239) := by omega
        have c4 : 240 ≤ 240 + n / 262144 := by omega
        have c5 : 240 + n / 262144 ≤ 244 := by omega
        have hcont2 : utf8Cont2OK4 (240 + n / 262144) (128 + n / 4096 % 64) = true := by
          unfold utf8Cont2OK4 isUtf8Cont
          split
          · simp only [decide_eq_true_eq]
            omega
          · split
            · simp only [decide_eq_true_eq]
              omega
            · simp only [decide_eq_true_eq]
              omega
        have hcont3 : isUtf8Cont (128 + n / 64 % 64) = true := by
          simp only [isUtf8Cont, decide_eq_true_eq]
          omega
        have hcont4 : isUtf8Cont (128 + n % 64) = true := by
          simp only [isUtf8Cont, decide_eq_true_eq]
          omega
        simp [utf8EncodeNat, h1, h2, h3, utf8Decode_cons, c1, c2, c3, c4, c5, hcont2, hcont3,
          hcont4]
        rw [show n / 262144 * 262144 + n / 4096 % 64 * 4096 + n / 64 % 64 * 64 + n % 64 = n
          from by omega, hofn]

theorem utf8Decode_utf8Encode (l : List Char) : utf8Decode (utf8Encode l) = l := by
  induction l with
  | nil => rfl
  | cons c rest ih =>
    have hstep : utf8Encode (c :: rest) = utf8EncodeNat c.toNat ++ utf8Encode rest := by
      simp [utf8Encode]
    rw [hstep, utf8Decode_encodeChar, ih]

/-! ### Percent-encoding round trip -/

theorem toNat_ofNat_valid {n : Nat} (h : n.isValidChar) : (Char.ofNat n).toNat = n := by
  unfold Char.ofNat
  rw [dif_pos h]
  rfl

theorem toNat_ofNat_small {n : Nat} (h : n < 55296) : (Char.ofNat n).toNat = n :=
  toNat_ofNat_valid (Or.inl h)

theorem pyUnquoteAux_nil (f : Nat) : pyUnquoteAux f [] = [] := by
  cases f with
  | zero => rfl
  | succ k => rfl

theorem pctDecodeBytes_cons_nonpct {c : Char} (l : List Char) (h : ¬ c = Char.ofNat 37) :
    pctDecodeBytes (c :: l) = c.toNat :: pctDecodeBytes l := by
  match l with
  | [] => simp [pctDecodeBytes, h]
  | [a] => simp [pctDecodeBytes, h]
  | a :: b :: t => simp [pctDecodeBytes, h]

theorem hexDigitUpper_isHex {d : Nat} (h : d < 16) : isHexChar (hexDigitUpper d) = true := by
  interval_cases d <;> decide

theorem hexCharVal_hexDigitUpper {d : Nat} (h : d < 16) : hexCharVal (hexDigitUpper d) = d := by
  interval_cases d <;> decide

theorem pctDecodeBytes_quoted (safeExtra : List Nat)
    (hsafe : ∀ b ∈ safeExtra, b < 128 ∧ b ≠ 37) (bs : List Nat) (hb : ∀ b ∈ bs, b < 256) :
    pctDecodeBytes (bs.flatMap fun b =>
      if isAlwaysSafeByte b || safeExtra.contains b then [Char.ofNat b] else pctByte b) = bs := by
  induction bs with
  | nil => rfl
  | cons b rest ih =>
    have hb0 : b < 256 := hb b (by simp)
    have hbrest : ∀ x ∈ rest, x < 256 := fun x hx => hb x (by simp [hx])
    rw [List.flatMap_cons]
    by_cases hs : (isAlwaysSafeByte b || safeExtra.contains b) = true
    · have hmem : b < 128 ∧ b ≠ 37 := by
        rcases (Bool.or_eq_true _ _).mp hs with h1 | h2
        · simp only [isAlwaysSafeByte, decide_eq_true_eq] at h1
          omega
        · exact hsafe b (by simpa using h2)
      have hne : ¬ Char.ofNat b = Char.ofNat 37 := by
        intro he
        have hc := congrArg Char.toNat he
        rw [toNat_ofNat_small (by omega), toNat_ofNat_small (by omega)] at hc
        exact hmem.2 hc
      rw [if_pos hs, List.singleton_append, pctDecodeBytes_cons_nonpct _ hne,
        toNat_ofNat_small (by omega), ih hbrest]
    · have hd1 : b / 16 < 16 := by omega
      have hd2 : b % 16 < 16 := by omega
      have harith : b / 16 * 16 + b % 16 = b := by omega
      rw [if_neg hs]
      have hrec := ih hbrest
      generalize hE : (rest.flatMap fun b =>
        if isAlwaysSafeByte b || safeExtra.contains b then [Char.ofNat b] else pctByte b) = E
      rw [hE] at hrec
      simp [pctByte, pctDecodeBytes, hexDigitUpper_isHex hd1, hexDigitUpper_isHex hd2,
        hexCharVal_hexDigitUpper hd1, hexCharVal_hexDigitUpper hd2, harith, hrec]

theorem utf8EncodeNat_lt_256 {n : Nat} (h : n < 1114112) : ∀ b ∈ utf8EncodeNat n, b < 256 := by
  intro b hb
  unfold utf8EncodeNat at hb
  by_cases h1 : n < 128
  · rw [if_pos h1] at hb
    simp at hb
    omega
  · rw [if_neg h1] at hb
    by_cases h2 : n < 2048
    · rw [if_pos h2] at hb
      simp at hb
      rcases hb with hb | hb <;> omega
    · rw [if_neg h2] at hb
      by_cases h3 : n < 65536
      · rw [if_pos h3] at hb
        simp at hb
        rcases hb with hb | hb | hb <;> omega
      · rw [if_neg h3] at hb
        simp at hb
        rcases hb with hb | hb | hb | hb <;> omega

theorem utf8Encode_lt_256 {s : List Char} : ∀ b ∈ utf8Encode s, b < 256 := by
  intro b hb
  rw [utf8Encode, List.mem_flatMap] at hb
  obtain ⟨c, _, hb⟩ := hb
  have hv : c.toNat < 55296 ∨ (57343 < c.toNat ∧ c.toNat < 1114112) := c.valid
  exact utf8EncodeNat_lt_256 (by omega) b hb

theorem pctDecodeBytes_pyQuote32 (s : List Char) :
    pctDecodeBytes (pyQuote [32] s) = utf8Encode s :=
  pctDecodeBytes_quoted [32] (by intro b hb; simp at hb; omega) (utf8Encode s)
    (fun b hb => utf8Encode_lt_256 b hb)

theorem pyQuote32_charset {s : List Char} {c : Char} (hc : c ∈ pyQuote [32] s) :
    (65 ≤ c.toNat ∧ c.toNat ≤ 90) ∨ (97 ≤ c.toNat ∧ c.toNat ≤ 122) ∨
    (48 ≤ c.toNat ∧ c.toNat ≤ 57) ∨ c.toNat = 95 ∨ c.toNat = 46 ∨ c.toNat = 45 ∨
    c.toNat = 126 ∨ c.toNat = 32 ∨ c.toNat = 37 := by
  unfold pyQuote at hc
  rw [List.mem_flatMap] at hc
  obtain ⟨b, hbmem, hc⟩ := hc
  have hb256 : b < 256 := utf8Encode_lt_256 b hbmem
  by_cases hs : (isAlwaysSafeByte b || ([32] : List Nat).contains b) = true
  · rw [if_pos hs] at hc
    simp at hc
    subst hc
    have hprop : (65 ≤ b ∧ b ≤ 90) ∨ (97 ≤ b ∧ b ≤ 122) ∨ (48 ≤ b ∧ b ≤ 57) ∨
        b = 95 ∨ b = 46 ∨ b = 45 ∨ b = 126 ∨ b = 32 := by
      rcases (Bool.or_eq_true _ _).mp hs with h1 | h2
      · simp only [isAlwaysSafeByte, decide_eq_true_eq] at h1
        omega
      · simp at h2
        omega
    rw [toNat_ofNat_small (by omega)]
    omega
  · rw [if_neg hs] at hc
    simp [pctByte] at hc
    rcases hc with hc | hc | hc
    · subst hc
      rw [toNat_ofNat_small (by omega)]
      omega
    · subst hc
      unfold hexDigitUpper
      by_cases hlt : b / 16 < 10
      · rw [if_pos hlt, toNat_ofNat_small (by omega)]
        omega
      · have hdlt : b / 16 < 16 := by omega
        rw [if_neg hlt, toNat_ofNat_small (by omega)]
        omega
    · subst hc
      have hm : b % 16 < 16 := by omega
      unfold hexDigitUpper
      by_cases hlt : b % 16 < 10
      · rw [if_pos hlt, toNat_ofNat_small (by omega)]
        omega
      · rw [if_neg hlt, toNat_ofNat_small (by omega)]
        omega

theorem pyQuotePlus_charset {s : List Char} {c : Char} (hc : c ∈ pyQuotePlus s) :
    (65 ≤ c.toNat ∧ c.toNat ≤ 90) ∨ (97 ≤ c.toNat ∧ c.toNat ≤ 122) ∨
    (48 ≤ c.toNat ∧ c.toNat ≤ 57) ∨ c.toNat = 95 ∨ c.toNat = 46 ∨ c.toNat = 45 ∨
    c.toNat = 126 ∨ c.toNat = 43 ∨ c.toNat = 37 := by
  unfold pyQuotePlus at hc
  rw [List.mem_map] at hc
  obtain ⟨a, ha, hc⟩ := hc
  have hcs := pyQuote32_charset ha
  by_cases hsp : a = ' '
  · subst hsp
    rw [if_pos rfl] at hc
    subst hc
    have h43 : Char.toNat (Char.ofNat 43) = 43 := toNat_ofNat_small (by omega)
    have hplus : ('+').toNat = 43 := rfl
    omega
  · rw [if_neg hsp] at hc
    subst hc
    have hne : a.toNat ≠ 32 := by
      intro h32
      apply hsp
      have hcongr := congrArg Char.ofNat h32
      rw [Char.ofNat_toNat] at hcongr
      exact hcongr
    omega

theorem pyQuote32_ascii {s : List Char} : ∀ c ∈ pyQuote [32] s, isAsciiCh c = true := by
  intro c hc
  have hcs := pyQuote32_charset hc
  simp only [isAsciiCh, decide_eq_true_eq]
  omega

theorem pyUnquote_allAscii {l : List Char} (h : ∀ c ∈ l, isAsciiCh c = true) :
    pyUnquote l = utf8Decode (pctDecodeBytes l) := by
  cases l with
  | nil => rfl
  | cons c rest =>
    have hc : isAsciiCh c = true := h c (by simp)
    have ht : List.takeWhile isAsciiCh (c :: rest) = c :: rest :=
      List.takeWhile_eq_self_iff.mpr h
    have hd : List.dropWhile isAsciiCh (c :: rest) = [] :=
      List.dropWhile_eq_nil_iff.mpr h
    simp [pyUnquote, pyUnquoteAux, hc, ht, hd, pyUnquoteAux_nil]

theorem pyUnquote_pyQuote32 (s : List Char) : pyUnquote (pyQuote [32] s) = s := by
  rw [pyUnquote_allAscii pyQuote32_ascii, pctDecodeBytes_pyQuote32, utf8Decode_utf8Encode]

theorem plusToSpace_pyQuotePlus (s : List Char) :
    plusToSpace (pyQuotePlus s) = pyQuote [32] s := by
  unfold plusToSpace pyQuotePlus
  rw [List.map_map]
  have hmap : ∀ c ∈ pyQuote [32] s,
      ((fun c => if c = '+' then ' ' else c) ∘ fun c => if c = ' ' then '+' else c) c = id c := by
    intro c hc
    have hcs := pyQuote32_charset hc
    by_cases hsp : c = ' '
    · subst hsp
      simp
    · have hplus : ¬ c = '+' := by
        intro he
        subst he
        have h43 : ('+').toNat = 43 := rfl
        omega
      simp [hsp, hplus]
  rw [List.map_congr_left hmap, List.map_id]

theorem pyUnquotePlus_pyQuotePlus (s : List Char) : pyUnquotePlus (pyQuotePlus s) = s := by
  show pyUnquote (List.map (fun c => if c = '+' then ' ' else c) (pyQuotePlus s)) = s
  rw [show List.map (fun c => if c = '+' then ' ' else c) (pyQuotePlus s)
      = plusToSpace (pyQuotePlus s) from rfl,
    plusToSpace_pyQuotePlus, pyUnquote_pyQuote32]

theorem unquote_plusToSpace_quotePlus (s : List Char) :
    pyUnquote (plusToSpace (pyQuotePlus s)) = s := by
  rw [plusToSpace_pyQuotePlus, pyUnquote_pyQuote32]

/-! ### Nonemptiness of encoders and decoders -/

theorem pctDecodeBytes_ne_nil (c : Char) (l : List Char) : pctDecodeBytes (c :: l) ≠ [] := by
  match l with
  | [] =>
    unfold pctDecodeBytes
    split <;> simp
  | [a] =>
    unfold pctDecodeBytes
    split <;> simp
  | a :: b :: t =>
    unfold pctDecodeBytes
    split
    · split <;> simp
    · simp

theorem utf8Decode_cons_ne_nil (b : Nat) (rest : List Nat) : utf8Decode (b :: rest) ≠ [] := by
  rw [utf8Decode_cons]
  split
  · simp
  split
  · cases rest with
    | nil => simp
    | cons b2 r2 =>
      dsimp only
      split <;> simp
  split
  · cases rest with
    | nil => simp
    | cons b2 r2 =>
      dsimp only
      split
      · cases r2 with
        | nil => simp
        | cons b3 r3 =>
          dsimp only
          split <;> simp
      · simp
  split
  · cases rest with
    | nil => simp
    | cons b2 r2 =>
      dsimp only
      split
      · cases r2 with
        | nil => simp
        | cons b3 r3 =>
          dsimp only
          split
          · cases r3 with
            | nil => simp
            | cons b4 r4 =>
              dsimp only
              split <;> simp
          · simp
      · simp
  · simp

theorem pyUnquote_ne_nil {l : List Char} (h : l ≠ []) : pyUnquote l ≠ [] := by
  cases l with
  | nil => exact absurd rfl h
  | cons c rest =>
    show pyUnquoteAux (c :: rest).length (c :: rest) ≠ []
    rw [show (c :: rest).length = rest.length + 1 from rfl]
    by_cases hc : isAsciiCh c = true
    · have ht : List.takeWhile isAsciiCh (c :: rest) = c :: List.takeWhile isAsciiCh rest :=
        List.takeWhile_cons_of_pos hc
      simp only [pyUnquoteAux, hc, if_true, ht]
      cases hpd : pctDecodeBytes (c :: List.takeWhile isAsciiCh rest) with
      | nil => exact absurd hpd (pctDecodeBytes_ne_nil c _)
      | cons b bs =>
        exact List.append_ne_nil_of_left_ne_nil (utf8Decode_cons_ne_nil b bs) _
    · have hc2 : (!isAsciiCh c) = true := by
        simp [Bool.not_eq_true] at hc ⊢
        exact hc
      have ht : List.takeWhile (fun x => !isAsciiCh x) (c :: rest)
          = c :: List.takeWhile (fun x => !isAsciiCh x) rest :=
        List.takeWhile_cons_of_pos hc2
      simp only [pyUnquoteAux, hc, if_false, ht]
      simp

theorem utf8EncodeNat_ne_nil (n : Nat) : utf8EncodeNat n ≠ [] := by
  unfold utf8EncodeNat
  split
  · simp
  split
  · simp
  split <;> simp

theorem pyQuote_ne_nil {safeExtra : List Nat} {s : List Char} (h : s ≠ []) :
    pyQuote safeExtra s ≠ [] := by
  cases s with
  | nil => exact absurd rfl h
  | cons c rest =>
    have henc : utf8Encode (c :: rest) = utf8EncodeNat c.toNat ++ utf8Encode rest := by
      simp [utf8Encode]
    unfold pyQuote
    rw [henc]
    cases hb : utf8EncodeNat c.toNat with
    | nil => exact absurd hb (utf8EncodeNat_ne_nil c.toNat)
    | cons b bs =>
      rw [List.cons_append, List.flatMap_cons]
      apply List.append_ne_nil_of_left_ne_nil
      split <;> simp [pctByte]

theorem pyQuotePlus_ne_nil {s : List Char} (h : s ≠ []) : pyQuotePlus s ≠ [] := by
  unfold pyQuotePlus
  simp only [ne_eq, List.map_eq_nil_iff]
  exact pyQuote_ne_nil h

/-! ### parse_qsl / urlencode round trip -/

theorem eq_not_mem_quotePlus (s : List Char) : '=' ∉ pyQuotePlus s := by
  intro h
  have hcs := pyQuotePlus_charset h
  have h61 : ('=').toNat = 61 := rfl
  omega

theorem amp_not_mem_quotePlus (s : List Char) : '&' ∉ pyQuotePlus s := by
  intro h
  have hcs := pyQuotePlus_charset h
  have h38 : ('&').toNat = 38 := rfl
  omega

theorem amp_not_mem_piece (k v : List Char) : '&' ∉ pyQuotePlus k ++ '=' :: pyQuotePlus v := by
  intro h
  rw [List.mem_append, List.mem_cons] at h
  rcases h with h | h | h
  · exact amp_not_mem_quotePlus k h
  · exact absurd h (by decide)
  · exact amp_not_mem_quotePlus v h

theorem parseQslPy_eq_filterMap (qs : List Char) :
    parseQslPy qs = (splitOnChar '&' qs).filterMap qslField := rfl

theorem qslField_piece {k v : List Char} (hv : v ≠ []) :
    qslField (pyQuotePlus k ++ '=' :: pyQuotePlus v) = some (k, v) := by
  have hne : ¬ (pyQuotePlus k ++ '=' :: pyQuotePlus v) = [] := by simp
  unfold qslField
  rw [if_neg hne, splitFirstAt_sep _ (eq_not_mem_quotePlus k)]
  dsimp only
  rw [if_neg (pyQuotePlus_ne_nil hv)]
  rw [unquote_plusToSpace_quotePlus, unquote_plusToSpace_quotePlus]

theorem filterMap_qsl_pieces (ps : List (List Char × List Char)) (hv : ∀ p ∈ ps, p.2 ≠ []) :
    List.filterMap qslField
      (ps.map fun q => pyQuotePlus q.1 ++ '=' :: pyQuotePlus q.2) = ps := by
  induction ps with
  | nil => rfl
  | cons q rest ih =>
    obtain ⟨k, v⟩ := q
    have hv0 : v ≠ [] := hv (k, v) (by simp)
    rw [List.map_cons, List.filterMap_cons_some (qslField_piece hv0),
      ih (fun q hq => hv q (List.mem_cons_of_mem _ hq))]

theorem urlencode_pieces_eq (m : List (List Char × List (List Char))) :
    (m.flatMap fun p => p.2.map fun v => pyQuotePlus p.1 ++ '=' :: pyQuotePlus v)
      = (m.flatMap fun p => p.2.map fun v => (p.1, v)).map
          fun q => pyQuotePlus q.1 ++ '=' :: pyQuotePlus q.2 := by
  rw [List.map_flatMap]
  induction m with
  | nil => rfl
  | cons p rest ihm =>
    rw [List.flatMap_cons, List.flatMap_cons, ihm, List.map_map]
    rfl

theorem parseQsl_urlencode (m : List (List Char × List (List Char)))
    (hv : ∀ p ∈ m, ∀ v ∈ p.2, v ≠ []) :
    parseQslPy (urlencodePy m) = m.flatMap fun p => p.2.map fun v => (p.1, v) := by
  have hpieces := urlencode_pieces_eq m
  have hFPv : ∀ q ∈ (m.flatMap fun p => p.2.map fun v => (p.1, v)), q.2 ≠ [] := by
    intro q hq
    rw [List.mem_flatMap] at hq
    obtain ⟨p, hp, hq⟩ := hq
    rw [List.mem_map] at hq
    obtain ⟨v, hvmem, hqe⟩ := hq
    subst hqe
    exact hv p hp v hvmem
  rw [parseQslPy_eq_filterMap]
  unfold urlencodePy
  rw [hpieces]
  cases hFP : (m.flatMap fun p => p.2.map fun v => (p.1, v)) with
  | nil => rfl
  | cons q rest =>
    rw [hFP] at hFPv
    rw [splitOnChar_intercalate (by simp)
      (by intro x hx
          rw [List.mem_map] at hx
          obtain ⟨qq, hqq, hxe⟩ := hx
          subst hxe
          exact amp_not_mem_piece qq.1 qq.2)]
    exact filterMap_qsl_pieces (q :: rest) hFPv

/-! ### parse_qs as grouped parse_qsl -/

theorem qsUpsert_notMem {m : List (List Char × List (List Char))} {k : List Char}
    (h : k ∉ m.map Prod.fst) (v : List Char) : qsUpsert m k v = m ++ [(k, [v])] := by
  induction m with
  | nil => rfl
  | cons p rest ih =>
    obtain ⟨k0, vs⟩ := p
    simp only [List.map_cons, List.mem_cons, not_or] at h
    have hne : ¬ k0 = k := fun hh => h.1 hh.symm
    simp [qsUpsert, hne, ih h.2]

theorem qsUpsert_lastKey {A : List (List Char × List (List Char))} {k : List Char}
    {u : List (List Char)} (h : k ∉ A.map Prod.fst) (v : List Char) :
    qsUpsert (A ++ [(k, u)]) k v = A ++ [(k, u ++ [v])] := by
  induction A with
  | nil => simp [qsUpsert]
  | cons p rest ih =>
    obtain ⟨k0, vs⟩ := p
    simp only [List.map_cons, List.mem_cons, not_or] at h
    have hne : ¬ k0 = k := fun hh => h.1 hh.symm
    simp [qsUpsert, hne, ih h.2]

theorem foldl_upsert_group {A : List (List Char × List (List Char))} {k : List Char}
    (h : k ∉ A.map Prod.fst) (u : List (List Char)) (vs : List (List Char)) :
    List.foldl (fun m p => qsUpsert m p.1 p.2) (A ++ [(k, u)]) (vs.map fun v => (k, v))
      = A ++ [(k, u ++ vs)] := by
  induction vs generalizing u with
  | nil => simp
  | cons v vs' ih =>
    simp only [List.map_cons, List.foldl_cons]
    rw [qsUpsert_lastKey h, ih]
    simp

theorem foldl_upsert_flatPairs (m : List (List Char × List (List Char)))
    (A : List (List Char × List (List Char)))
    (hnd : (m.map Prod.fst).Nodup)
    (hdisj : ∀ k ∈ m.map Prod.fst, k ∉ A.map Prod.fst)
    (hvl : ∀ p ∈ m, p.2 ≠ []) :
    List.foldl (fun acc p => qsUpsert acc p.1 p.2) A
      (m.flatMap fun p => p.2.map fun v => (p.1, v)) = A ++ m := by
  induction m generalizing A with
  | nil => simp
  | cons p m' ih =>
    obtain ⟨k, vs⟩ := p
    cases vs with
    | nil => exact absurd rfl (hvl (k, []) (by simp))
    | cons v vs' =>
      have hkA : k ∉ A.map Prod.fst := hdisj k (by simp)
      have hndtail : (m'.map Prod.fst).Nodup := by
        rw [List.map_cons] at hnd
        exact hnd.of_cons
      have hknotm : k ∉ m'.map Prod.fst := by
        rw [List.map_cons] at hnd
        exact (List.nodup_cons.mp hnd).1
      simp only [List.flatMap_cons, List.map_cons, List.foldl_append, List.foldl_cons]
      rw [qsUpsert_notMem hkA v, foldl_upsert_group hkA [v] vs']
      have hrec := ih (A ++ [(k, [v] ++ vs')]) hndtail
        (by
          intro k2 hk2
          simp only [List.map_append, List.mem_append, List.map_cons, List.mem_cons, not_or]
          refine ⟨hdisj k2 (by simp [hk2]), ?_, by simp⟩
          intro hke
          subst hke
          exact hknotm hk2)
        (fun p hp => hvl p (List.mem_cons_of_mem _ hp))
      rw [hrec]
      simp

theorem parseQs_eq_foldl (qs : List Char) :
    parseQsPy qs = (parseQslPy qs).foldl (fun acc p => qsUpsert acc p.1 p.2) [] := rfl

theorem parseQs_urlencode (m : List (List Char × List (List Char)))
    (hnd : (m.map Prod.fst).Nodup)
    (hvl : ∀ p ∈ m, p.2 ≠ [])
    (hv : ∀ p ∈ m, ∀ v ∈ p.2, v ≠ []) :
    parseQsPy (urlencodePy m) = m := by
  rw [parseQs_eq_foldl, parseQsl_urlencode m hv]
  have hrec := foldl_upsert_flatPairs m [] hnd (by simp) hvl
  simpa using hrec

/-! ### Well-formedness of parse_qs output -/

theorem qsUpsert_keys (m : List (List Char × List (List Char))) (k : List Char)
    (v : List Char) :
    (k ∈ m.map Prod.fst ∧ (qsUpsert m k v).map Prod.fst = m.map Prod.fst) ∨
    (k ∉ m.map Prod.fst ∧ (qsUpsert m k v).map Prod.fst = m.map Prod.fst ++ [k]) := by
  induction m with
  | nil =>
    right
    exact ⟨by simp, by simp [qsUpsert]⟩
  | cons p rest ih =>
    obtain ⟨k0, vs⟩ := p
    by_cases he : k0 = k
    · subst he
      left
      constructor
      · simp
      · simp [qsUpsert]
    · rcases ih with ⟨hmem, heq⟩ | ⟨hnm, heq⟩
      · left
        constructor
        · simp [hmem]
        · simp [qsUpsert, he, heq]
      · right
        constructor
        · simp only [List.map_cons, List.mem_cons, not_or]
          exact ⟨fun hh => he hh.symm, hnm⟩
        · simp [qsUpsert, he, heq]

theorem qsUpsert_nodup {m : List (List Char × List (List Char))}
    (h : (m.map Prod.fst).Nodup) (k : List Char) (v : List Char) :
    ((qsUpsert m k v).map Prod.fst).Nodup := by
  rcases qsUpsert_keys m k v with ⟨_, heq⟩ | ⟨hnm, heq⟩
  · rwa [heq]
  · rw [heq, List.nodup_append]
    exact ⟨h, List.nodup_singleton k, List.disjoint_singleton.mpr hnm⟩

theorem parseQs_nodup_keys (qs : List Char) : ((parseQsPy qs).map Prod.fst).Nodup := by
  rw [parseQs_eq_foldl]
  have hgen : ∀ (l : List (List Char × List Char)) (acc : List (List Char × List (List Char))),
      (acc.map Prod.fst).Nodup →
      ((List.foldl (fun acc p => qsUpsert acc p.1 p.2) acc l).map Prod.fst).Nodup := by
    intro l
    induction l with
    | nil =>
      intro acc h
      simpa using h
    | cons p rest ih =>
      intro acc h
      exact ih _ (qsUpsert_nodup h p.1 p.2)
  exact hgen _ [] (by simp)

theorem qsUpsert_values {m : List (List Char × List (List Char))} {k : List Char}
    {v : List Char} (hm : ∀ p ∈ m, p.2 ≠ [] ∧ ∀ x ∈ p.2, x ≠ []) (hv : v ≠ []) :
    ∀ p ∈ qsUpsert m k v, p.2 ≠ [] ∧ ∀ x ∈ p.2, x ≠ [] := by
  induction m with
  | nil =>
    intro p hp
    simp only [qsUpsert, List.mem_singleton] at hp
    subst hp
    exact ⟨by simp, by intro x hx; simp at hx; subst hx; exact hv⟩
  | cons q rest ih =>
    obtain ⟨k0, vs⟩ := q
    have hhead := hm (k0, vs) (by simp)
    by_cases he : k0 = k
    · subst he
      intro p hp
      rw [show qsUpsert ((k0, vs) :: rest) k0 v = (k0, vs ++ [v]) :: rest
        from by simp [qsUpsert]] at hp
      rw [List.mem_cons] at hp
      rcases hp with hp | hp
      · subst hp
        constructor
        · simp
        · intro x hx
          rw [List.mem_append] at hx
          rcases hx with hx | hx
          · exact hhead.2 x hx
          · simp at hx
            subst hx
            exact hv
      · exact hm p (List.mem_cons_of_mem _ hp)
    · intro p hp
      rw [show qsUpsert ((k0, vs) :: rest) k v = (k0, vs) :: qsUpsert rest k v
        from by simp [qsUpsert, he]] at hp
      rw [List.mem_cons] at hp
      rcases hp with hp | hp
      · subst hp
        exact hhead
      · exact ih (fun q hq => hm q (List.mem_cons_of_mem _ hq)) p hp

theorem parseQsl_snd_ne_nil {qs : List Char} {p : List Char × List Char}
    (hp : p ∈ parseQslPy qs) : p.2 ≠ [] := by
  rw [parseQslPy_eq_filterMap, List.mem_filterMap] at hp
  obtain ⟨nv, _, hg⟩ := hp
  unfold qslField at hg
  by_cases h0 : nv = []
  · rw [if_pos h0] at hg
    simp at hg
  · rw [if_neg h0] at hg
    cases hsp : splitFirstAt '=' nv with
    | none =>
      rw [hsp] at hg
      simp at hg
    | some pr =>
      rw [hsp] at hg
      dsimp only at hg
      by_cases h2 : pr.2 = []
      · rw [if_pos h2] at hg
        simp at hg
      · rw [if_neg h2] at hg
        have hpe := Option.some.inj hg
        subst hpe
        show pyUnquote (plusToSpace pr.2) ≠ []
        apply pyUnquote_ne_nil
        simp only [plusToSpace, ne_eq, List.map_eq_nil_iff]
        exact h2

theorem parseQs_values (qs : List Char) :
    ∀ p ∈ parseQsPy qs, p.2 ≠ [] ∧ ∀ x ∈ p.2, x ≠ [] := by
  rw [parseQs_eq_foldl]
  have hgen : ∀ (l : List (List Char × List Char)) (acc : List (List Char × List (List Char))),
      (∀ q ∈ l, q.2 ≠ []) →
      (∀ p ∈ acc, p.2 ≠ [] ∧ ∀ x ∈ p.2, x ≠ []) →
      ∀ p ∈ List.foldl (fun acc p => qsUpsert acc p.1 p.2) acc l,
        p.2 ≠ [] ∧ ∀ x ∈ p.2, x ≠ [] := by
    intro l
    induction l with
    | nil =>
      intro acc _ hacc
      simpa using hacc
    | cons q rest ih =>
      intro acc hl hacc
      exact ih _ (fun q2 hq2 => hl q2 (List.mem_cons_of_mem _ hq2))
        (qsUpsert_values hacc (hl q (by simp)))
  exact hgen _ [] (fun q hq => parseQsl_snd_ne_nil hq) (by simp)

theorem removeSignT_nodup {m : List (List Char × List (List Char))}
    (h : (m.map Prod.fst).Nodup) : ((removeSignT m).map Prod.fst).Nodup :=
  List.Nodup.sublist (List.Sublist.map Prod.fst (List.filter_sublist m)) h

theorem removeSignT_values {m : List (List Char × List (List Char))}
    (h : ∀ p ∈ m, p.2 ≠ [] ∧ ∀ x ∈ p.2, x ≠ []) :
    ∀ p ∈ removeSignT m, p.2 ≠ [] ∧ ∀ x ∈ p.2, x ≠ [] :=
  fun p hp => h p (List.mem_of_mem_filter hp)

theorem stripQuery_roundtrip (q : List Char) :
    parseQsPy (urlencodePy (removeSignT (parseQsPy q)))
      = removeSignT (parseQsPy q) := by
  apply parseQs_urlencode
  · exact removeSignT_nodup (parseQs_nodup_keys q)
  · exact fun p hp => (removeSignT_values (parseQs_values q) p hp).1
  · exact fun p hp => (removeSignT_values (parseQs_values q) p hp).2

/-! ### Prefix and run helper lemmas -/

theorem prefix_append_det {P x : List Char} (T : List Char) (h : P.length ≤ x.length) :
    (P <+: x ++ T) ↔ P <+: x := by
  constructor
  · intro hp
    rw [List.prefix_iff_eq_take] at hp ⊢
    rwa [List.take_append_of_le_length h] at hp
  · intro hp
    exact hp.trans (List.prefix_append x T)

theorem isPrefixOf_append_det {P x : List Char} (T : List Char) (h : P.length ≤ x.length) :
    P.isPrefixOf (x ++ T) = P.isPrefixOf x := by
  have hiff := prefix_append_det (P := P) T h
  cases hx : P.isPrefixOf x with
  | true =>
    exact List.isPrefixOf_iff_prefix.mpr (hiff.mpr (List.isPrefixOf_iff_prefix.mp hx))
  | false =>
    cases hy : P.isPrefixOf (x ++ T) with
    | false => rfl
    | true =>
      have hx2 := List.isPrefixOf_iff_prefix.mpr (hiff.mp (List.isPrefixOf_iff_prefix.mp hy))
      rw [hx] at hx2
      exact absurd hx2 (by decide)

theorem isPrefixOf_eq_append {P s : List Char} (h : P.isPrefixOf s = true) :
    s = P ++ s.drop P.length := by
  obtain ⟨t, ht⟩ := List.isPrefixOf_iff_prefix.mp h
  rw [← ht, List.drop_left]

theorem takeWhile_append_all {p : Char → Bool} {A : List Char} (B : List Char)
    (h : ∀ c ∈ A, p c = true) :
    List.takeWhile p (A ++ B) = A ++ List.takeWhile p B := by
  induction A with
  | nil => rfl
  | cons c cs ih =>
    rw [List.cons_append, List.takeWhile_cons_of_pos (h c (by simp)),
      ih (fun c hc => h c (by simp [hc])), List.cons_append]

theorem dropWhile_append_all {p : Char → Bool} {A : List Char} (B : List Char)
    (h : ∀ c ∈ A, p c = true) :
    List.dropWhile p (A ++ B) = List.dropWhile p B := by
  induction A with
  | nil => rfl
  | cons c cs ih =>
    rw [List.cons_append, List.dropWhile_cons_of_pos (h c (by simp)),
      ih (fun c hc => h c (by simp [hc]))]

theorem dropWhile_eq_drop_length {p : Char → Bool} (l : List Char) :
    List.dropWhile p l = l.drop (List.takeWhile p l).length := by
  induction l with
  | nil => rfl
  | cons c t ih =>
    by_cases hc : p c = true
    · rw [List.takeWhile_cons_of_pos hc, List.dropWhile_cons_of_pos hc]
      simpa using ih
    · rw [List.takeWhile_cons_of_neg hc, List.dropWhile_cons_of_neg hc]
      rfl

theorem urlRunTake_exact {run : List Char} (T : List Char)
    (hrun : ∀ c ∈ run, isUrlTerm c = false) (hT : headTermOK T) :
    urlRunTake (run ++ T) = run := by
  unfold urlRunTake
  rw [takeWhile_append_all T (fun c hc => by rw [hrun c hc]; rfl)]
  cases T with
  | nil => simp
  | cons c t =>
    simp only [headTermOK] at hT
    rw [List.takeWhile_cons_of_neg (by simp [hT]), List.append_nil]

theorem urlRunTake_mem {l : List Char} {c : Char} (hc : c ∈ urlRunTake l) :
    isUrlTerm c = false := by
  have := List.mem_takeWhile_imp hc
  simpa using this

theorem dropWhile_head_term (X : List Char) :
    headTermOK (List.dropWhile (fun c => !isUrlTerm c) X) := by
  induction X with
  | nil => trivial
  | cons c t ih =>
    by_cases hc : isUrlTerm c = true
    · rw [List.dropWhile_cons_of_neg (by simp [hc])]
      simp [headTermOK, hc]
    · rw [Bool.not_eq_true] at hc
      rw [List.dropWhile_cons_of_pos (by simp [hc])]
      exact ih

theorem httpsPfx_length (dom : List Char) : (httpsPfx dom).length = 8 + dom.length := by
  unfold httpsPfx
  rw [List.length_append]
  rfl

theorem httpPfx_length (dom : List Char) : (httpPfx dom).length = 7 + dom.length := by
  unfold httpPfx
  rw [List.length_append]
  rfl

theorem hostShaped_elim {dom : List Char} (h : hostShapedDomain dom = true) :
    dom ≠ [] ∧ ∀ c ∈ dom, c ≠ '/' ∧ c ≠ '?' ∧ c ≠ Char.ofNat 35 ∧ isUrlTerm c = false := by
  unfold hostShapedDomain at h
  rw [Bool.and_eq_true, decide_eq_true_eq, List.all_eq_true] at h
  refine ⟨h.1, fun c hc => ?_⟩
  have hcc := h.2 c hc
  simp only [Bool.not_eq_true', Bool.or_eq_false_iff, decide_eq_false_iff_not] at hcc
  exact ⟨hcc.1.1.1, hcc.1.1.2, hcc.1.2, hcc.2⟩

theorem hostShaped_netloc {dom : List Char} (h : hostShapedDomain dom = true) :
    ∀ c ∈ dom, (!isNetlocEnd c) = true := by
  intro c hc
  obtain ⟨-, h2⟩ := hostShaped_elim h
  obtain ⟨h1, h2a, h3, -⟩ := h2 c hc
  simp [isNetlocEnd, h1, h2a, h3]

theorem matchShape_length {dom m : List Char} (h : matchShape dom m) :
    7 + dom.length ≤ m.length := by
  rcases h with ⟨run, hm, -⟩ | ⟨run, hm, -⟩
  · rw [hm, List.length_append, httpsPfx_length]
    omega
  · rw [hm, List.length_append, httpPfx_length]
    omega

theorem matchShape_ne_nil {dom m : List Char} (h : matchShape dom m) : m ≠ [] := by
  have hlen := matchShape_length h
  intro he
  rw [he] at hlen
  simp at hlen

/-! ### Character class facts -/

theorem isPySpace_eq_false_of_toNat {c : Char}
    (h : 33 ≤ c.toNat ∧ c.toNat ≤ 126) : isPySpace c = false := by
  unfold isPySpace
  simp only [List.contains_eq_any_beq, List.any_cons, List.any_nil, Bool.or_eq_false_iff,
    beq_eq_false_iff_ne, ne_eq, and_true, decide_eq_false_iff_not, not_and, not_le]
  omega

theorem isUrlTerm_eq_false_of_toNat {c : Char}
    (h : 33 ≤ c.toNat ∧ c.toNat ≤ 126 ∧ c.toNat ≠ 34 ∧ c.toNat ≠ 39 ∧
      c.toNat ≠ 41 ∧ c.toNat ≠ 93) : isUrlTerm c = false := by
  unfold isUrlTerm
  rw [isPySpace_eq_false_of_toNat ⟨h.1, h.2.1⟩]
  simp only [Bool.false_or, Bool.or_eq_false_iff, decide_eq_false_iff_not]
  obtain ⟨h1, h2, h34, h39, h41, h93⟩ := h
  refine ⟨⟨⟨?_, ?_⟩, ?_⟩, ?_⟩ <;> intro he
  · have hc : c.toNat = 34 := by rw [he]; rfl
    omega
  · have hc : c.toNat = 39 := by rw [he]; rfl
    omega
  · have hc : c.toNat = 41 := by rw [he]; rfl
    omega
  · have hc : c.toNat = 93 := by rw [he]; rfl
    omega

theorem termfree_not_ctl {c : Char} (h : isUrlTerm c = false) :
    (!(c = Char.ofNat 9 || c = Char.ofNat 13 || c = Char.ofNat 10)) = true := by
  simp only [Bool.not_eq_true', Bool.or_eq_false_iff, decide_eq_false_iff_not]
  refine ⟨⟨?_, ?_⟩, ?_⟩ <;> intro he <;> subst he <;> exact absurd h (by decide)

/-! ### Parse structure of a matched URL -/

theorem clean_https (dom run : List Char) (hdom : hostShapedDomain dom = true)
    (hrun : ∀ c ∈ run, isUrlTerm c = false) :
    removeUnsafeUrlBytes (lstripC0Space (httpsPfx dom ++ run)) = httpsPfx dom ++ run := by
  have hl : lstripC0Space (httpsPfx dom ++ run) = httpsPfx dom ++ run := rfl
  rw [hl]
  unfold removeUnsafeUrlBytes
  rw [List.filter_eq_self]
  intro c hc
  simp only [httpsPfx, List.append_assoc, List.mem_append] at hc
  rcases hc with hc | hc | hc
  · simp only [List.mem_cons, List.not_mem_nil, or_false] at hc
    rcases hc with rfl | rfl | rfl | rfl | rfl | rfl | rfl | rfl <;> decide
  · exact termfree_not_ctl ((hostShaped_elim hdom).2 c hc).2.2.2
  · exact termfree_not_ctl (hrun c hc)

theorem clean_http (dom run : List Char) (hdom : hostShapedDomain dom = true)
    (hrun : ∀ c ∈ run, isUrlTerm c = false) :
    removeUnsafeUrlBytes (lstripC0Space (httpPfx dom ++ run)) = httpPfx dom ++ run := by
  have hl : lstripC0Space (httpPfx dom ++ run) = httpPfx dom ++ run := rfl
  rw [hl]
  unfold removeUnsafeUrlBytes
  rw [List.filter_eq_self]
  intro c hc
  simp only [httpPfx, List.append_assoc, List.mem_append] at hc
  rcases hc with hc | hc | hc
  · simp only [List.mem_cons, List.not_mem_nil, or_false] at hc
    rcases hc with rfl | rfl | rfl | rfl | rfl | rfl | rfl <;> decide
  · exact termfree_not_ctl ((hostShaped_elim hdom).2 c hc).2.2.2
  · exact termfree_not_ctl (hrun c hc)

theorem httpsPfx_decomp (dom run : List Char) :
    httpsPfx dom ++ run = ("https").data ++ ':' :: ('/' :: '/' :: (dom ++ run)) := by
  unfold httpsPfx
  rw [List.append_assoc]
  rfl

theorem httpPfx_decomp (dom run : List Char) :
    httpPfx dom ++ run = ("http").data ++ ':' :: ('/' :: '/' :: (dom ++ run)) := by
  unfold httpPfx
  rw [List.append_assoc]
  rfl

theorem splitScheme_https (dom run : List Char) :
    splitSchemePy (httpsPfx dom ++ run) = (("https").data, '/' :: '/' :: (dom ++ run)) := by
  unfold splitSchemePy
  rw [httpsPfx_decomp, splitFirstAt_sep _ (by decide)]
  dsimp only
  rw [if_pos (by decide)]
  rw [show List.map Char.toLower ("https").data = ("https").data from by decide]

theorem splitScheme_http (dom run : List Char) :
    splitSchemePy (httpPfx dom ++ run) = (("http").data, '/' :: '/' :: (dom ++ run)) := by
  unfold splitSchemePy
  rw [httpPfx_decomp, splitFirstAt_sep _ (by decide)]
  dsimp only
  rw [if_pos (by decide)]
  rw [show List.map Char.toLower ("http").data = ("http").data from by decide]

theorem splitNetloc_match {dom : List Char} (run : List Char)
    (hdom : hostShapedDomain dom = true) :
    splitNetlocPy (dom ++ run) =
      (dom ++ run.takeWhile (fun c => !isNetlocEnd c),
       run.dropWhile (fun c => !isNetlocEnd c)) := by
  unfold splitNetlocPy
  rw [takeWhile_append_all run (hostShaped_netloc hdom),
    dropWhile_append_all run (hostShaped_netloc hdom)]

theorem urlsplitPy_https (dom run : List Char) (hdom : hostShapedDomain dom = true)
    (hrun : ∀ c ∈ run, isUrlTerm c = false) :
    urlsplitPy (httpsPfx dom ++ run) =
      (if bracketMismatch (dom ++ run.takeWhile fun c => !isNetlocEnd c) then Except.error ()
       else Except.ok ⟨("https").data, dom ++ run.takeWhile (fun c => !isNetlocEnd c),
         (splitQm (splitHash (run.dropWhile fun c => !isNetlocEnd c)).1).1,
         (splitQm (splitHash (run.dropWhile fun c => !isNetlocEnd c)).1).2,
         (splitHash (run.dropWhile fun c => !isNetlocEnd c)).2⟩) := by
  unfold urlsplitPy
  rw [clean_https dom run hdom hrun]
  dsimp only
  rw [splitScheme_https]
  dsimp only
  rw [if_pos (show ('/' :: '/' :: (dom ++ run)).take 2 = ['/', '/'] from rfl)]
  rw [show ('/' :: '/' :: (dom ++ run)).drop 2 = dom ++ run from rfl]
  rw [splitNetloc_match run hdom]
  dsimp only
  by_cases hb : bracketMismatch (dom ++ run.takeWhile fun c => !isNetlocEnd c) = true
  · rw [if_pos hb, if_pos hb]
  · rw [if_neg hb, if_neg hb]
    unfold splitHash splitQm
    rfl

theorem urlsplitPy_http (dom run : List Char) (hdom : hostShapedDomain dom = true)
    (hrun : ∀ c ∈ run, isUrlTerm c = false) :
    urlsplitPy (httpPfx dom ++ run) =
      (if bracketMismatch (dom ++ run.takeWhile fun c => !isNetlocEnd c) then Except.error ()
       else Except.ok ⟨("http").data, dom ++ run.takeWhile (fun c => !isNetlocEnd c),
         (splitQm (splitHash (run.dropWhile fun c => !isNetlocEnd c)).1).1,
         (splitQm (splitHash (run.dropWhile fun c => !isNetlocEnd c)).1).2,
         (splitHash (run.dropWhile fun c => !isNetlocEnd c)).2⟩) := by
  unfold urlsplitPy
  rw [clean_http dom run hdom hrun]
  dsimp only
  rw [splitScheme_http]
  dsimp only
  rw [if_pos (show ('/' :: '/' :: (dom ++ run)).take 2 = ['/', '/'] from rfl)]
  rw [show ('/' :: '/' :: (dom ++ run)).drop 2 = dom ++ run from rfl]
  rw [splitNetloc_match run hdom]
  dsimp only
  by_cases hb : bracketMismatch (dom ++ run.takeWhile fun c => !isNetlocEnd c) = true
  · rw [if_pos hb, if_pos hb]
  · rw [if_neg hb, if_neg hb]
    unfold splitHash splitQm
    rfl

theorem urlparsePy_https (dom run : List Char) (hdom : hostShapedDomain dom = true)
    (hrun : ∀ c ∈ run, isUrlTerm c = false) :
    urlparsePy (httpsPfx dom ++ run) =
      (if bracketMismatch (dom ++ run.takeWhile fun c => !isNetlocEnd c) then Except.error ()
       else Except.ok ⟨("https").data, dom ++ run.takeWhile (fun c => !isNetlocEnd c),
         (splitParamsPy (splitQm (splitHash (run.dropWhile fun c => !isNetlocEnd c)).1).1).1,
         (splitParamsPy (splitQm (splitHash (run.dropWhile fun c => !isNetlocEnd c)).1).1).2,
         (splitQm (splitHash (run.dropWhile fun c => !isNetlocEnd c)).1).2,
         (splitHash (run.dropWhile fun c => !isNetlocEnd c)).2⟩) := by
  unfold urlparsePy
  rw [urlsplitPy_https dom run hdom hrun]
  by_cases hb : bracketMismatch (dom ++ run.takeWhile fun c => !isNetlocEnd c) = true
  · rw [if_pos hb, if_pos hb]
  · rw [if_neg hb, if_neg hb]

theorem urlparsePy_http (dom run : List Char) (hdom : hostShapedDomain dom = true)
    (hrun : ∀ c ∈ run, isUrlTerm c = false) :
    urlparsePy (httpPfx dom ++ run) =
      (if bracketMismatch (dom ++ run.takeWhile fun c => !isNetlocEnd c) then Except.error ()
       else Except.ok ⟨("http").data, dom ++ run.takeWhile (fun c => !isNetlocEnd c),
         (splitParamsPy (splitQm (splitHash (run.dropWhile fun c => !isNetlocEnd c)).1).1).1,
         (splitParamsPy (splitQm (splitHash (run.dropWhile fun c => !isNetlocEnd c)).1).1).2,
         (splitQm (splitHash (run.dropWhile fun c => !isNetlocEnd c)).1).2,
         (splitHash (run.dropWhile fun c => !isNetlocEnd c)).2⟩) := by
  unfold urlparsePy
  rw [urlsplitPy_http dom run hdom hrun]
  by_cases hb : bracketMismatch (dom ++ run.takeWhile fun c => !isNetlocEnd c) = true
  · rw [if_pos hb, if_pos hb]
  · rw [if_neg hb, if_neg hb]

/-! ### splitHash / splitQm / splitParams structure -/

theorem splitFirstAt_none_not_mem {sep : Char} {l : List Char}
    (h : splitFirstAt sep l = none) : sep ∉ l := by
  induction l with
  | nil => simp
  | cons c rest ih =>
    by_cases hc : c = sep
    · subst hc
      simp [splitFirstAt] at h
    · simp only [splitFirstAt, if_neg hc] at h
      cases hr : splitFirstAt sep rest with
      | some p =>
        rw [hr] at h
        simp at h
      | none =>
        intro hm
        rcases List.mem_cons.mp hm with hm1 | hm2
        · exact hc hm1.symm
        · exact ih hr hm2

theorem splitHash_no_hash (l : List Char) : Char.ofNat 35 ∉ (splitHash l).1 := by
  unfold splitHash
  cases hs : splitFirstAt (Char.ofNat 35) l with
  | none => exact splitFirstAt_none_not_mem hs
  | some p =>
    obtain ⟨a, b⟩ := p
    exact (splitFirstAt_some_struct hs).1

theorem splitHash_fst_prefix (l : List Char) : ∃ t, l = (splitHash l).1 ++ t := by
  unfold splitHash
  cases hs : splitFirstAt (Char.ofNat 35) l with
  | none => exact ⟨[], by simp⟩
  | some p =>
    obtain ⟨a, b⟩ := p
    exact ⟨Char.ofNat 35 :: b, (splitFirstAt_some_struct hs).2⟩

theorem splitQm_no_qm (l : List Char) : '?' ∉ (splitQm l).1 := by
  unfold splitQm
  cases hs : splitFirstAt '?' l with
  | none => exact splitFirstAt_none_not_mem hs
  | some p =>
    obtain ⟨a, b⟩ := p
    exact (splitFirstAt_some_struct hs).1

theorem splitQm_fst_prefix (l : List Char) : ∃ t, l = (splitQm l).1 ++ t := by
  unfold splitQm
  cases hs : splitFirstAt '?' l with
  | none => exact ⟨[], by simp⟩
  | some p =>
    obtain ⟨a, b⟩ := p
    exact ⟨'?' :: b, (splitFirstAt_some_struct hs).2⟩

theorem dropWhile_ne_slash {l : List Char} (h : '/' ∈ l) :
    ∃ t, l.dropWhile (fun c => c ≠ '/') = '/' :: t := by
  induction l with
  | nil => simp at h
  | cons c rest ih =>
    by_cases hc : c = '/'
    · subst hc
      exact ⟨rest, by rw [List.dropWhile_cons_of_neg (by simp)]⟩
    · rw [List.dropWhile_cons_of_pos (by simp [hc])]
      refine ih ?_
      rcases List.mem_cons.mp h with h1 | h1
      · exact absurd h1.symm hc
      · exact h1

theorem take_sub_length {t s : List Char} :
    (t ++ s).take ((t ++ s).length - s.length) = t := by
  rw [List.length_append, show t.length + s.length - s.length = t.length from by omega,
    List.take_append_of_le_length (le_refl t.length), List.take_length]

theorem splitParamsPy_slash {u : List Char} (h : u.contains '/' = true) :
    splitParamsPy u =
      match splitFirstAt ';' ((u.reverse.takeWhile (fun c => c ≠ '/')).reverse) with
      | none => (u, [])
      | some p =>
        (u.take (u.length - ((u.reverse.takeWhile (fun c => c ≠ '/')).reverse).length) ++ p.1,
         p.2) := by
  unfold splitParamsPy
  dsimp only
  rw [if_pos h]

theorem splitParamsPy_noslash {u : List Char} (h : u.contains '/' = false) :
    splitParamsPy u =
      match splitFirstAt ';' u with
      | none => (u, [])
      | some p => (p.1, p.2) := by
  unfold splitParamsPy
  dsimp only
  rw [if_neg (by intro hc; rw [h] at hc; cases hc), Nat.sub_self, List.take_zero]
  cases hs : splitFirstAt ';' u with
  | none => rfl
  | some p =>
    dsimp only
    rw [List.nil_append]

theorem pathRebuild_eq (u : List Char) :
    pathRebuild u = if (splitParamsPy u).2 ≠ [] then
      (splitParamsPy u).1 ++ ';' :: (splitParamsPy u).2 else (splitParamsPy u).1 := rfl

theorem pathRebuild_master (u : List Char) :
    pathRebuild u = u ∨
    (∃ ini a, u = (ini ++ a) ++ [';'] ∧ pathRebuild u = ini ++ a ∧ ';' ∉ a ∧ '/' ∉ a ∧
      (ini = [] ∨ ∃ ini2, ini = ini2 ++ ['/'])) := by
  by_cases hslash : u.contains '/' = true
  · cases hs : splitFirstAt ';' ((u.reverse.takeWhile (fun c => c ≠ '/')).reverse) with
    | none =>
      left
      rw [pathRebuild_eq, splitParamsPy_slash hslash, hs]
      simp
    | some p =>
      obtain ⟨a, b⟩ := p
      obtain ⟨hna, hseg_eq⟩ := splitFirstAt_some_struct hs
      have hmem : '/' ∈ u := by
        simpa [List.contains, List.elem_iff] using hslash
      obtain ⟨t, ht⟩ := dropWhile_ne_slash ((List.mem_reverse).mpr hmem)
      have hdecomp : u = (t.reverse ++ ['/']) ++ (u.reverse.takeWhile (fun c => c ≠ '/')).reverse := by
        have h1 := List.takeWhile_append_dropWhile (fun c => (c ≠ '/' : Bool)) u.reverse
        rw [ht] at h1
        have h2 := congrArg List.reverse h1
        rw [List.reverse_reverse, List.reverse_append] at h2
        rw [show ('/' :: t).reverse = t.reverse ++ ['/'] from by simp] at h2
        exact h2.symm
      have hnoslash_a : '/' ∉ a := by
        intro hsl
        have hmem2 : '/' ∈ (u.reverse.takeWhile (fun c => c ≠ '/')).reverse := by
          rw [hseg_eq]
          exact List.mem_append.mpr (Or.inl hsl)
        rw [List.mem_reverse] at hmem2
        have := List.mem_takeWhile_imp hmem2
        simp at this
      have hini : u.take (u.length - ((u.reverse.takeWhile (fun c => c ≠ '/')).reverse).length)
          = t.reverse ++ ['/'] := by
        generalize hS : (u.reverse.takeWhile (fun c => c ≠ '/')).reverse = S at hdecomp ⊢
        rw [hdecomp]
        exact take_sub_length
      by_cases hbnil : b = []
      · right
        refine ⟨t.reverse ++ ['/'], a, ?_, ?_, hna, hnoslash_a, Or.inr ⟨t.reverse, rfl⟩⟩
        · rw [hdecomp, hseg_eq, hbnil]
          simp
        · rw [pathRebuild_eq, splitParamsPy_slash hslash, hs]
          dsimp only
          rw [hbnil, if_neg (by simp), hini]
      · left
        rw [pathRebuild_eq, splitParamsPy_slash hslash, hs]
        dsimp only
        rw [if_pos hbnil, hini]
        rw [hdecomp, hseg_eq]
        simp
  · have hne : u.contains '/' = false := Bool.eq_false_iff.mpr hslash
    cases hs : splitFirstAt ';' u with
    | none =>
      left
      rw [pathRebuild_eq, splitParamsPy_noslash hne, hs]
      simp
    | some p =>
      obtain ⟨a, b⟩ := p
      obtain ⟨hna, hu_eq⟩ := splitFirstAt_some_struct hs
      have hnoslash_a : '/' ∉ a := by
        intro hsl
        have hmem : '/' ∈ u := by
          rw [hu_eq]
          exact List.mem_append.mpr (Or.inl hsl)
        have hcontains : u.contains '/' = true := by
          simp [List.contains, List.elem_iff, hmem]
        rw [hne] at hcontains
        cases hcontains
      by_cases hbnil : b = []
      · right
        refine ⟨[], a, ?_, ?_, hna, hnoslash_a, Or.inl rfl⟩
        · rw [List.nil_append, hu_eq, hbnil]
        · rw [pathRebuild_eq, splitParamsPy_noslash hne, hs]
          dsimp only
          rw [hbnil, if_neg (by simp), List.nil_append]
      · left
        rw [pathRebuild_eq, splitParamsPy_noslash hne, hs]
        dsimp only
        rw [if_pos hbnil]
        exact hu_eq.symm

theorem pathRebuild_noslash_nosemi {a : List Char} (h1 : '/' ∉ a) (h2 : ';' ∉ a) :
    pathRebuild a = a := by
  have hc : a.contains '/' = false := by
    cases hb : a.contains '/' with
    | false => rfl
    | true =>
      have h3 : '/' ∈ a := by simpa [List.contains, List.elem_iff] using hb
      exact absurd h3 h1
  rw [pathRebuild_eq, splitParamsPy_noslash hc, splitFirstAt_eq_none h2]
  simp

theorem pathRebuild_slash_seg {ini2 a : List Char} (h1 : '/' ∉ a) (h2 : ';' ∉ a) :
    pathRebuild ((ini2 ++ ['/']) ++ a) = (ini2 ++ ['/']) ++ a := by
  have hc : ((ini2 ++ ['/']) ++ a).contains '/' = true := by
    simp [List.contains, List.elem_iff]
  rw [pathRebuild_eq, splitParamsPy_slash hc]
  have hrev : ((ini2 ++ ['/']) ++ a).reverse = a.reverse ++ '/' :: ini2.reverse := by
    simp
  have hseg : (((ini2 ++ ['/']) ++ a).reverse.takeWhile (fun c => c ≠ '/')).reverse = a := by
    rw [hrev, takeWhile_append_all _ (fun c hcm => by
      simp only [decide_eq_true_eq]
      intro he
      rw [List.mem_reverse] at hcm
      rw [he] at hcm
      exact h1 hcm)]
    rw [List.takeWhile_cons_of_neg (by simp), List.append_nil, List.reverse_reverse]
  rw [hseg, splitFirstAt_eq_none h2]
  simp

theorem pathRebuild_idem (u : List Char) : pathRebuild (pathRebuild u) = pathRebuild u := by
  rcases pathRebuild_master u with hm | ⟨ini, a, hu, hm, hna, hsa, hini⟩
  · rw [hm]
    exact hm
  · rw [hm]
    rcases hini with rfl | ⟨ini2, rfl⟩
    · rw [List.nil_append]
      rw [List.nil_append] at hm
      exact pathRebuild_noslash_nosemi hsa hna
    · exact pathRebuild_slash_seg hsa hna

theorem pathRebuild_subset {u : List Char} {c : Char} (hc : c ∈ pathRebuild u) : c ∈ u := by
  rcases pathRebuild_master u with hm | ⟨ini, a, hu, hm, -, -, -⟩
  · rwa [hm] at hc
  · rw [hm] at hc
    rw [hu]
    exact List.mem_append.mpr (Or.inl hc)

theorem pathRebuild_head (w : List Char) :
    pathRebuild ('/' :: w) = [] ∨ ∃ v, pathRebuild ('/' :: w) = '/' :: v := by
  rcases pathRebuild_master ('/' :: w) with hm | ⟨ini, a, hu, hm, -, -, -⟩
  · right
    exact ⟨w, hm⟩
  · cases hi : ini ++ a with
    | nil =>
      left
      rw [hm, hi]
    | cons x w =>
      right
      refine ⟨w, ?_⟩
      rw [hm, hi]
      rw [hi] at hu
      rw [List.cons_append] at hu
      injection hu with h1 h2
      rw [h1]

/-! ### Character set of the re-encoded query -/

theorem mem_intercalate_sep {sep : Char} {L : List (List Char)} {c : Char}
    (hc : c ∈ List.intercalate [sep] L) : c = sep ∨ ∃ x ∈ L, c ∈ x := by
  induction L with
  | nil => simp [List.intercalate] at hc
  | cons x rest ih =>
    cases rest with
    | nil =>
      rw [show List.intercalate [sep] [x] = x from by simp [List.intercalate]] at hc
      exact Or.inr ⟨x, by simp, hc⟩
    | cons y r2 =>
      rw [intercalate_cons_cons, List.mem_append, List.mem_cons] at hc
      rcases hc with hc | hc | hc
      · exact Or.inr ⟨x, by simp, hc⟩
      · exact Or.inl hc
      · rcases ih hc with h | ⟨z, hz, hcz⟩
        · exact Or.inl h
        · exact Or.inr ⟨z, by simp [hz], hcz⟩

theorem urlencode_charset {m : List (List Char × List (List Char))} {c : Char}
    (hc : c ∈ urlencodePy m) :
    37 ≤ c.toNat ∧ c.toNat ≤ 126 ∧ c.toNat ≠ 39 ∧ c.toNat ≠ 41 ∧ c.toNat ≠ 93 ∧
    c.toNat ≠ 35 ∧ c.toNat ≠ 63 ∧ c.toNat ≠ 47 ∧ c.toNat ≠ 59 ∧ c.toNat ≠ 34 := by
  unfold urlencodePy at hc
  rcases mem_intercalate_sep hc with rfl | ⟨x, hx, hcx⟩
  · have h38 : ('&').toNat = 38 := rfl
    omega
  · rw [List.mem_flatMap] at hx
    obtain ⟨p, hp, hx⟩ := hx
    rw [List.mem_map] at hx
    obtain ⟨v, hv, hxe⟩ := hx
    subst hxe
    rw [List.mem_append, List.mem_cons] at hcx
    rcases hcx with h | h | h
    · have := pyQuotePlus_charset h
      omega
    · subst h
      have h61 : ('=').toNat = 61 := rfl
      omega
    · have := pyQuotePlus_charset h
      omega

theorem stripQ_charset {q : List Char} {c : Char} (hc : c ∈ stripQ q) :
    37 ≤ c.toNat ∧ c.toNat ≤ 126 ∧ c.toNat ≠ 39 ∧ c.toNat ≠ 41 ∧ c.toNat ≠ 93 ∧
    c.toNat ≠ 35 ∧ c.toNat ≠ 63 ∧ c.toNat ≠ 47 ∧ c.toNat ≠ 59 ∧ c.toNat ≠ 34 := by
  unfold stripQ at hc
  exact urlencode_charset hc

theorem stripQ_termfree {q : List Char} : ∀ c ∈ stripQ q, isUrlTerm c = false := by
  intro c hc
  have h := stripQ_charset hc
  exact isUrlTerm_eq_false_of_toNat (by omega)

theorem stripQ_no_hash (q : List Char) : Char.ofNat 35 ∉ stripQ q := by
  intro hc
  have h := stripQ_charset hc
  have h35 : (Char.ofNat 35).toNat = 35 := rfl
  omega

theorem stripQ_no_qm (q : List Char) : '?' ∉ stripQ q := by
  intro hc
  have h := stripQ_charset hc
  have h63 : ('?').toNat = 63 := rfl
  omega

/-! ### The replacer on a matched URL -/

theorem dropWhile_head_cases {p : Char → Bool} (X : List Char) :
    X.dropWhile p = [] ∨ ∃ c t, X.dropWhile p = c :: t ∧ p c = false := by
  induction X with
  | nil => exact Or.inl rfl
  | cons c t ih =>
    cases hc : p c with
    | true =>
      rw [List.dropWhile_cons_of_pos hc]
      exact ih
    | false =>
      right
      exact ⟨c, t, by rw [List.dropWhile_cons_of_neg (by simp [hc])], hc⟩

theorem path0_shape (run : List Char) :
    (splitQm (splitHash (run.dropWhile fun c => !isNetlocEnd c)).1).1 = [] ∨
    ∃ u, (splitQm (splitHash (run.dropWhile fun c => !isNetlocEnd c)).1).1 = '/' :: u := by
  cases hp0 : (splitQm (splitHash (run.dropWhile fun c => !isNetlocEnd c)).1).1 with
  | nil => exact Or.inl rfl
  | cons x u =>
    right
    refine ⟨u, ?_⟩
    obtain ⟨t1, ht1⟩ := splitQm_fst_prefix (splitHash (run.dropWhile fun c => !isNetlocEnd c)).1
    obtain ⟨t2, ht2⟩ := splitHash_fst_prefix (run.dropWhile fun c => !isNetlocEnd c)
    have hr2 : (run.dropWhile fun c => !isNetlocEnd c) = x :: (u ++ t1 ++ t2) := by
      conv_lhs => rw [ht2]
      rw [ht1, hp0]
      simp [List.append_assoc]
    rcases dropWhile_head_cases (p := fun c => !isNetlocEnd c) run with h | ⟨c, t, h, hpc⟩
    · rw [h] at hr2
      cases hr2
    · rw [h] at hr2
      have hcx : c = x := by
        injection hr2 with h1 h2
      subst hcx
      have hnet : isNetlocEnd c = true := by
        cases hn : isNetlocEnd c with
        | true => rfl
        | false => rw [hn] at hpc; simp at hpc
      have hx_mem_qm : c ∈ (splitQm (splitHash (run.dropWhile fun c => !isNetlocEnd c)).1).1 := by
        rw [hp0]
        simp
      have hx_mem_hash : c ∈ (splitHash (run.dropWhile fun c => !isNetlocEnd c)).1 := by
        rw [ht1]
        exact List.mem_append.mpr (Or.inl hx_mem_qm)
      have hq : c ≠ '?' := fun he =>
        splitQm_no_qm _ (he ▸ hx_mem_qm)
      have hh : c ≠ Char.ofNat 35 := fun he =>
        splitHash_no_hash _ (he ▸ hx_mem_hash)
      simp only [isNetlocEnd, Bool.or_eq_true, decide_eq_true_eq] at hnet
      rcases hnet with (hc | hc) | hc
      · rw [hc]
      · exact absurd hc hq
      · exact absurd hc hh

theorem stripReplacer_https (dom run : List Char) (hdom : hostShapedDomain dom = true)
    (hrun : ∀ c ∈ run, isUrlTerm c = false)
    (hnb : bracketMismatch (dom ++ run.takeWhile fun c => !isNetlocEnd c) = false) :
    stripReplacer (httpsPfx dom ++ run) = stripRecomb dom run (httpsPfx dom) := by
  unfold stripReplacer
  rw [urlparsePy_https dom run hdom hrun,
    if_neg (by rw [hnb]; exact Bool.false_ne_true)]
  dsimp only
  unfold urlunparsePy urlunsplitPy stripRecomb
  dsimp only
  rw [show ∀ x, urlencodePy (removeSignT (parseQsPy x)) = stripQ x from fun x => rfl]
  rw [← pathRebuild_eq]
  rw [if_pos (Or.inl (List.append_ne_nil_of_left_ne_nil (hostShaped_elim hdom).1 _))]
  have hpath : ¬(pathRebuild (splitQm (splitHash (run.dropWhile fun c => !isNetlocEnd c)).1).1 ≠ [] ∧
      (pathRebuild (splitQm (splitHash (run.dropWhile fun c => !isNetlocEnd c)).1).1).take 1 ≠ ['/']) := by
    rcases path0_shape run with h0 | ⟨u, h0⟩
    · rw [h0]
      intro hcon
      exact hcon.1 rfl
    · rw [h0]
      rcases pathRebuild_head u with h1 | ⟨v, h1⟩
      · rw [h1]
        intro hcon
        exact hcon.1 rfl
      · rw [h1]
        intro hcon
        exact hcon.2 rfl
  rw [if_neg hpath]
  rw [if_pos (show ("https").data ≠ [] from by decide)]
  by_cases hq : stripQ (splitQm (splitHash (run.dropWhile fun c => !isNetlocEnd c)).1).2 ≠ []
  · rw [if_pos hq, if_pos hq]
    by_cases hf : (splitHash (run.dropWhile fun c => !isNetlocEnd c)).2 ≠ []
    · rw [if_pos hf, if_pos hf]
      simp only [httpsPfx, show ("https://").data = ['h','t','t','p','s',':','/','/'] from rfl,
        List.cons_append, List.append_assoc, List.append_nil, List.nil_append]
    · rw [if_neg hf, if_neg hf]
      simp only [httpsPfx, show ("https://").data = ['h','t','t','p','s',':','/','/'] from rfl,
        List.cons_append, List.append_assoc, List.append_nil, List.nil_append]
  · rw [if_neg hq, if_neg hq]
    by_cases hf : (splitHash (run.dropWhile fun c => !isNetlocEnd c)).2 ≠ []
    · rw [if_pos hf, if_pos hf]
      simp only [httpsPfx, show ("https://").data = ['h','t','t','p','s',':','/','/'] from rfl,
        List.cons_append, List.append_assoc, List.append_nil, List.nil_append]
    · rw [if_neg hf, if_neg hf]
      simp only [httpsPfx, show ("https://").data = ['h','t','t','p','s',':','/','/'] from rfl,
        List.cons_append, List.append_assoc, List.append_nil, List.nil_append]

theorem stripReplacer_http (dom run : List Char) (hdom : hostShapedDomain dom = true)
    (hrun : ∀ c ∈ run, isUrlTerm c = false)
    (hnb : bracketMismatch (dom ++ run.takeWhile fun c => !isNetlocEnd c) = false) :
    stripReplacer (httpPfx dom ++ run) = stripRecomb dom run (httpPfx dom) := by
  unfold stripReplacer
  rw [urlparsePy_http dom run hdom hrun,
    if_neg (by rw [hnb]; exact Bool.false_ne_true)]
  dsimp only
  unfold urlunparsePy urlunsplitPy stripRecomb
  dsimp only
  rw [show ∀ x, urlencodePy (removeSignT (parseQsPy x)) = stripQ x from fun x => rfl]
  rw [← pathRebuild_eq]
  rw [if_pos (Or.inl (List.append_ne_nil_of_left_ne_nil (hostShaped_elim hdom).1 _))]
  have hpath : ¬(pathRebuild (splitQm (splitHash (run.dropWhile fun c => !isNetlocEnd c)).1).1 ≠ [] ∧
      (pathRebuild (splitQm (splitHash (run.dropWhile fun c => !isNetlocEnd c)).1).1).take 1 ≠ ['/']) := by
    rcases path0_shape run with h0 | ⟨u, h0⟩
    · rw [h0]
      intro hcon
      exact hcon.1 rfl
    · rw [h0]
      rcases pathRebuild_head u with h1 | ⟨v, h1⟩
      · rw [h1]
        intro hcon
        exact hcon.1 rfl
      · rw [h1]
        intro hcon
        exact hcon.2 rfl
  rw [if_neg hpath]
  rw [if_pos (show ("http").data ≠ [] from by decide)]
  by_cases hq : stripQ (splitQm (splitHash (run.dropWhile fun c => !isNetlocEnd c)).1).2 ≠ []
  · rw [if_pos hq, if_pos hq]
    by_cases hf : (splitHash (run.dropWhile fun c => !isNetlocEnd c)).2 ≠ []
    · rw [if_pos hf, if_pos hf]
      simp only [httpPfx, show ("http://").data = ['h','t','t','p',':','/','/'] from rfl,
        List.cons_append, List.append_assoc, List.append_nil, List.nil_append]
    · rw [if_neg hf, if_neg hf]
      simp only [httpPfx, show ("http://").data = ['h','t','t','p',':','/','/'] from rfl,
        List.cons_append, List.append_assoc, List.append_nil, List.nil_append]
  · rw [if_neg hq, if_neg hq]
    by_cases hf : (splitHash (run.dropWhile fun c => !isNetlocEnd c)).2 ≠ []
    · rw [if_pos hf, if_pos hf]
      simp only [httpPfx, show ("http://").data = ['h','t','t','p',':','/','/'] from rfl,
        List.cons_append, List.append_assoc, List.append_nil, List.nil_append]
    · rw [if_neg hf, if_neg hf]
      simp only [httpPfx, show ("http://").data = ['h','t','t','p',':','/','/'] from rfl,
        List.cons_append, List.append_assoc, List.append_nil, List.nil_append]

/-! ### Shape and fixed point of the replacer -/

theorem splitHash_fst_subset {l : List Char} {c : Char} (hc : c ∈ (splitHash l).1) : c ∈ l := by
  obtain ⟨t, ht⟩ := splitHash_fst_prefix l
  rw [ht]
  exact List.mem_append.mpr (Or.inl hc)

theorem splitHash_snd_subset {l : List Char} {c : Char} (hc : c ∈ (splitHash l).2) : c ∈ l := by
  unfold splitHash at hc
  cases hs : splitFirstAt (Char.ofNat 35) l with
  | none =>
    rw [hs] at hc
    simp at hc
  | some p =>
    obtain ⟨a, b⟩ := p
    rw [hs] at hc
    dsimp only at hc
    rw [(splitFirstAt_some_struct hs).2]
    simp [hc]

theorem splitQm_fst_subset {l : List Char} {c : Char} (hc : c ∈ (splitQm l).1) : c ∈ l := by
  obtain ⟨t, ht⟩ := splitQm_fst_prefix l
  rw [ht]
  exact List.mem_append.mpr (Or.inl hc)

theorem splitQm_snd_subset {l : List Char} {c : Char} (hc : c ∈ (splitQm l).2) : c ∈ l := by
  unfold splitQm at hc
  cases hs : splitFirstAt '?' l with
  | none =>
    rw [hs] at hc
    simp at hc
  | some p =>
    obtain ⟨a, b⟩ := p
    rw [hs] at hc
    dsimp only at hc
    rw [(splitFirstAt_some_struct hs).2]
    simp [hc]

theorem stripRecomb_shape (dom run P : List Char)
    (hrun : ∀ c ∈ run, isUrlTerm c = false) :
    ∃ run2, stripRecomb dom run P = P ++ run2 ∧ ∀ c ∈ run2, isUrlTerm c = false := by
  refine ⟨(run.takeWhile fun c => !isNetlocEnd c) ++
    (pathRebuild (splitQm (splitHash (run.dropWhile fun c => !isNetlocEnd c)).1).1 ++
     (if stripQ (splitQm (splitHash (run.dropWhile fun c => !isNetlocEnd c)).1).2 ≠ []
      then '?' :: stripQ (splitQm (splitHash (run.dropWhile fun c => !isNetlocEnd c)).1).2 else []) ++
     (if (splitHash (run.dropWhile fun c => !isNetlocEnd c)).2 ≠ []
      then Char.ofNat 35 :: (splitHash (run.dropWhile fun c => !isNetlocEnd c)).2 else [])), ?_, ?_⟩
  · unfold stripRecomb
    simp [List.append_assoc]
  · intro c hc
    have hr2sub : ∀ x ∈ (run.dropWhile fun c => !isNetlocEnd c), x ∈ run :=
      fun x hx => (List.dropWhile_sublist _).subset hx
    simp only [List.mem_append] at hc
    rcases hc with hc | (hc | hc) | hc
    · exact hrun c ((List.takeWhile_sublist _).subset hc)
    · exact hrun c (hr2sub c (splitHash_fst_subset (splitQm_fst_subset (pathRebuild_subset hc))))
    · by_cases hq : stripQ (splitQm (splitHash (run.dropWhile fun c => !isNetlocEnd c)).1).2 ≠ []
      · rw [if_pos hq, List.mem_cons] at hc
        rcases hc with rfl | hc
        · decide
        · exact stripQ_termfree c hc
      · rw [if_neg hq] at hc
        simp at hc
    · by_cases hf : (splitHash (run.dropWhile fun c => !isNetlocEnd c)).2 ≠ []
      · rw [if_pos hf, List.mem_cons] at hc
        rcases hc with rfl | hc
        · decide
        · exact hrun c (hr2sub c (splitHash_snd_subset hc))
      · rw [if_neg hf] at hc
        simp at hc

theorem stripReplacer_https_err (dom run : List Char) (hdom : hostShapedDomain dom = true)
    (hrun : ∀ c ∈ run, isUrlTerm c = false)
    (hb : bracketMismatch (dom ++ run.takeWhile fun c => !isNetlocEnd c) = true) :
    stripReplacer (httpsPfx dom ++ run) = httpsPfx dom ++ run := by
  unfold stripReplacer
  rw [urlparsePy_https dom run hdom hrun, if_pos hb]

theorem stripReplacer_http_err (dom run : List Char) (hdom : hostShapedDomain dom = true)
    (hrun : ∀ c ∈ run, isUrlTerm c = false)
    (hb : bracketMismatch (dom ++ run.takeWhile fun c => !isNetlocEnd c) = true) :
    stripReplacer (httpPfx dom ++ run) = httpPfx dom ++ run := by
  unfold stripReplacer
  rw [urlparsePy_http dom run hdom hrun, if_pos hb]

theorem takeWhile_append_stop {p : Char → Bool} {A W : List Char}
    (hA : ∀ c ∈ A, p c = true) (hW : W = [] ∨ ∃ c t, W = c :: t ∧ p c = false) :
    List.takeWhile p (A ++ W) = A ∧ List.dropWhile p (A ++ W) = W := by
  constructor
  · rw [takeWhile_append_all W hA]
    rcases hW with rfl | ⟨c, t, rfl, hc⟩
    · simp
    · rw [List.takeWhile_cons_of_neg (by simp [hc]), List.append_nil]
  · rw [dropWhile_append_all W hA]
    rcases hW with rfl | ⟨c, t, rfl, hc⟩
    · rfl
    · rw [List.dropWhile_cons_of_neg (by simp [hc])]

theorem splitHash_recomb {A f2 : List Char} (hA : Char.ofNat 35 ∉ A) :
    splitHash (A ++ (if f2 ≠ [] then Char.ofNat 35 :: f2 else [])) = (A, f2) := by
  by_cases hf : f2 ≠ []
  · rw [if_pos hf]
    unfold splitHash
    rw [splitFirstAt_sep _ hA]
  · rw [if_neg hf]
    rw [not_ne_iff.mp hf, List.append_nil]
    unfold splitHash
    rw [splitFirstAt_eq_none hA]

theorem splitQm_recomb {B q2 : List Char} (hB : '?' ∉ B) :
    splitQm (B ++ (if q2 ≠ [] then '?' :: q2 else [])) = (B, q2) := by
  by_cases hq : q2 ≠ []
  · rw [if_pos hq]
    unfold splitQm
    rw [splitFirstAt_sep _ hB]
  · rw [if_neg hq]
    rw [not_ne_iff.mp hq, List.append_nil]
    unfold splitQm
    rw [splitFirstAt_eq_none hB]

theorem removeSignT_idem (x : List (List Char × List (List Char))) :
    removeSignT (removeSignT x) = removeSignT x := by
  unfold removeSignT
  rw [List.filter_eq_self]
  intro a ha
  exact (List.mem_filter.mp ha).2

theorem stripQ_idem (q : List Char) : stripQ (stripQ q) = stripQ q := by
  show urlencodePy (removeSignT (parseQsPy (stripQ q))) = stripQ q
  unfold stripQ
  rw [stripQuery_roundtrip, removeSignT_idem]

theorem stripRecomb_pass2 (dom run Q : List Char) (hdom : hostShapedDomain dom = true) :
    stripRecomb dom
      ((run.takeWhile fun c => !isNetlocEnd c) ++
        (pathRebuild (splitQm (splitHash (run.dropWhile fun c => !isNetlocEnd c)).1).1 ++
         (if stripQ (splitQm (splitHash (run.dropWhile fun c => !isNetlocEnd c)).1).2 ≠ []
          then '?' :: stripQ (splitQm (splitHash (run.dropWhile fun c => !isNetlocEnd c)).1).2
          else []) ++
         (if (splitHash (run.dropWhile fun c => !isNetlocEnd c)).2 ≠ []
          then Char.ofNat 35 :: (splitHash (run.dropWhile fun c => !isNetlocEnd c)).2 else []))) Q
    = Q ++ ((run.takeWhile fun c => !isNetlocEnd c) ++
        (pathRebuild (splitQm (splitHash (run.dropWhile fun c => !isNetlocEnd c)).1).1 ++
         (if stripQ (splitQm (splitHash (run.dropWhile fun c => !isNetlocEnd c)).1).2 ≠ []
          then '?' :: stripQ (splitQm (splitHash (run.dropWhile fun c => !isNetlocEnd c)).1).2
          else []) ++
         (if (splitHash (run.dropWhile fun c => !isNetlocEnd c)).2 ≠ []
          then Char.ofNat 35 :: (splitHash (run.dropWhile fun c => !isNetlocEnd c)).2 else []))) := by
  set r1 := run.takeWhile fun c => !isNetlocEnd c with hr1def
  set r2 := run.dropWhile fun c => !isNetlocEnd c with hr2def
  set A := pathRebuild (splitQm (splitHash r2).1).1 with hAdef
  set q2 := stripQ (splitQm (splitHash r2).1).2 with hq2def
  set f2 := (splitHash r2).2 with hf2def
  have hA_no_qm : '?' ∉ A := fun hc => splitQm_no_qm _ (by
    rw [hAdef] at hc
    exact pathRebuild_subset hc)
  have hA_no_hash : Char.ofNat 35 ∉ A := fun hc => splitHash_no_hash r2 (by
    rw [hAdef] at hc
    exact splitQm_fst_subset (pathRebuild_subset hc))
  have hnq : Char.ofNat 35 ∉ A ++ (if q2 ≠ [] then '?' :: q2 else []) := by
    intro hc
    rw [List.mem_append] at hc
    rcases hc with hc | hc
    · exact hA_no_hash hc
    · by_cases hq : q2 ≠ []
      · rw [if_pos hq, List.mem_cons] at hc
        rcases hc with hc | hc
        · exact absurd hc (by decide)
        · rw [hq2def] at hc
          exact stripQ_no_hash _ hc
      · rw [if_neg hq] at hc
        simp at hc
  have hAshape : A = [] ∨ ∃ v, A = '/' :: v := by
    rcases path0_shape run with h0 | ⟨u, h0⟩
    · left
      rw [← hr2def] at h0
      rw [hAdef, h0]
      rfl
    · rw [← hr2def] at h0
      rw [hAdef, h0]
      exact pathRebuild_head u
  have hW : (A ++ (if q2 ≠ [] then '?' :: q2 else []) ++
      (if f2 ≠ [] then Char.ofNat 35 :: f2 else [])) = [] ∨
      ∃ c t, (A ++ (if q2 ≠ [] then '?' :: q2 else []) ++
        (if f2 ≠ [] then Char.ofNat 35 :: f2 else [])) = c :: t ∧ (!isNetlocEnd c) = false := by
    rcases hAshape with hA0 | ⟨v, hAv⟩
    · rw [hA0, List.nil_append]
      by_cases hq : q2 ≠ []
      · rw [if_pos hq]
        exact Or.inr ⟨'?', _, by rw [List.cons_append], by decide⟩
      · rw [if_neg hq, List.nil_append]
        by_cases hf : f2 ≠ []
        · rw [if_pos hf]
          exact Or.inr ⟨Char.ofNat 35, f2, rfl, by decide⟩
        · rw [if_neg hf]
          exact Or.inl rfl
    · rw [hAv]
      exact Or.inr ⟨'/', _, by rw [List.cons_append, List.cons_append], by decide⟩
  obtain ⟨htake, hdrop⟩ := takeWhile_append_stop
    (fun c hc => List.mem_takeWhile_imp (show c ∈ run.takeWhile fun c => !isNetlocEnd c from
      hr1def ▸ hc)) hW
  unfold stripRecomb
  dsimp only
  rw [htake, hdrop, splitHash_recomb hnq]
  dsimp only
  rw [splitQm_recomb hA_no_qm]
  dsimp only
  rw [show pathRebuild A = A from by conv_lhs => rw [hAdef, pathRebuild_idem]]
  rw [show stripQ q2 = q2 from by conv_lhs => rw [hq2def, stripQ_idem]]
  simp [List.append_assoc]

theorem stripRecomb_eq (dom run P : List Char) :
    stripRecomb dom run P = P ++
      ((run.takeWhile fun c => !isNetlocEnd c) ++
        (pathRebuild (splitQm (splitHash (run.dropWhile fun c => !isNetlocEnd c)).1).1 ++
         (if stripQ (splitQm (splitHash (run.dropWhile fun c => !isNetlocEnd c)).1).2 ≠ []
          then '?' :: stripQ (splitQm (splitHash (run.dropWhile fun c => !isNetlocEnd c)).1).2
          else []) ++
         (if (splitHash (run.dropWhile fun c => !isNetlocEnd c)).2 ≠ []
          then Char.ofNat 35 :: (splitHash (run.dropWhile fun c => !isNetlocEnd c)).2 else []))) := by
  unfold stripRecomb
  simp [List.append_assoc]

theorem run2_termfree (dom run : List Char) (hrun : ∀ c ∈ run, isUrlTerm c = false) :
    ∀ c ∈ ((run.takeWhile fun c => !isNetlocEnd c) ++
        (pathRebuild (splitQm (splitHash (run.dropWhile fun c => !isNetlocEnd c)).1).1 ++
         (if stripQ (splitQm (splitHash (run.dropWhile fun c => !isNetlocEnd c)).1).2 ≠ []
          then '?' :: stripQ (splitQm (splitHash (run.dropWhile fun c => !isNetlocEnd c)).1).2
          else []) ++
         (if (splitHash (run.dropWhile fun c => !isNetlocEnd c)).2 ≠ []
          then Char.ofNat 35 :: (splitHash (run.dropWhile fun c => !isNetlocEnd c)).2 else []))),
      isUrlTerm c = false := by
  obtain ⟨run2, heq, hterm⟩ := stripRecomb_shape dom run [] hrun
  have hpat : run2 = ((run.takeWhile fun c => !isNetlocEnd c) ++
      (pathRebuild (splitQm (splitHash (run.dropWhile fun c => !isNetlocEnd c)).1).1 ++
       (if stripQ (splitQm (splitHash (run.dropWhile fun c => !isNetlocEnd c)).1).2 ≠ []
        then '?' :: stripQ (splitQm (splitHash (run.dropWhile fun c => !isNetlocEnd c)).1).2
        else []) ++
       (if (splitHash (run.dropWhile fun c => !isNetlocEnd c)).2 ≠ []
        then Char.ofNat 35 :: (splitHash (run.dropWhile fun c => !isNetlocEnd c)).2 else []))) := by
    have h2 := heq.symm.trans (stripRecomb_eq dom run [])
    simpa using h2
  intro c hc
  refine hterm c ?_
  rw [hpat]
  exact hc

theorem run2_W_head (run : List Char) :
    (pathRebuild (splitQm (splitHash (run.dropWhile fun c => !isNetlocEnd c)).1).1 ++
     (if stripQ (splitQm (splitHash (run.dropWhile fun c => !isNetlocEnd c)).1).2 ≠ []
      then '?' :: stripQ (splitQm (splitHash (run.dropWhile fun c => !isNetlocEnd c)).1).2
      else []) ++
     (if (splitHash (run.dropWhile fun c => !isNetlocEnd c)).2 ≠ []
      then Char.ofNat 35 :: (splitHash (run.dropWhile fun c => !isNetlocEnd c)).2 else [])) = [] ∨
    ∃ c t, (pathRebuild (splitQm (splitHash (run.dropWhile fun c => !isNetlocEnd c)).1).1 ++
     (if stripQ (splitQm (splitHash (run.dropWhile fun c => !isNetlocEnd c)).1).2 ≠ []
      then '?' :: stripQ (splitQm (splitHash (run.dropWhile fun c => !isNetlocEnd c)).1).2
      else []) ++
     (if (splitHash (run.dropWhile fun c => !isNetlocEnd c)).2 ≠ []
      then Char.ofNat 35 :: (splitHash (run.dropWhile fun c => !isNetlocEnd c)).2 else []))
      = c :: t ∧ (!isNetlocEnd c) = false := by
  have hAshape : pathRebuild (splitQm (splitHash (run.dropWhile fun c => !isNetlocEnd c)).1).1 = [] ∨
      ∃ v, pathRebuild (splitQm (splitHash (run.dropWhile fun c => !isNetlocEnd c)).1).1 = '/' :: v := by
    rcases path0_shape run with h0 | ⟨u, h0⟩
    · left
      rw [h0]
      rfl
    · rw [h0]
      exact pathRebuild_head u
  rcases hAshape with hA0 | ⟨v, hAv⟩
  · rw [hA0, List.nil_append]
    by_cases hq : stripQ (splitQm (splitHash (run.dropWhile fun c => !isNetlocEnd c)).1).2 ≠ []
    · rw [if_pos hq]
      exact Or.inr ⟨'?', _, by rw [List.cons_append], by decide⟩
    · rw [if_neg hq, List.nil_append]
      by_cases hf : (splitHash (run.dropWhile fun c => !isNetlocEnd c)).2 ≠ []
      · rw [if_pos hf]
        exact Or.inr ⟨Char.ofNat 35, _, rfl, by decide⟩
      · rw [if_neg hf]
        exact Or.inl rfl
  · rw [hAv]
    exact Or.inr ⟨'/', _, by rw [List.cons_append, List.cons_append], by decide⟩

theorem run2_takeWhile (run : List Char) :
    (((run.takeWhile fun c => !isNetlocEnd c) ++
      (pathRebuild (splitQm (splitHash (run.dropWhile fun c => !isNetlocEnd c)).1).1 ++
       (if stripQ (splitQm (splitHash (run.dropWhile fun c => !isNetlocEnd c)).1).2 ≠ []
        then '?' :: stripQ (splitQm (splitHash (run.dropWhile fun c => !isNetlocEnd c)).1).2
        else []) ++
       (if (splitHash (run.dropWhile fun c => !isNetlocEnd c)).2 ≠ []
        then Char.ofNat 35 :: (splitHash (run.dropWhile fun c => !isNetlocEnd c)).2 else []))).takeWhile
      fun c => !isNetlocEnd c) = run.takeWhile fun c => !isNetlocEnd c :=
  (takeWhile_append_stop (fun c hc => List.mem_takeWhile_imp hc) (run2_W_head run)).1

theorem stripReplacer_idem_https (dom run : List Char) (hdom : hostShapedDomain dom = true)
    (hrun : ∀ c ∈ run, isUrlTerm c = false) :
    stripReplacer (stripReplacer (httpsPfx dom ++ run)) = stripReplacer (httpsPfx dom ++ run) := by
  by_cases hb : bracketMismatch (dom ++ run.takeWhile fun c => !isNetlocEnd c) = true
  · rw [stripReplacer_https_err dom run hdom hrun hb,
      stripReplacer_https_err dom run hdom hrun hb]
  · have hb' := Bool.eq_false_iff.mpr hb
    rw [stripReplacer_https dom run hdom hrun hb']
    rw [stripRecomb_eq dom run (httpsPfx dom)]
    rw [stripReplacer_https dom _ hdom (run2_termfree dom run hrun)
      (by rw [run2_takeWhile]; exact hb')]
    exact stripRecomb_pass2 dom run (httpsPfx dom) hdom

theorem stripReplacer_idem_http (dom run : List Char) (hdom : hostShapedDomain dom = true)
    (hrun : ∀ c ∈ run, isUrlTerm c = false) :
    stripReplacer (stripReplacer (httpPfx dom ++ run)) = stripReplacer (httpPfx dom ++ run) := by
  by_cases hb : bracketMismatch (dom ++ run.takeWhile fun c => !isNetlocEnd c) = true
  · rw [stripReplacer_http_err dom run hdom hrun hb,
      stripReplacer_http_err dom run hdom hrun hb]
  · have hb' := Bool.eq_false_iff.mpr hb
    rw [stripReplacer_http dom run hdom hrun hb']
    rw [stripRecomb_eq dom run (httpPfx dom)]
    rw [stripReplacer_http dom _ hdom (run2_termfree dom run hrun)
      (by rw [run2_takeWhile]; exact hb')]
    exact stripRecomb_pass2 dom run (httpPfx dom) hdom

theorem stripReplacer_shape_https (dom run : List Char) (hdom : hostShapedDomain dom = true)
    (hrun : ∀ c ∈ run, isUrlTerm c = false) :
    ∃ run2, stripReplacer (httpsPfx dom ++ run) = httpsPfx dom ++ run2 ∧
      ∀ c ∈ run2, isUrlTerm c = false := by
  by_cases hb : bracketMismatch (dom ++ run.takeWhile fun c => !isNetlocEnd c) = true
  · exact ⟨run, stripReplacer_https_err dom run hdom hrun hb, hrun⟩
  · rw [stripReplacer_https dom run hdom hrun (Bool.eq_false_iff.mpr hb)]
    exact stripRecomb_shape dom run _ hrun

theorem stripReplacer_shape_http (dom run : List Char) (hdom : hostShapedDomain dom = true)
    (hrun : ∀ c ∈ run, isUrlTerm c = false) :
    ∃ run2, stripReplacer (httpPfx dom ++ run) = httpPfx dom ++ run2 ∧
      ∀ c ∈ run2, isUrlTerm c = false := by
  by_cases hb : bracketMismatch (dom ++ run.takeWhile fun c => !isNetlocEnd c) = true
  · exact ⟨run, stripReplacer_http_err dom run hdom hrun hb, hrun⟩
  · rw [stripReplacer_http dom run hdom hrun (Bool.eq_false_iff.mpr hb)]
    exact stripRecomb_shape dom run _ hrun

/-! ### Scan step equations and fuel irrelevance -/

theorem scanPiecesAux_nil (dom : List Char) (f : Nat) : scanPiecesAux dom f [] = [] := by
  cases f with
  | zero => rfl
  | succ k => rfl

theorem scanPiecesAux_cons (dom : List Char) (f : Nat) (c : Char) (rest : List Char) :
    scanPiecesAux dom (f+1) (c :: rest) =
      (if (httpsPfx dom).isPrefixOf (c :: rest) then
        ([], httpsPfx dom ++ urlRunTake ((c :: rest).drop (httpsPfx dom).length)) ::
          scanPiecesAux dom f ((c :: rest).drop ((httpsPfx dom).length +
            (urlRunTake ((c :: rest).drop (httpsPfx dom).length)).length))
      else if (httpPfx dom).isPrefixOf (c :: rest) then
        ([], httpPfx dom ++ urlRunTake ((c :: rest).drop (httpPfx dom).length)) ::
          scanPiecesAux dom f ((c :: rest).drop ((httpPfx dom).length +
            (urlRunTake ((c :: rest).drop (httpPfx dom).length)).length))
      else
        match scanPiecesAux dom f rest with
        | [] => [([c], [])]
        | (g, m) :: ps => ((c :: g), m) :: ps) := rfl

theorem scanPiecesAux_fuel_eq (dom : List Char) :
    ∀ f l, l.length ≤ f → scanPiecesAux dom f l = scanPiecesAux dom l.length l := by
  intro f
  induction f using Nat.strong_induction_on with
  | _ f ih =>
    intro l hl
    cases l with
    | nil => rw [scanPiecesAux_nil, scanPiecesAux_nil]
    | cons c rest =>
      cases f with
      | zero => simp at hl
      | succ fu =>
        have hrest : rest.length ≤ fu := by
          rw [List.length_cons] at hl
          omega
        rw [scanPiecesAux_cons dom fu, show (c :: rest).length = rest.length + 1 from rfl,
          scanPiecesAux_cons dom rest.length]
        by_cases h1 : (httpsPfx dom).isPrefixOf (c :: rest) = true
        · rw [if_pos h1, if_pos h1]
          have hd : ((c :: rest).drop ((httpsPfx dom).length +
              (urlRunTake ((c :: rest).drop (httpsPfx dom).length)).length)).length ≤ rest.length := by
            rw [List.length_drop, httpsPfx_length, List.length_cons]
            omega
          rw [ih fu (by omega) ((c :: rest).drop ((httpsPfx dom).length +
              (urlRunTake ((c :: rest).drop (httpsPfx dom).length)).length)) (le_trans hd hrest),
            ih rest.length (by omega) ((c :: rest).drop ((httpsPfx dom).length +
              (urlRunTake ((c :: rest).drop (httpsPfx dom).length)).length)) hd]
        · rw [if_neg h1, if_neg h1]
          by_cases h2 : (httpPfx dom).isPrefixOf (c :: rest) = true
          · rw [if_pos h2, if_pos h2]
            have hd : ((c :: rest).drop ((httpPfx dom).length +
                (urlRunTake ((c :: rest).drop (httpPfx dom).length)).length)).length ≤ rest.length := by
              rw [List.length_drop, httpPfx_length, List.length_cons]
              omega
            rw [ih fu (by omega) ((c :: rest).drop ((httpPfx dom).length +
                (urlRunTake ((c :: rest).drop (httpPfx dom).length)).length)) (le_trans hd hrest),
              ih rest.length (by omega) ((c :: rest).drop ((httpPfx dom).length +
                (urlRunTake ((c :: rest).drop (httpPfx dom).length)).length)) hd]
          · rw [if_neg h2, if_neg h2]
            rw [ih fu (by omega) rest hrest]

theorem scanPieces_match_https {dom s : List Char} (h1 : (httpsPfx dom).isPrefixOf s = true)
    (hs : s ≠ []) :
    scanPieces dom s = ([], httpsPfx dom ++ urlRunTake (s.drop (httpsPfx dom).length)) ::
      scanPieces dom (s.drop ((httpsPfx dom).length +
        (urlRunTake (s.drop (httpsPfx dom).length)).length)) := by
  cases s with
  | nil => exact absurd rfl hs
  | cons c rest =>
    show scanPiecesAux dom (rest.length + 1) (c :: rest) = _
    rw [scanPiecesAux_cons, if_pos h1]
    have hd : ((c :: rest).drop ((httpsPfx dom).length +
        (urlRunTake ((c :: rest).drop (httpsPfx dom).length)).length)).length ≤ rest.length := by
      rw [List.length_drop, httpsPfx_length, List.length_cons]
      omega
    rw [scanPiecesAux_fuel_eq dom rest.length _ hd]
    rfl

theorem scanPieces_match_http {dom s : List Char} (h1 : (httpsPfx dom).isPrefixOf s = false)
    (h2 : (httpPfx dom).isPrefixOf s = true) (hs : s ≠ []) :
    scanPieces dom s = ([], httpPfx dom ++ urlRunTake (s.drop (httpPfx dom).length)) ::
      scanPieces dom (s.drop ((httpPfx dom).length +
        (urlRunTake (s.drop (httpPfx dom).length)).length)) := by
  cases s with
  | nil => exact absurd rfl hs
  | cons c rest =>
    show scanPiecesAux dom (rest.length + 1) (c :: rest) = _
    rw [scanPiecesAux_cons, if_neg (by rw [h1]; exact Bool.false_ne_true), if_pos h2]
    have hd : ((c :: rest).drop ((httpPfx dom).length +
        (urlRunTake ((c :: rest).drop (httpPfx dom).length)).length)).length ≤ rest.length := by
      rw [List.length_drop, httpPfx_length, List.length_cons]
      omega
    rw [scanPiecesAux_fuel_eq dom rest.length _ hd]
    rfl

theorem scanPieces_gap {dom : List Char} {c : Char} {rest : List Char}
    (h1 : (httpsPfx dom).isPrefixOf (c :: rest) = false)
    (h2 : (httpPfx dom).isPrefixOf (c :: rest) = false) :
    scanPieces dom (c :: rest) =
      match scanPieces dom rest with
      | [] => [([c], [])]
      | (g, m) :: ps => ((c :: g), m) :: ps := by
  show scanPiecesAux dom (rest.length + 1) (c :: rest) = _
  rw [scanPiecesAux_cons, if_neg (by rw [h1]; exact Bool.false_ne_true),
    if_neg (by rw [h2]; exact Bool.false_ne_true)]
  rfl

/-! ### Scan of a well-formed piece list -/

theorem prependGap_nil_gap (ps : List (List Char × List Char)) : prependGap [] ps = ps := by
  cases ps with
  | nil => rfl
  | cons p ps2 =>
    obtain ⟨g2, m⟩ := p
    rfl

theorem prependGap_cons (c : Char) (g : List Char) (ps : List (List Char × List Char)) :
    (match prependGap g ps with
     | [] => [([c], [])]
     | (g2, m) :: ps2 => ((c :: g2), m) :: ps2) = prependGap (c :: g) ps := by
  cases ps with
  | nil =>
    by_cases hg : g = []
    · subst hg
      rfl
    · rw [show prependGap g [] = [(g, [])] from by unfold prependGap; rw [if_neg hg]]
      show ((c :: g), ([] : List Char)) :: [] = prependGap (c :: g) []
      rw [show prependGap (c :: g) [] = [((c :: g), [])] from by
        unfold prependGap
        rw [if_neg (by simp)]]
  | cons p ps2 =>
    obtain ⟨g2, m⟩ := p
    rfl

theorem scanPieces_prependGap {dom : List Char} :
    ∀ (g X : List Char),
    (∀ i < g.length, (httpsPfx dom).isPrefixOf ((g ++ X).drop i) = false ∧
      (httpPfx dom).isPrefixOf ((g ++ X).drop i) = false) →
    scanPieces dom (g ++ X) = prependGap g (scanPieces dom X) := by
  intro g
  induction g with
  | nil =>
    intro X h
    rw [List.nil_append, prependGap_nil_gap]
  | cons c g' ih =>
    intro X h
    have h0 := h 0 (by simp)
    rw [List.drop_zero, List.cons_append] at h0
    rw [List.cons_append]
    rw [scanPieces_gap h0.1 h0.2]
    rw [ih X (fun i hi => by
      have hx := h (i+1) (by simpa using Nat.succ_lt_succ hi)
      rwa [List.cons_append, List.drop_succ_cons] at hx)]
    exact prependGap_cons c g' (scanPieces dom X)

theorem scanPieces_match_piece_https {dom run T : List Char}
    (hrun : ∀ c ∈ run, isUrlTerm c = false) (hT : headTermOK T) :
    scanPieces dom ((httpsPfx dom ++ run) ++ T) =
      ([], httpsPfx dom ++ run) :: scanPieces dom T := by
  have hpre : (httpsPfx dom).isPrefixOf ((httpsPfx dom ++ run) ++ T) = true := by
    rw [List.append_assoc]
    exact List.isPrefixOf_iff_prefix.mpr (List.prefix_append _ _)
  have hne : (httpsPfx dom ++ run) ++ T ≠ [] := by
    simp [httpsPfx]
  rw [scanPieces_match_https hpre hne]
  have hdrop1 : ((httpsPfx dom ++ run) ++ T).drop (httpsPfx dom).length = run ++ T := by
    rw [List.append_assoc, List.drop_left]
  rw [hdrop1, urlRunTake_exact T hrun hT]
  have hdrop2 : ((httpsPfx dom ++ run) ++ T).drop ((httpsPfx dom).length + run.length) = T := by
    rw [show (httpsPfx dom).length + run.length = (httpsPfx dom ++ run).length from
      (List.length_append _ _).symm, List.drop_left]
  rw [hdrop2]

theorem https_not_prefix_http (dom X : List Char) :
    (httpsPfx dom).isPrefixOf (httpPfx dom ++ X) = false := rfl

theorem scanPieces_match_piece_http {dom run T : List Char}
    (hrun : ∀ c ∈ run, isUrlTerm c = false) (hT : headTermOK T) :
    scanPieces dom ((httpPfx dom ++ run) ++ T) =
      ([], httpPfx dom ++ run) :: scanPieces dom T := by
  have hpre1 : (httpsPfx dom).isPrefixOf ((httpPfx dom ++ run) ++ T) = false := by
    rw [List.append_assoc]
    exact https_not_prefix_http dom (run ++ T)
  have hpre : (httpPfx dom).isPrefixOf ((httpPfx dom ++ run) ++ T) = true := by
    rw [List.append_assoc]
    exact List.isPrefixOf_iff_prefix.mpr (List.prefix_append _ _)
  have hne : (httpPfx dom ++ run) ++ T ≠ [] := by
    simp [httpPfx]
  rw [scanPieces_match_http hpre1 hpre hne]
  have hdrop1 : ((httpPfx dom ++ run) ++ T).drop (httpPfx dom).length = run ++ T := by
    rw [List.append_assoc, List.drop_left]
  rw [hdrop1, urlRunTake_exact T hrun hT]
  have hdrop2 : ((httpPfx dom ++ run) ++ T).drop ((httpPfx dom).length + run.length) = T := by
    rw [show (httpPfx dom).length + run.length = (httpPfx dom ++ run).length from
      (List.length_append _ _).symm, List.drop_left]
  rw [hdrop2]

theorem scan_joinPieces {dom : List Char} :
    ∀ ps, piecesOK dom ps → scanPieces dom (joinPieces ps) = ps := by
  intro ps
  induction ps with
  | nil =>
    intro _
    rfl
  | cons p ps ih =>
    obtain ⟨g, m⟩ := p
    intro hOK
    simp only [piecesOK] at hOK
    obtain ⟨hhead, htail⟩ := hOK
    by_cases hm : m = []
    · rw [if_pos hm] at hhead
      obtain ⟨hps, hg, hns⟩ := hhead
      subst hps
      subst hm
      have hj : joinPieces [(g, ([] : List Char))] = g ++ [] := by
        simp [joinPieces]
      rw [hj]
      rw [scanPieces_prependGap g [] (fun i hi => by
        have := hns i hi
        rwa [List.append_nil])]
      rw [show scanPieces dom [] = [] from rfl]
      unfold prependGap
      rw [if_neg hg]
    · rw [if_neg hm] at hhead
      obtain ⟨hshape, hns, hterm⟩ := hhead
      have hj : joinPieces ((g, m) :: ps) = g ++ (m ++ joinPieces ps) := by
        simp [joinPieces, List.append_assoc]
      rw [hj]
      have hmlen : 7 + dom.length ≤ m.length := matchShape_length hshape
      have hgap : ∀ i < g.length,
          (httpsPfx dom).isPrefixOf ((g ++ (m ++ joinPieces ps)).drop i) = false ∧
          (httpPfx dom).isPrefixOf ((g ++ (m ++ joinPieces ps)).drop i) = false := by
        intro i hi
        have hdix : (g ++ (m ++ joinPieces ps)).drop i = (g ++ m).drop i ++ joinPieces ps := by
          rw [← List.append_assoc, List.drop_append_of_le_length
            (by rw [List.length_append]; omega)]
        constructor
        · rw [hdix, isPrefixOf_append_det _
            (by rw [httpsPfx_length, List.length_drop, List.length_append]; omega)]
          exact (hns i hi).1
        · rw [hdix, isPrefixOf_append_det _
            (by rw [httpPfx_length, List.length_drop, List.length_append]; omega)]
          exact (hns i hi).2
      rw [scanPieces_prependGap g (m ++ joinPieces ps) hgap]
      rcases hshape with ⟨run, hm_eq, hrun⟩ | ⟨run, hm_eq, hrun⟩
      · rw [hm_eq, scanPieces_match_piece_https hrun hterm, ih htail]
        show (g ++ [], httpsPfx dom ++ run) :: ps = (g, httpsPfx dom ++ run) :: ps
        rw [List.append_nil]
      · rw [hm_eq, scanPieces_match_piece_http hrun hterm, ih htail]
        show (g ++ [], httpPfx dom ++ run) :: ps = (g, httpPfx dom ++ run) :: ps
        rw [List.append_nil]

/-! ### The scan output is a well-formed piece list -/

theorem joinPieces_cons (p : List Char × List Char) (l : List (List Char × List Char)) :
    joinPieces (p :: l) = (p.1 ++ p.2) ++ joinPieces l := by
  simp [joinPieces]

theorem scan_spec_match_https {dom s : List Char}
    (h1 : (httpsPfx dom).isPrefixOf s = true) (hs : s ≠ [])
    (hrec : joinPieces (scanPieces dom (s.drop ((httpsPfx dom).length +
        (urlRunTake (s.drop (httpsPfx dom).length)).length)))
        = s.drop ((httpsPfx dom).length + (urlRunTake (s.drop (httpsPfx dom).length)).length) ∧
      piecesOK dom (scanPieces dom (s.drop ((httpsPfx dom).length +
        (urlRunTake (s.drop (httpsPfx dom).length)).length)))) :
    joinPieces (scanPieces dom s) = s ∧ piecesOK dom (scanPieces dom s) := by
  obtain ⟨hrj, hrOK⟩ := hrec
  rw [scanPieces_match_https h1 hs]
  have hsdec : s = httpsPfx dom ++ s.drop (httpsPfx dom).length := isPrefixOf_eq_append h1
  have hXdec : s.drop (httpsPfx dom).length = urlRunTake (s.drop (httpsPfx dom).length) ++
      List.dropWhile (fun c => !isUrlTerm c) (s.drop (httpsPfx dom).length) :=
    (List.takeWhile_append_dropWhile _ _).symm
  have hremEq : s.drop ((httpsPfx dom).length +
      (urlRunTake (s.drop (httpsPfx dom).length)).length)
      = List.dropWhile (fun c => !isUrlTerm c) (s.drop (httpsPfx dom).length) := by
    rw [← List.drop_drop, dropWhile_eq_drop_length]
    rfl
  constructor
  · rw [joinPieces_cons, hrj, hremEq, List.nil_append, List.append_assoc, ← hXdec, ← hsdec]
  · simp only [piecesOK]
    refine ⟨?_, hrOK⟩
    rw [if_neg (by simp [httpsPfx])]
    refine ⟨Or.inl ⟨urlRunTake (s.drop (httpsPfx dom).length), rfl,
      fun c hc => urlRunTake_mem hc⟩, ?_, ?_⟩
    · intro i hi
      simp at hi
    · rw [hrj, hremEq]
      exact dropWhile_head_term _

theorem scan_spec_match_http {dom s : List Char}
    (h1 : (httpsPfx dom).isPrefixOf s = false)
    (h2 : (httpPfx dom).isPrefixOf s = true) (hs : s ≠ [])
    (hrec : joinPieces (scanPieces dom (s.drop ((httpPfx dom).length +
        (urlRunTake (s.drop (httpPfx dom).length)).length)))
        = s.drop ((httpPfx dom).length + (urlRunTake (s.drop (httpPfx dom).length)).length) ∧
      piecesOK dom (scanPieces dom (s.drop ((httpPfx dom).length +
        (urlRunTake (s.drop (httpPfx dom).length)).length)))) :
    joinPieces (scanPieces dom s) = s ∧ piecesOK dom (scanPieces dom s) := by
  obtain ⟨hrj, hrOK⟩ := hrec
  rw [scanPieces_match_http h1 h2 hs]
  have hsdec : s = httpPfx dom ++ s.drop (httpPfx dom).length := isPrefixOf_eq_append h2
  have hXdec : s.drop (httpPfx dom).length = urlRunTake (s.drop (httpPfx dom).length) ++
      List.dropWhile (fun c => !isUrlTerm c) (s.drop (httpPfx dom).length) :=
    (List.takeWhile_append_dropWhile _ _).symm
  have hremEq : s.drop ((httpPfx dom).length +
      (urlRunTake (s.drop (httpPfx dom).length)).length)
      = List.dropWhile (fun c => !isUrlTerm c) (s.drop (httpPfx dom).length) := by
    rw [← List.drop_drop, dropWhile_eq_drop_length]
    rfl
  constructor
  · rw [joinPieces_cons, hrj, hremEq, List.nil_append, List.append_assoc, ← hXdec, ← hsdec]
  · simp only [piecesOK]
    refine ⟨?_, hrOK⟩
    rw [if_neg (by simp [httpPfx])]
    refine ⟨Or.inr ⟨urlRunTake (s.drop (httpPfx dom).length), rfl,
      fun c hc => urlRunTake_mem hc⟩, ?_, ?_⟩
    · intro i hi
      simp at hi
    · rw [hrj, hremEq]
      exact dropWhile_head_term _

theorem scan_spec_gap {dom : List Char} {c : Char} {rest : List Char}
    (h1 : (httpsPfx dom).isPrefixOf (c :: rest) = false)
    (h2 : (httpPfx dom).isPrefixOf (c :: rest) = false)
    (hrec : joinPieces (scanPieces dom rest) = rest ∧ piecesOK dom (scanPieces dom rest)) :
    joinPieces (scanPieces dom (c :: rest)) = c :: rest ∧
      piecesOK dom (scanPieces dom (c :: rest)) := by
  obtain ⟨hrj, hrOK⟩ := hrec
  rw [scanPieces_gap h1 h2]
  cases hscan : scanPieces dom rest with
  | nil =>
    have hrest : rest = [] := by
      rw [hscan] at hrj
      exact hrj.symm
    subst hrest
    constructor
    · simp [joinPieces]
    · simp only [piecesOK]
      refine ⟨?_, trivial⟩
      rw [if_pos trivial]
      refine ⟨trivial, by simp, ?_⟩
      intro i hi
      have hi0 : i = 0 := by
        simp at hi
        omega
      subst hi0
      rw [List.drop_zero]
      exact ⟨h1, h2⟩
  | cons p ps =>
    obtain ⟨g, m⟩ := p
    rw [hscan] at hrj hrOK
    constructor
    · rw [joinPieces_cons] at hrj ⊢
      dsimp only at hrj ⊢
      rw [List.cons_append, List.cons_append, hrj]
    · simp only [piecesOK] at hrOK ⊢
      obtain ⟨hhead, htail⟩ := hrOK
      refine ⟨?_, htail⟩
      by_cases hm : m = []
      · rw [if_pos hm] at hhead ⊢
        obtain ⟨hps, hg, hns⟩ := hhead
        subst hm
        subst hps
        refine ⟨rfl, by simp, ?_⟩
        have hrg : rest = g := by
          rw [← hrj]
          simp [joinPieces]
        intro i hi
        rw [List.length_cons] at hi
        cases i with
        | zero =>
          rw [List.drop_zero]
          rw [← hrg]
          exact ⟨h1, h2⟩
        | succ j =>
          rw [List.drop_succ_cons]
          exact hns j (by omega)
      · rw [if_neg hm] at hhead ⊢
        obtain ⟨hshape, hns, hterm⟩ := hhead
        refine ⟨hshape, ?_, hterm⟩
        have hrdec : rest = (g ++ m) ++ joinPieces ps := by
          rw [← hrj, joinPieces_cons]
        have hmlen := matchShape_length hshape
        intro i hi
        rw [List.length_cons] at hi
        cases i with
        | zero =>
          rw [List.drop_zero, List.cons_append]
          constructor
          · have hh := h1
            rw [hrdec, show (c :: ((g ++ m) ++ joinPieces ps))
                = (c :: (g ++ m)) ++ joinPieces ps from by rw [List.cons_append]] at hh
            rw [isPrefixOf_append_det _ (by
              rw [httpsPfx_length, List.length_cons, List.length_append]
              omega)] at hh
            exact hh
          · have hh := h2
            rw [hrdec, show (c :: ((g ++ m) ++ joinPieces ps))
                = (c :: (g ++ m)) ++ joinPieces ps from by rw [List.cons_append]] at hh
            rw [isPrefixOf_append_det _ (by
              rw [httpPfx_length, List.length_cons, List.length_append]
              omega)] at hh
            exact hh
        | succ j =>
          rw [List.cons_append, List.drop_succ_cons]
          exact hns j (by omega)

theorem scanPieces_spec (dom : List Char) :
    ∀ n s, s.length ≤ n →
      joinPieces (scanPieces dom s) = s ∧ piecesOK dom (scanPieces dom s) := by
  intro n
  induction n with
  | zero =>
    intro s hs
    have hnil : s = [] := by
      cases s
      · rfl
      · simp at hs
    subst hnil
    exact ⟨rfl, trivial⟩
  | succ n ih =>
    intro s hs
    cases s with
    | nil => exact ⟨rfl, trivial⟩
    | cons c rest =>
      rw [List.length_cons] at hs
      by_cases h1 : (httpsPfx dom).isPrefixOf (c :: rest) = true
      · apply scan_spec_match_https h1 (by simp)
        apply ih
        rw [List.length_drop, httpsPfx_length, List.length_cons]
        omega
      · have h1f : (httpsPfx dom).isPrefixOf (c :: rest) = false := Bool.eq_false_iff.mpr h1
        by_cases h2 : (httpPfx dom).isPrefixOf (c :: rest) = true
        · apply scan_spec_match_http h1f h2 (by simp)
          apply ih
          rw [List.length_drop, httpPfx_length, List.length_cons]
          omega
        · exact scan_spec_gap h1f (Bool.eq_false_iff.mpr h2) (ih rest (by omega))

/-! ### The mapped piece list stays well formed -/

theorem test_transfer {Q g P a b : List Char} {i : Nat} (hi : i < g.length)
    (hlen : Q.length ≤ g.length + P.length - i) :
    Q.isPrefixOf ((g ++ (P ++ a)).drop i) = Q.isPrefixOf ((g ++ (P ++ b)).drop i) := by
  have h1 : (g ++ (P ++ a)).drop i = (g ++ P).drop i ++ a := by
    rw [← List.append_assoc, List.drop_append_of_le_length (by rw [List.length_append]; omega)]
  have h2 : (g ++ (P ++ b)).drop i = (g ++ P).drop i ++ b := by
    rw [← List.append_assoc, List.drop_append_of_le_length (by rw [List.length_append]; omega)]
  rw [h1, h2, isPrefixOf_append_det _ (by rw [List.length_drop, List.length_append]; omega),
    isPrefixOf_append_det _ (by rw [List.length_drop, List.length_append]; omega)]

theorem headTermOK_match_absurd {dom m J : List Char} (hshape : matchShape dom m)
    (hterm : headTermOK (([] ++ m) ++ J)) : False := by
  rcases hshape with ⟨run, hm, -⟩ | ⟨run, hm, -⟩
  · subst hm
    rw [List.nil_append, List.append_assoc] at hterm
    unfold httpsPfx at hterm
    rw [List.append_assoc] at hterm
    rw [show ("https://").data ++ (dom ++ (run ++ J))
        = 'h' :: (("ttps://").data ++ (dom ++ (run ++ J))) from rfl] at hterm
    simp only [headTermOK] at hterm
    exact absurd hterm (by decide)
  · subst hm
    rw [List.nil_append, List.append_assoc] at hterm
    unfold httpPfx at hterm
    rw [List.append_assoc] at hterm
    rw [show ("http://").data ++ (dom ++ (run ++ J))
        = 'h' :: (("ttp://").data ++ (dom ++ (run ++ J))) from rfl] at hterm
    simp only [headTermOK] at hterm
    exact absurd hterm (by decide)

theorem headTermOK_join_map {dom : List Char} {repl : List Char → List Char}
    (ps : List (List Char × List Char)) (hps : piecesOK dom ps)
    (hterm : headTermOK (joinPieces ps)) :
    headTermOK (joinPieces (ps.map fun p => (p.1, if p.2.isEmpty then p.2 else repl p.2))) := by
  cases ps with
  | nil => trivial
  | cons p ps2 =>
    obtain ⟨g, m⟩ := p
    rw [List.map_cons, joinPieces_cons]
    rw [joinPieces_cons] at hterm
    dsimp only at hterm ⊢
    cases g with
    | cons c t =>
      rw [List.cons_append, List.cons_append] at hterm ⊢
      simp only [headTermOK] at hterm ⊢
      exact hterm
    | nil =>
      simp only [piecesOK] at hps
      by_cases hm : m = []
      · rw [if_pos hm] at hps
        exact absurd rfl hps.1.2.1
      · rw [if_neg hm] at hps
        exact (headTermOK_match_absurd hps.1.1 hterm).elim

theorem piecesOK_map {dom : List Char} {repl : List Char → List Char}
    (hhttps : ∀ run, (∀ c ∈ run, isUrlTerm c = false) → ∃ run2,
      repl (httpsPfx dom ++ run) = httpsPfx dom ++ run2 ∧ ∀ c ∈ run2, isUrlTerm c = false)
    (hhttp : ∀ run, (∀ c ∈ run, isUrlTerm c = false) → ∃ run2,
      repl (httpPfx dom ++ run) = httpPfx dom ++ run2 ∧ ∀ c ∈ run2, isUrlTerm c = false) :
    ∀ ps, piecesOK dom ps →
      piecesOK dom (ps.map fun p => (p.1, if p.2.isEmpty then p.2 else repl p.2)) := by
  intro ps
  induction ps with
  | nil =>
    intro _
    trivial
  | cons p ps ih =>
    obtain ⟨g, m⟩ := p
    intro hOK
    simp only [piecesOK] at hOK
    obtain ⟨hhead, htail⟩ := hOK
    rw [List.map_cons]
    simp only [piecesOK]
    refine ⟨?_, ih htail⟩
    dsimp only
    by_cases hm : m = []
    · subst hm
      rw [if_pos rfl] at hhead
      obtain ⟨hps, hg, hns⟩ := hhead
      rw [show (if (List.isEmpty ([] : List Char)) = true then ([] : List Char)
          else repl []) = [] from rfl]
      rw [if_pos rfl]
      exact ⟨by rw [hps]; rfl, hg, hns⟩
    · have hie : m.isEmpty = false := by
        cases m with
        | nil => exact absurd rfl hm
        | cons a b => rfl
      rw [if_neg hm] at hhead
      obtain ⟨hshape, hns, hterm⟩ := hhead
      rw [if_neg (show ¬(m.isEmpty = true) from by rw [hie]; exact Bool.false_ne_true)]
      rcases hshape with ⟨run, hmeq, hrun⟩ | ⟨run, hmeq, hrun⟩
      · obtain ⟨run2, hre, hrun2⟩ := hhttps run hrun
        have hrepl_eq : repl m = httpsPfx dom ++ run2 := by
          rw [hmeq]
          exact hre
        have hne2 : ¬ repl m = [] := by
          rw [hrepl_eq]
          simp [httpsPfx]
        rw [if_neg hne2]
        refine ⟨Or.inl ⟨run2, hrepl_eq, hrun2⟩, ?_,
          headTermOK_join_map ps htail hterm⟩
        intro i hi
        rw [hrepl_eq]
        have hnsi := hns i hi
        rw [hmeq] at hnsi
        constructor
        · rw [@test_transfer (httpsPfx dom) g (httpsPfx dom) run2 run i hi
            (by rw [httpsPfx_length]; omega)]
          exact hnsi.1
        · rw [@test_transfer (httpPfx dom) g (httpsPfx dom) run2 run i hi
            (by rw [httpPfx_length, httpsPfx_length]; omega)]
          exact hnsi.2
      · obtain ⟨run2, hre, hrun2⟩ := hhttp run hrun
        have hrepl_eq : repl m = httpPfx dom ++ run2 := by
          rw [hmeq]
          exact hre
        have hne2 : ¬ repl m = [] := by
          rw [hrepl_eq]
          simp [httpPfx]
        rw [if_neg hne2]
        refine ⟨Or.inr ⟨run2, hrepl_eq, hrun2⟩, ?_,
          headTermOK_join_map ps htail hterm⟩
        intro i hi
        rw [hrepl_eq]
        have hnsi := hns i hi
        rw [hmeq] at hnsi
        constructor
        · rw [@test_transfer (httpsPfx dom) g (httpPfx dom) run2 run i hi
            (by rw [httpsPfx_length, httpPfx_length]; omega)]
          exact hnsi.1
        · rw [@test_transfer (httpPfx dom) g (httpPfx dom) run2 run i hi
            (by rw [httpPfx_length]; omega)]
          exact hnsi.2

/-! ### The scan of a substitution result recovers the substituted pieces -/

theorem scan_map {dom : List Char} {repl : List Char → List Char}
    (hhttps : ∀ run, (∀ c ∈ run, isUrlTerm c = false) → ∃ run2,
      repl (httpsPfx dom ++ run) = httpsPfx dom ++ run2 ∧ ∀ c ∈ run2, isUrlTerm c = false)
    (hhttp : ∀ run, (∀ c ∈ run, isUrlTerm c = false) → ∃ run2,
      repl (httpPfx dom ++ run) = httpPfx dom ++ run2 ∧ ∀ c ∈ run2, isUrlTerm c = false)
    (s : List Char) :
    scanPieces dom (reSubUrls dom repl s) =
      (scanPieces dom s).map fun p => (p.1, if p.2.isEmpty then p.2 else repl p.2) := by
  obtain ⟨hjoin, hOK⟩ := scanPieces_spec dom s.length s le_rfl
  exact scan_joinPieces _ (piecesOK_map hhttps hhttp _ hOK)

theorem piecesOK_mem_match {dom : List Char} :
    ∀ ps, piecesOK dom ps → ∀ p ∈ ps, p.2 ≠ [] → matchShape dom p.2 := by
  intro ps
  induction ps with
  | nil =>
    intro _ p hp
    cases hp
  | cons q ps ih =>
    obtain ⟨g, m⟩ := q
    intro hOK p hp hne
    simp only [piecesOK] at hOK
    rcases List.mem_cons.mp hp with hq | hq
    · subst hq
      rw [if_neg hne] at hOK
      exact hOK.1.1
    · exact ih hOK.2 p hq hne

theorem reSub_strip_idem (dom : List Char) (hdom : hostShapedDomain dom = true)
    (s : List Char) :
    reSubUrls dom stripReplacer (reSubUrls dom stripReplacer s) =
      reSubUrls dom stripReplacer s := by
  have hsm := scan_map (stripReplacer_shape_https dom · hdom ·)
    (stripReplacer_shape_http dom · hdom ·) s
  obtain ⟨hjoin, hOK⟩ := scanPieces_spec dom s.length s le_rfl
  conv_lhs => rw [reSubUrls, hsm]
  rw [reSubUrls]
  congr 1
  rw [List.map_map]
  refine List.map_congr_left ?_
  intro p hp
  obtain ⟨g, m⟩ := p
  by_cases hm : m = []
  · subst hm
    rfl
  · have hshape : matchShape dom m := piecesOK_mem_match _ hOK (g, m) hp hm
    have hie : m.isEmpty = false := by
      cases m with
      | nil => exact absurd rfl hm
      | cons a b => rfl
    dsimp only [Function.comp]
    rw [if_neg (show ¬(m.isEmpty = true) from by rw [hie]; exact Bool.false_ne_true)]
    rcases hshape with ⟨run, hmeq, hrun⟩ | ⟨run, hmeq, hrun⟩
    · obtain ⟨run2, hre, hrun2⟩ := stripReplacer_shape_https dom run hdom hrun
      have hne2 : (stripReplacer m).isEmpty = false := by
        rw [hmeq, hre]
        cases h : httpsPfx dom ++ run2 with
        | nil => exact absurd h (by simp [httpsPfx])
        | cons a b => rfl
      rw [if_neg (show ¬((stripReplacer m).isEmpty = true) from by
        rw [hne2]; exact Bool.false_ne_true)]
      rw [hmeq, stripReplacer_idem_https dom run hdom hrun]
    · obtain ⟨run2, hre, hrun2⟩ := stripReplacer_shape_http dom run hdom hrun
      have hne2 : (stripReplacer m).isEmpty = false := by
        rw [hmeq, hre]
        cases h : httpPfx dom ++ run2 with
        | nil => exact absurd h (by simp [httpPfx])
        | cons a b => rfl
      rw [if_neg (show ¬((stripReplacer m).isEmpty = true) from by
        rw [hne2]; exact Bool.false_ne_true)]
      rw [hmeq, stripReplacer_idem_http dom run hdom hrun]

theorem reSub_strip_ne_nil (dom : List Char) (hdom : hostShapedDomain dom = true)
    (s : List Char) (hs : s ≠ []) :
    reSubUrls dom stripReplacer s ≠ [] := by
  obtain ⟨hjoin, hOK⟩ := scanPieces_spec dom s.length s le_rfl
  cases hps : scanPieces dom s with
  | nil =>
    rw [hps] at hjoin
    exact absurd hjoin.symm hs
  | cons p tl =>
    rw [hps] at hOK
    obtain ⟨g, m⟩ := p
    rw [reSubUrls, hps, List.map_cons, joinPieces_cons]
    dsimp only
    cases g with
    | cons c t => simp
    | nil =>
      simp only [piecesOK] at hOK
      by_cases hm : m = []
      · rw [if_pos hm] at hOK
        exact absurd rfl hOK.1.2.1
      · rw [if_neg hm] at hOK
        have hie : m.isEmpty = false := by
          cases m with
          | nil => exact absurd rfl hm
          | cons a b => rfl
        rw [if_neg (show ¬(m.isEmpty = true) from by rw [hie]; exact Bool.false_ne_true)]
        rcases hOK.1.1 with ⟨run, hmeq, hrun⟩ | ⟨run, hmeq, hrun⟩
        · obtain ⟨run2, hre, -⟩ := stripReplacer_shape_https dom run hdom hrun
          rw [hmeq, hre]
          simp [httpsPfx]
        · obtain ⟨run2, hre, -⟩ := stripReplacer_shape_http dom run hdom hrun
          rw [hmeq, hre]
          simp [httpPfx]

/-! ### C6: idempotence of strip_qiniu_params -/

/-- Claim C6, counterexample to the claim as stated: idempotence fails for
domains containing URL metacharacters. With domain "d?a" the regex alternation
matches the bare host "d" (the tail "?a" falls into the optional query part of
the pattern), yet `urlparse` keeps the "?a..." suffix as a query, so the first
pass rewrites `http://d?a&sign=1#http://d?a&sign=1` to
`http://d#http://d?a&sign=1` and a second pass strips again, producing
`http://d#http://d`. -/
theorem c6_strip_idempotent_counterexample :
    strip_qiniu_params
        (strip_qiniu_params ("http://d?a&sign=1#http://d?a&sign=1") ("d?a")) ("d?a") ≠
      strip_qiniu_params ("http://d?a&sign=1#http://d?a&sign=1") ("d?a") :=
  of_decide_eq_false (by with_unfolding_all rfl)

/-- Claim C6 (amended): for every content string and every domain whose
scheme-stripped form is host-shaped — nonempty and free of `/`, `?`, `#` and
the regex run terminators (whitespace, `"`, `'`, `)`, `]`) — applying
`strip_qiniu_params` twice yields exactly the same string as applying it
once. -/
theorem c6_strip_idempotent (content qiniu_domain : String)
    (hdom : hostShapedDomain (stripDomainScheme qiniu_domain) = true) :
    strip_qiniu_params (strip_qiniu_params content qiniu_domain) qiniu_domain =
      strip_qiniu_params content qiniu_domain := by
  by_cases hg : content = "" ∨ qiniu_domain = ""
  · have h1 : strip_qiniu_params content qiniu_domain = content := by
      rw [strip_qiniu_params, if_pos hg]
    rw [h1]
    exact h1
  · push_neg at hg
    obtain ⟨hc, hd⟩ := hg
    have hcd : content.data ≠ [] := by
      intro h
      refine hc ?_
      cases content with
      | mk l =>
        rw [show l = [] from h]
    have h1 : strip_qiniu_params content qiniu_domain
        = String.mk (reSubUrls (stripDomainScheme qiniu_domain)
            stripReplacer content.data) := by
      rw [strip_qiniu_params,
        if_neg (show ¬(content = "" ∨ qiniu_domain = "") from by
          intro h
          rcases h with h | h
          · exact hc h
          · exact hd h)]
    rw [h1]
    rw [strip_qiniu_params]
    rw [if_neg (show ¬(String.mk (reSubUrls (stripDomainScheme qiniu_domain)
        stripReplacer content.data) = "" ∨ qiniu_domain = "") from by
      intro h
      rcases h with h | h
      · exact reSub_strip_ne_nil _ hdom _ hcd (congrArg String.data h)
      · exact hd h)]
    rw [show (String.mk (reSubUrls (stripDomainScheme qiniu_domain)
        stripReplacer content.data)).data
      = reSubUrls (stripDomainScheme qiniu_domain) stripReplacer content.data from rfl]
    rw [reSub_strip_idem _ hdom]

theorem c6_strip_idempotent_witness :
    hostShapedDomain (stripDomainScheme ("cdn.example.com")) = true ∧
    strip_qiniu_params
        (strip_qiniu_params ("see http://cdn.example.com/img.png?sign=abc&t=5e0 end")
          ("cdn.example.com")) ("cdn.example.com") =
      strip_qiniu_params ("see http://cdn.example.com/img.png?sign=abc&t=5e0 end")
        ("cdn.example.com") :=
  ⟨by with_unfolding_all rfl,
    c6_strip_idempotent ("see http://cdn.example.com/img.png?sign=abc&t=5e0 end")
      ("cdn.example.com") (by with_unfolding_all rfl)⟩

/-! ### C7: what strip_qiniu_params does to each matched URL -/

theorem lookup_cons_eq {β : Type} (k0 : List Char) (v0 : β) (l : List (List Char × β))
    (a : List Char) :
    List.lookup a ((k0, v0) :: l) = if a = k0 then some v0 else List.lookup a l := by
  by_cases h : a = k0
  · rw [if_pos h, List.lookup, show (a == k0) = true from beq_iff_eq.mpr h]
  · rw [if_neg h, List.lookup, show (a == k0) = false from beq_eq_false_iff_ne.mpr h]

theorem removeSignT_cons (k0 : List Char) (v0 : List (List Char))
    (l : List (List Char × List (List Char))) :
    removeSignT ((k0, v0) :: l) =
      if k0 ≠ ("sign").data ∧ k0 ≠ ("t").data
      then (k0, v0) :: removeSignT l else removeSignT l := by
  rw [removeSignT, List.filter_cons]
  by_cases h : k0 ≠ ("sign").data ∧ k0 ≠ ("t").data
  · rw [if_pos (decide_eq_true h), if_pos h]
    rfl
  · rw [if_neg (by rw [decide_eq_false h]; exact Bool.false_ne_true), if_neg h]
    rfl

theorem removeSignT_lookup_sign (l : List (List Char × List (List Char))) :
    List.lookup (("sign").data) (removeSignT l) = none := by
  induction l with
  | nil => rfl
  | cons p l ih =>
    obtain ⟨k0, v0⟩ := p
    rw [removeSignT_cons]
    by_cases h : k0 ≠ ("sign").data ∧ k0 ≠ ("t").data
    · rw [if_pos h, lookup_cons_eq, if_neg (fun he => h.1 he.symm)]
      exact ih
    · rw [if_neg h]
      exact ih

theorem removeSignT_lookup_t (l : List (List Char × List (List Char))) :
    List.lookup (("t").data) (removeSignT l) = none := by
  induction l with
  | nil => rfl
  | cons p l ih =>
    obtain ⟨k0, v0⟩ := p
    rw [removeSignT_cons]
    by_cases h : k0 ≠ ("sign").data ∧ k0 ≠ ("t").data
    · rw [if_pos h, lookup_cons_eq, if_neg (fun he => h.2 he.symm)]
      exact ih
    · rw [if_neg h]
      exact ih

theorem removeSignT_lookup_other (k : List Char) (h1 : k ≠ ("sign").data)
    (h2 : k ≠ ("t").data) :
    ∀ l, List.lookup k (removeSignT l) = List.lookup k l := by
  intro l
  induction l with
  | nil => rfl
  | cons p l ih =>
    obtain ⟨k0, v0⟩ := p
    rw [removeSignT_cons]
    by_cases h : k0 ≠ ("sign").data ∧ k0 ≠ ("t").data
    · rw [if_pos h, lookup_cons_eq, lookup_cons_eq]
      by_cases he : k = k0
      · rw [if_pos he, if_pos he]
      · rw [if_neg he, if_neg he]
        exact ih
    · rw [if_neg h, lookup_cons_eq]
      have hne : ¬ k = k0 := by
        rcases not_and_or.mp h with h0 | h0
        · rw [not_not] at h0
          rw [h0]
          exact h1
        · rw [not_not] at h0
          rw [h0]
          exact h2
      rw [if_neg hne]
      exact ih

/-- Claim C7, counterexample to the claim as stated: `parse_qs` is called with
the default `keep_blank_values=False`, so a blank-valued query parameter of a
matching URL — here `b=` — is dropped from the rewritten URL even though it is
neither `sign` nor `t`; the claim promises all other parameters are left
intact. -/
theorem c7_blank_param_counterexample :
    strip_qiniu_params ("http://d/p?a=1&b=&sign=x") ("d") = ("http://d/p?a=1") := by
  with_unfolding_all rfl

/-- Claim C7 (amended): for nonempty content and a nonempty host-shaped
domain, `strip_qiniu_params` rewrites exactly the regex matches of the content
(the gaps between matches are reproduced unchanged and concatenate back to the
original content), each match being processed by the replacer; the replacer
never raises: a match on which `urlparse` fails is left unchanged, and a match
that parses has its query replaced by the re-encoding of its parsed query with
`sign` and `t` removed — re-parsing the rewritten query yields exactly the
parsed original minus the `sign` and `t` keys: both now absent, and every
other key bound to exactly its original value list. -/
theorem c7_strip_exact_params (content qiniu_domain : String)
    (hdom : hostShapedDomain (stripDomainScheme qiniu_domain) = true)
    (hc : content ≠ "") (hd : qiniu_domain ≠ "") :
    (strip_qiniu_params content qiniu_domain).data =
      joinPieces ((scanPieces (stripDomainScheme qiniu_domain) content.data).map
        fun p => (p.1, if p.2.isEmpty then p.2 else stripReplacer p.2)) ∧
    joinPieces (scanPieces (stripDomainScheme qiniu_domain) content.data) = content.data ∧
    (∀ u e, urlparsePy u = Except.error e → stripReplacer u = u) ∧
    (∀ u q, urlparsePy u = Except.ok q →
      stripReplacer u =
        urlunparsePy { q with query := urlencodePy (removeSignT (parseQsPy q.query)) } ∧
      parseQsPy (urlencodePy (removeSignT (parseQsPy q.query)))
        = removeSignT (parseQsPy q.query) ∧
      List.lookup (("sign").data) (removeSignT (parseQsPy q.query)) = none ∧
      List.lookup (("t").data) (removeSignT (parseQsPy q.query)) = none ∧
      ∀ k, k ≠ ("sign").data → k ≠ ("t").data →
        List.lookup k (removeSignT (parseQsPy q.query))
          = List.lookup k (parseQsPy q.query)) := by
  refine ⟨?_, (scanPieces_spec (stripDomainScheme qiniu_domain)
      content.data.length content.data le_rfl).1, ?_, ?_⟩
  · rw [strip_qiniu_params,
      if_neg (show ¬(content = "" ∨ qiniu_domain = "") from by
        intro h
        rcases h with h | h
        · exact hc h
        · exact hd h)]
    rfl
  · intro u e he
    rw [stripReplacer, he]
  · intro u q hq
    refine ⟨?_, stripQuery_roundtrip _, removeSignT_lookup_sign _,
      removeSignT_lookup_t _, fun k h1 h2 => removeSignT_lookup_other k h1 h2 _⟩
    rw [stripReplacer, hq]

theorem c7_strip_exact_params_witness :
    hostShapedDomain (stripDomainScheme ("d")) = true ∧
    (strip_qiniu_params ("x http://d/a?b=c&sign=s&t=0 y") ("d")).data =
      joinPieces ((scanPieces (stripDomainScheme ("d"))
          (String.data ("x http://d/a?b=c&sign=s&t=0 y"))).map
        fun p => (p.1, if p.2.isEmpty then p.2 else stripReplacer p.2)) :=
  ⟨by with_unfolding_all rfl,
    (c7_strip_exact_params ("x http://d/a?b=c&sign=s&t=0 y") ("d")
      (by with_unfolding_all rfl)
      (of_decide_eq_false (by with_unfolding_all rfl))
      (of_decide_eq_false (by with_unfolding_all rfl))).1⟩

/-! ### C9 scaffolding: stripped content carries no sign/t parameters -/

theorem run2_splitQuery (dom run : List Char) :
    (splitQm (splitHash (List.dropWhile (fun c => !isNetlocEnd c)
      ((run.takeWhile fun c => !isNetlocEnd c) ++
        (pathRebuild (splitQm (splitHash (run.dropWhile fun c => !isNetlocEnd c)).1).1 ++
         (if stripQ (splitQm (splitHash (run.dropWhile fun c => !isNetlocEnd c)).1).2 ≠ []
          then '?' :: stripQ (splitQm (splitHash (run.dropWhile fun c => !isNetlocEnd c)).1).2
          else []) ++
         (if (splitHash (run.dropWhile fun c => !isNetlocEnd c)).2 ≠ []
          then Char.ofNat 35 :: (splitHash (run.dropWhile fun c => !isNetlocEnd c)).2
          else []))))).1).2
      = stripQ (splitQm (splitHash (run.dropWhile fun c => !isNetlocEnd c)).1).2 := by
  set r1 := run.takeWhile fun c => !isNetlocEnd c with hr1def
  set r2 := run.dropWhile fun c => !isNetlocEnd c with hr2def
  set A := pathRebuild (splitQm (splitHash r2).1).1 with hAdef
  set q2 := stripQ (splitQm (splitHash r2).1).2 with hq2def
  set f2 := (splitHash r2).2 with hf2def
  have hA_no_qm : '?' ∉ A := fun hc => splitQm_no_qm _ (by
    rw [hAdef] at hc
    exact pathRebuild_subset hc)
  have hA_no_hash : Char.ofNat 35 ∉ A := fun hc => splitHash_no_hash r2 (by
    rw [hAdef] at hc
    exact splitQm_fst_subset (pathRebuild_subset hc))
  have hnq : Char.ofNat 35 ∉ A ++ (if q2 ≠ [] then '?' :: q2 else []) := by
    intro hc
    rw [List.mem_append] at hc
    rcases hc with hc | hc
    · exact hA_no_hash hc
    · by_cases hq : q2 ≠ []
      · rw [if_pos hq, List.mem_cons] at hc
        rcases hc with hc | hc
        · exact absurd hc (by decide)
        · rw [hq2def] at hc
          exact stripQ_no_hash _ hc
      · rw [if_neg hq] at hc
        simp at hc
  have hAshape : A = [] ∨ ∃ v, A = '/' :: v := by
    rcases path0_shape run with h0 | ⟨u, h0⟩
    · left
      rw [← hr2def] at h0
      rw [hAdef, h0]
      rfl
    · rw [← hr2def] at h0
      rw [hAdef, h0]
      exact pathRebuild_head u
  have hW : (A ++ (if q2 ≠ [] then '?' :: q2 else []) ++
      (if f2 ≠ [] then Char.ofNat 35 :: f2 else [])) = [] ∨
      ∃ c t, (A ++ (if q2 ≠ [] then '?' :: q2 else []) ++
        (if f2 ≠ [] then Char.ofNat 35 :: f2 else [])) = c :: t ∧ (!isNetlocEnd c) = false := by
    rcases hAshape with hA0 | ⟨v, hAv⟩
    · rw [hA0, List.nil_append]
      by_cases hq : q2 ≠ []
      · rw [if_pos hq]
        exact Or.inr ⟨'?', _, by rw [List.cons_append], by decide⟩
      · rw [if_neg hq, List.nil_append]
        by_cases hf : f2 ≠ []
        · rw [if_pos hf]
          exact Or.inr ⟨Char.ofNat 35, f2, rfl, by decide⟩
        · rw [if_neg hf]
          exact Or.inl rfl
    · rw [hAv]
      exact Or.inr ⟨'/', _, by rw [List.cons_append, List.cons_append], by decide⟩
  obtain ⟨htake, hdrop⟩ := takeWhile_append_stop
    (fun c hc => List.mem_takeWhile_imp (show c ∈ run.takeWhile fun c => !isNetlocEnd c from
      hr1def ▸ hc)) hW
  rw [hdrop, splitHash_recomb hnq]
  dsimp only
  rw [splitQm_recomb hA_no_qm]

theorem removeSignT_keys (l : List (List Char × List (List Char))) :
    ("sign").data ∉ (removeSignT l).map (fun q => q.1) ∧
    ("t").data ∉ (removeSignT l).map (fun q => q.1) := by
  constructor
  · intro h
    obtain ⟨p, hp, hk⟩ := List.mem_map.mp h
    rw [removeSignT] at hp
    exact (of_decide_eq_true (List.mem_filter.mp hp).2).1 hk
  · intro h
    obtain ⟨p, hp, hk⟩ := List.mem_map.mp h
    rw [removeSignT] at hp
    exact (of_decide_eq_true (List.mem_filter.mp hp).2).2 hk

theorem stripReplacer_signTFree (dom m : List Char) (hdom : hostShapedDomain dom = true)
    (hshape : matchShape dom m) : urlSignTFree (stripReplacer m) = true := by
  rcases hshape with ⟨run, hmeq, hrun⟩ | ⟨run, hmeq, hrun⟩
  · subst hmeq
    by_cases hb : bracketMismatch (dom ++ run.takeWhile fun c => !isNetlocEnd c) = true
    · rw [stripReplacer_https_err dom run hdom hrun hb]
      rw [urlSignTFree, urlparsePy_https dom run hdom hrun, if_pos hb]
    · have hb' := Bool.eq_false_iff.mpr hb
      rw [stripReplacer_https dom run hdom hrun hb', stripRecomb_eq dom run (httpsPfx dom)]
      rw [urlSignTFree]
      rw [urlparsePy_https dom _ hdom (run2_termfree dom run hrun)]
      rw [if_neg (show ¬(bracketMismatch (dom ++
          ((run.takeWhile fun c => !isNetlocEnd c) ++
            (pathRebuild (splitQm (splitHash (run.dropWhile fun c => !isNetlocEnd c)).1).1 ++
             (if stripQ (splitQm (splitHash (run.dropWhile fun c => !isNetlocEnd c)).1).2 ≠ []
              then '?' :: stripQ (splitQm (splitHash (run.dropWhile fun c => !isNetlocEnd c)).1).2
              else []) ++
             (if (splitHash (run.dropWhile fun c => !isNetlocEnd c)).2 ≠ []
              then Char.ofNat 35 :: (splitHash (run.dropWhile fun c => !isNetlocEnd c)).2
              else []))).takeWhile fun c => !isNetlocEnd c) = true) from by
        rw [run2_takeWhile, hb']
        exact Bool.false_ne_true)]
      dsimp only
      rw [run2_splitQuery dom run]
      rw [show stripQ (splitQm (splitHash (run.dropWhile fun c => !isNetlocEnd c)).1).2
        = urlencodePy (removeSignT (parseQsPy
            (splitQm (splitHash (run.dropWhile fun c => !isNetlocEnd c)).1).2)) from rfl]
      rw [stripQuery_roundtrip]
      rw [decide_eq_true_eq]
      exact removeSignT_keys _
  · subst hmeq
    by_cases hb : bracketMismatch (dom ++ run.takeWhile fun c => !isNetlocEnd c) = true
    · rw [stripReplacer_http_err dom run hdom hrun hb]
      rw [urlSignTFree, urlparsePy_http dom run hdom hrun, if_pos hb]
    · have hb' := Bool.eq_false_iff.mpr hb
      rw [stripReplacer_http dom run hdom hrun hb', stripRecomb_eq dom run (httpPfx dom)]
      rw [urlSignTFree]
      rw [urlparsePy_http dom _ hdom (run2_termfree dom run hrun)]
      rw [if_neg (show ¬(bracketMismatch (dom ++
          ((run.takeWhile fun c => !isNetlocEnd c) ++
            (pathRebuild (splitQm (splitHash (run.dropWhile fun c => !isNetlocEnd c)).1).1 ++
             (if stripQ (splitQm (splitHash (run.dropWhile fun c => !isNetlocEnd c)).1).2 ≠ []
              then '?' :: stripQ (splitQm (splitHash (run.dropWhile fun c => !isNetlocEnd c)).1).2
              else []) ++
             (if (splitHash (run.dropWhile fun c => !isNetlocEnd c)).2 ≠ []
              then Char.ofNat 35 :: (splitHash (run.dropWhile fun c => !isNetlocEnd c)).2
              else []))).takeWhile fun c => !isNetlocEnd c) = true) from by
        rw [run2_takeWhile, hb']
        exact Bool.false_ne_true)]
      dsimp only
      rw [run2_splitQuery dom run]
      rw [show stripQ (splitQm (splitHash (run.dropWhile fun c => !isNetlocEnd c)).1).2
        = urlencodePy (removeSignT (parseQsPy
            (splitQm (splitHash (run.dropWhile fun c => !isNetlocEnd c)).1).2)) from rfl]
      rw [stripQuery_roundtrip]
      rw [decide_eq_true_eq]
      exact removeSignT_keys _

theorem strip_contentSignTFree (c d : String)
    (hdom : hostShapedDomain (stripDomainScheme d) = true) :
    contentSignTFree (stripDomainScheme d) (strip_qiniu_params c d).data = true := by
  have hd : ¬ d = "" := by
    intro h
    rw [h] at hdom
    exact absurd hdom (by decide)
  by_cases hc : c = ""
  · subst hc
    rw [strip_qiniu_params, if_pos (Or.inl rfl)]
    rfl
  · rw [strip_qiniu_params, if_neg (show ¬(c = "" ∨ d = "") from by
      intro h
      rcases h with h | h
      · exact hc h
      · exact hd h)]
    rw [show (String.mk (reSubUrls (stripDomainScheme d) stripReplacer c.data)).data
      = reSubUrls (stripDomainScheme d) stripReplacer c.data from rfl]
    rw [contentSignTFree]
    rw [scan_map (stripReplacer_shape_https (stripDomainScheme d) · hdom ·)
      (stripReplacer_shape_http (stripDomainScheme d) · hdom ·) c.data]
    rw [List.all_eq_true]
    intro p hp
    obtain ⟨q, hq, hpe⟩ := List.mem_map.mp hp
    obtain ⟨g, m⟩ := q
    rw [← hpe]
    dsimp only
    by_cases hm : m = []
    · subst hm
      decide
    · have hOK := (scanPieces_spec (stripDomainScheme d) c.data.length c.data le_rfl).2
      have hshape : matchShape (stripDomainScheme d) m :=
        piecesOK_mem_match _ hOK (g, m) hq hm
      have hie : m.isEmpty = false := by
        cases m with
        | nil => exact absurd rfl hm
        | cons x y => rfl
      rw [if_neg (show ¬(m.isEmpty = true) from by rw [hie]; exact Bool.false_ne_true)]
      exact stripReplacer_signTFree (stripDomainScheme d) m hdom hshape

/-- Claim C9: when provider timestamp signing is active and the configured
domain is host-shaped, (a) every article create persists the stripped body
content — and, for a truthy submitted cover, the stripped cover — and the
persisted strings carry no `sign`/`t` query parameters on any URL of the
configured domain; (b) every article update that supplies a content persists
its stripped form, and one that supplies a truthy cover persists its stripped
form, both likewise free of `sign`/`t` parameters; (c) every detail
read that returns a response re-signs: the delivered content is the stored
content passed through `refresh_qiniu_params_in_content` (or the protection
placeholder), and a truthy stored cover is likewise refreshed. -/
theorem c9_persisted_signature_free (settings : SettingsRec)
    (hen : is_qiniu_timestamp_enabled settings = true)
    (hdom : hostShapedDomain (stripDomainScheme settings.QINIU_DOMAIN) = true) :
    (∀ db inp newId, ∃ a,
      create_article db inp settings newId = db ++ [a] ∧
      a.content = strip_qiniu_params inp.content settings.QINIU_DOMAIN ∧
      contentSignTFree (stripDomainScheme settings.QINIU_DOMAIN) a.content.data = true ∧
      ∀ c, inp.cover = some c → c ≠ "" →
        a.cover = some (strip_qiniu_params c settings.QINIU_DOMAIN) ∧
        contentSignTFree (stripDomainScheme settings.QINIU_DOMAIN)
          (strip_qiniu_params c settings.QINIU_DOMAIN).data = true) ∧
    (∀ db article_id inp,
      ∀ b, b ∈ update_article db article_id inp settings → b.id = article_id →
        (∀ c, inp.content = some c →
          b.content = strip_qiniu_params c settings.QINIU_DOMAIN ∧
          contentSignTFree (stripDomainScheme settings.QINIU_DOMAIN) b.content.data = true) ∧
        (∀ c, inp.cover = some c → c ≠ "" →
          b.cover = some (strip_qiniu_params c settings.QINIU_DOMAIN) ∧
          contentSignTFree (stripDomainScheme settings.QINIU_DOMAIN)
            (strip_qiniu_params c settings.QINIU_DOMAIN).data = true)) ∧
    (∀ db redis article_id answer user now resp,
      (get_article db redis article_id answer user settings now).1 =
        GetArticleResult.detail resp →
      ∃ a, db.find? (fun x => x.id == article_id) = some a ∧
        ∃ sc : Bool,
          resp.code = (if sc then 200 else 403) ∧
          resp.content = (if sc then
              refresh_qiniu_params_in_content a.content settings.QINIU_DOMAIN
                settings.QINIU_TIMESTAMP_KEY settings.QINIU_TIMESTAMP_EXPIRE now
            else protectedPlaceholder) ∧
          resp.cover = (match a.cover with
            | none => none
            | some c => if c != "" then
                some (refresh_qiniu_params_in_content c settings.QINIU_DOMAIN
                  settings.QINIU_TIMESTAMP_KEY settings.QINIU_TIMESTAMP_EXPIRE now)
              else some c)) := by
  refine ⟨?_, ?_, ?_⟩
  · intro db inp newId
    refine ⟨{ id := newId, title := inp.title, summary := inp.summary,
              content := strip_qiniu_params inp.content settings.QINIU_DOMAIN,
              cover := match inp.cover with
                | some c =>
                  if is_qiniu_timestamp_enabled settings && c != "" then
                    some (strip_qiniu_params c settings.QINIU_DOMAIN)
                  else some c
                | none => none,
              is_published := inp.is_published, is_protected := inp.is_protected,
              protection_question := inp.protection_question,
              protection_answer := inp.protection_answer,
              view_count := 0, comment_count := 0, like_count := 0 }, ?_, rfl,
      strip_contentSignTFree _ _ hdom, ?_⟩
    · rw [create_article]
      rw [if_pos hen]
    · intro c hcov hcne
      refine ⟨?_, strip_contentSignTFree _ _ hdom⟩
      dsimp only
      rw [hcov]
      dsimp only
      rw [if_pos (show (is_qiniu_timestamp_enabled settings && (c != "")) = true from by
        rw [hen, Bool.true_and]
        exact bne_iff_ne.mpr hcne)]
  · intro db article_id inp b hb hbid
    rw [update_article] at hb
    obtain ⟨a, ha, hae⟩ := List.mem_map.mp hb
    by_cases hid : a.id = article_id
    · rw [if_pos hid] at hae
      constructor
      · intro c hcin
        rw [← hae]
        dsimp only
        rw [hcin]
        dsimp only
        rw [if_pos hen]
        exact ⟨rfl, strip_contentSignTFree _ _ hdom⟩
      · intro c hcov hcne
        refine ⟨?_, strip_contentSignTFree _ _ hdom⟩
        rw [← hae]
        dsimp only
        rw [hcov]
        dsimp only
        rw [if_pos (show (is_qiniu_timestamp_enabled settings && (c != "")) = true from by
          rw [hen, Bool.true_and]
          exact bne_iff_ne.mpr hcne)]
    · rw [if_neg hid] at hae
      rw [← hae] at hbid
      exact absurd hbid hid
  · intro db redis article_id answer user now resp h
    cases hfind : db.find? fun x => x.id == article_id with
    | none =>
      rw [get_article, hfind] at h
      exact absurd h (by simp)
    | some a =>
      refine ⟨a, rfl, ?_⟩
      rw [get_article, hfind] at h
      dsimp only at h
      by_cases hpub : ¬ a.is_published ∧ ¬ isAdminUser user
      · rw [if_pos hpub] at h
        exact absurd h (by simp)
      · rw [if_neg hpub] at h
        dsimp only at h
        have hresp : resp = _ := (GetArticleResult.detail.inj h).symm
        subst hresp
        clear h
        refine ⟨(if a.is_protected then
            if isAdminUser user then true
            else match answer with
              | some x => decide (x ≠ "") && (a.protection_answer == some x)
              | none => false
          else true), rfl, ?_, ?_⟩
        · cases hsc : (if a.is_protected then
              if isAdminUser user then true
              else match answer with
                | some x => decide (x ≠ "") && (a.protection_answer == some x)
                | none => false
            else true) with
          | true => simp [hen]
          | false => simp [hen]
        · dsimp only
          cases hacov : a.cover with
          | none => rfl
          | some c =>
            dsimp only
            cases hcb : c != "" with
            | true => simp [hen]
            | false => simp [hen]

theorem c9_persisted_signature_free_witness :
    is_qiniu_timestamp_enabled ⟨"d", true, "k", 3600⟩ = true ∧
    hostShapedDomain (stripDomainScheme (SettingsRec.QINIU_DOMAIN ⟨"d", true, "k", 3600⟩)) = true ∧
    ∃ a, create_article []
        ⟨"T", "s", "http://d/a?sign=1&t=2", some ("http://d/c?sign=3"), true, false, none, none⟩
        ⟨"d", true, "k", 3600⟩ 1 = [] ++ [a] ∧
      a.content = strip_qiniu_params ("http://d/a?sign=1&t=2")
        (SettingsRec.QINIU_DOMAIN ⟨"d", true, "k", 3600⟩) ∧
      contentSignTFree (stripDomainScheme (SettingsRec.QINIU_DOMAIN ⟨"d", true, "k", 3600⟩))
        a.content.data = true ∧
      ∀ c, (ArticleCreateIn.cover
          ⟨"T", "s", "http://d/a?sign=1&t=2", some ("http://d/c?sign=3"), true, false, none, none⟩)
          = some c → c ≠ "" →
        a.cover = some (strip_qiniu_params c (SettingsRec.QINIU_DOMAIN ⟨"d", true, "k", 3600⟩)) ∧
        contentSignTFree (stripDomainScheme (SettingsRec.QINIU_DOMAIN ⟨"d", true, "k", 3600⟩))
          (strip_qiniu_params c (SettingsRec.QINIU_DOMAIN ⟨"d", true, "k", 3600⟩)).data = true :=
  ⟨rfl, by with_unfolding_all rfl,
    (c9_persisted_signature_free ⟨"d", true, "k", 3600⟩ rfl
      (by with_unfolding_all rfl)).1 []
      ⟨"T", "s", "http://d/a?sign=1&t=2", some ("http://d/c?sign=3"), true, false, none, none⟩ 1⟩
